import Mathlib

/-!
Shallow embedding of the rust_tasks repository (task model, SQLite-backed
storage, remote-API storage and the two-replica synchronization engine),
together with proofs checking the claims of the specification against it.

Timestamps in the source are strings in the fixed format
"%Y-%m-%d %H:%M:%S"; string comparison on that format coincides with
lexicographic comparison of the (year, month, day, hour, minute, second)
fields, so timestamps are embedded as a structured `DateTime` with that
lexicographic order.  Calendar arithmetic (chrono) is embedded with the
standard civil-date/day-number conversions.
-/

namespace RustTasks

/-- A calendar date, as chrono `NaiveDate` (`DATE(...)` values in SQL). -/
structure Date where
  year : Int
  month : Nat
  day : Nat
deriving DecidableEq

/-- A timestamp to second precision, as chrono `NaiveDateTime` and as the
database text format "%Y-%m-%d %H:%M:%S". -/
structure DateTime where
  year : Int
  month : Nat
  day : Nat
  hour : Nat
  minute : Nat
  second : Nat
deriving DecidableEq

/-- Lexicographic strict order on dates; equals string order of
"%Y-%m-%d" renderings (zero-padded). -/
def Date.ltB (a b : Date) : Bool :=
  decide (a.year < b.year) ||
    (decide (a.year = b.year) &&
      (decide (a.month < b.month) ||
        (decide (a.month = b.month) && decide (a.day < b.day))))

/-- Non-strict order on dates. -/
def Date.leB (a b : Date) : Bool :=
  Date.ltB a b || decide (a = b)

/-- Lexicographic strict order on timestamps; equals string order of
"%Y-%m-%d %H:%M:%S" renderings. -/
def DateTime.ltB (a b : DateTime) : Bool :=
  decide (a.year < b.year) ||
    (decide (a.year = b.year) &&
      (decide (a.month < b.month) ||
        (decide (a.month = b.month) &&
          (decide (a.day < b.day) ||
            (decide (a.day = b.day) &&
              (decide (a.hour < b.hour) ||
                (decide (a.hour = b.hour) &&
                  (decide (a.minute < b.minute) ||
                    (decide (a.minute = b.minute) &&
                      decide (a.second < b.second))))))))))

/-- Non-strict order on timestamps. -/
def DateTime.leB (a b : DateTime) : Bool :=
  DateTime.ltB a b || decide (a = b)

/-- Rust `Option<String> >` on timestamps: `None` is smaller than any
`Some`, and two `Some`s compare by the underlying string order. -/
def optDTgtB : Option DateTime → Option DateTime → Bool
  | none, _ => false
  | some _, none => true
  | some a, some b => DateTime.ltB b a

/-- The calendar date of a timestamp (`DATE(x)` in SQL, `date_naive` in
chrono). -/
def DateTime.dateOf (dt : DateTime) : Date :=
  { year := dt.year, month := dt.month, day := dt.day }

/-- Leap-year predicate of the Gregorian calendar. -/
def isLeap (y : Int) : Bool :=
  (decide (y % 4 = 0) && decide (y % 100 ≠ 0)) || decide (y % 400 = 0)

/-- Number of days of month `m` in year `y`. -/
def daysInMonth (y : Int) (m : Nat) : Nat :=
  if m = 2 then (if isLeap y then 29 else 28)
  else if m = 4 ∨ m = 6 ∨ m = 9 ∨ m = 11 then 30
  else 31

/-- Days since 1970-01-01 of a civil date (standard civil-calendar
conversion, as used by chrono internally). -/
def daysFromCivil (y : Int) (m d : Nat) : Int :=
  let y2 : Int := if m ≤ 2 then y - 1 else y
  let era : Int := Int.ediv y2 400
  let yoe : Int := y2 - era * 400
  let mp : Int := if m > 2 then (m : Int) - 3 else (m : Int) + 9
  let doy : Int := Int.ediv (153 * mp + 2) 5 + (d : Int) - 1
  let doe : Int := yoe * 365 + Int.ediv yoe 4 - Int.ediv yoe 100 + doy
  era * 146097 + doe - 719468

/-- Civil date of a count of days since 1970-01-01 (inverse conversion). -/
def civilFromDays (z0 : Int) : Date :=
  let z := z0 + 719468
  let era := Int.ediv z 146097
  let doe := z - era * 146097
  let yoe :=
    Int.ediv (doe - Int.ediv doe 1460 + Int.ediv doe 36524 - Int.ediv doe 146096) 365
  let y := yoe + era * 400
  let doy := doe - (365 * yoe + Int.ediv yoe 4 - Int.ediv yoe 100)
  let mp := Int.ediv (5 * doy + 2) 153
  let d := doy - Int.ediv (153 * mp + 2) 5 + 1
  let m := if mp < 10 then mp + 3 else mp - 9
  { year := if m ≤ 2 then y + 1 else y, month := m.toNat, day := d.toNat }

/-- Seconds since the epoch of a timestamp. -/
def DateTime.toSecs (dt : DateTime) : Int :=
  daysFromCivil dt.year dt.month dt.day * 86400 +
    (dt.hour : Int) * 3600 + (dt.minute : Int) * 60 + (dt.second : Int)

/-- Timestamp of a count of seconds since the epoch. -/
def fromSecs (s : Int) : DateTime :=
  let days := Int.ediv s 86400
  let rem := (Int.emod s 86400).toNat
  let dc := civilFromDays days
  { year := dc.year, month := dc.month, day := dc.day,
    hour := rem / 3600, minute := rem % 3600 / 60, second := rem % 60 }

/-- Day of the week of a timestamp: 0 = Sunday, ..., 4 = Thursday,
5 = Friday, 6 = Saturday (1970-01-01 was a Thursday). -/
def weekdayN (dt : DateTime) : Nat :=
  (Int.emod (daysFromCivil dt.year dt.month dt.day + 4) 7).toNat

/-- `date - n days` (chrono `NaiveDate - Duration::days(n)`). -/
def dateSub (d : Date) (n : Nat) : Date :=
  civilFromDays (daysFromCivil d.year d.month d.day - (n : Int))

/-- Adding an instant duration of `k` days to a timestamp
(chrono `dt.add(Duration)` for a pure-days duration). -/
def addDaysDT (dt : DateTime) (k : Nat) : DateTime :=
  fromSecs (dt.toSecs + (k : Int) * 86400)

/-- chrono `checked_add_months`: calendar-aware month addition, clamping
the day to the length of the target month; adding zero months is the
identity. -/
def addMonths (dt : DateTime) (n : Nat) : DateTime :=
  if n = 0 then dt
  else
    let tm : Int := dt.year * 12 + ((dt.month : Int) - 1) + (n : Int)
    let y := Int.ediv tm 12
    let m := (Int.emod tm 12).toNat + 1
    { dt with year := y, month := m, day := min dt.day (daysInMonth y m) }

/-- The parsed fields of an ISO-8601 duration as in the
`iso8601_duration` crate (fractional values are out of scope; the
repository only uses whole units). -/
structure IsoDur where
  year : Nat
  month : Nat
  day : Nat
  hour : Nat
  minute : Nat
  second : Nat
deriving DecidableEq

/-- Read a run of leading digits (accumulator form). -/
def parseNumAux (acc : Nat) : List Char → Nat × List Char
  | [] => (acc, [])
  | c :: cs =>
      if c.isDigit then parseNumAux (acc * 10 + (c.toNat - 48)) cs
      else (acc, c :: cs)

/-- One designator-parsing pass of the ISO-8601 duration grammar
`P [nY] [nM] [nD] [T [nH] [nM] [nS]]`; `fuel` bounds recursion. -/
def parseUnits (inTime : Bool) (acc : IsoDur) : Nat → List Char → Option IsoDur
  | _, [] => some acc
  | 0, _ :: _ => none
  | fuel + 1, c :: cs =>
      if c = 'T' then
        if inTime then none else parseUnits true acc fuel cs
      else if c.isDigit then
        let p := parseNumAux 0 (c :: cs)
        match p.2 with
        | [] => none
        | u :: rest2 =>
            if inTime then
              if u = 'H' then parseUnits true { acc with hour := p.1 } fuel rest2
              else if u = 'M' then parseUnits true { acc with minute := p.1 } fuel rest2
              else if u = 'S' then parseUnits true { acc with second := p.1 } fuel rest2
              else none
            else
              if u = 'Y' then parseUnits false { acc with year := p.1 } fuel rest2
              else if u = 'M' then parseUnits false { acc with month := p.1 } fuel rest2
              else if u = 'D' then parseUnits false { acc with day := p.1 } fuel rest2
              else none
      else none

/-- Parse an ISO-8601 duration string, as `str::parse` into
`iso8601_duration::Duration`. -/
def parseIsoDuration (s : String) : Option IsoDur :=
  match s.toList with
  | 'P' :: rest =>
      if rest = [] then none
      else parseUnits false ⟨0, 0, 0, 0, 0, 0⟩ (rest.length + 1) rest
  | _ => none

/-- `Duration::to_chrono_at_datetime`: the length in seconds of an ISO
duration anchored at a timestamp — year/month parts are applied
calendar-wise at the anchor, the day/time parts are fixed seconds. -/
def toChronoAt (dt : DateTime) (d : IsoDur) : Int :=
  ((addMonths dt (12 * d.year + d.month)).toSecs - dt.toSecs) +
    ((d.day : Int) * 86400 + (d.hour : Int) * 3600 +
      (d.minute : Int) * 60 + (d.second : Int))

/-- Rust `String::ends_with`, via character lists. -/
def strEndsWith (s suffix : String) : Bool :=
  List.isSuffixOf suffix.toList s.toList

/-- The task entity (struct `Task` in tasks.rs); timestamp strings are
embedded structurally, `priority_adjustment` values are embedded as
integers (no claim depends on fractional priorities). -/
structure Task where
  ulid : String
  body : String
  modified_utc : Option DateTime
  ready_utc : Option DateTime
  due_utc : Option DateTime
  closed_utc : Option DateTime
  recurrence_duration : Option String
  priority_adjustment : Option Int
  user : Option String
  metadata : Option String
  tags : Option (List String)
deriving DecidableEq

/-- The content view of a task used by the sync engine: the task with
`modified_utc` cleared (`Task { modified_utc: None, ..t.clone() }`). -/
def taskClean (t : Task) : Task :=
  { t with modified_utc := none }

/-- `Task::next_task` (tasks.rs): derive the next occurrence of a
recurring task.  A rule ending in "1JD" is replaced by "P3D"/"P2D"/"P1D"
according to the weekday of the due date before the general duration
parser runs; the resulting instant duration is added to `due_utc` and,
when present, `ready_utc`, and the fresh identifier `freshUlid`
(generated by `Ulid::new` in the source) names the new occurrence.
Paths on which the source panics (missing due date, unparseable
duration) are embedded as `none`. -/
def nextTask (freshUlid : String) (t : Task) : Option Task :=
  match t.recurrence_duration with
  | none => none
  | some x =>
      match t.due_utc with
      | none => none
      | some due =>
          let durationString :=
            if strEndsWith x "1JD" then
              if weekdayN due = 5 then "P3D"
              else if weekdayN due = 6 then "P2D"
              else "P1D"
            else x
          match parseIsoDuration durationString with
          | none => none
          | some dur =>
              let chronoSecs := toChronoAt due dur
              some { t with
                      ulid := freshUlid,
                      due_utc := some (fromSecs (due.toSecs + chronoSecs)),
                      ready_utc := t.ready_utc.map
                        (fun r => fromSecs (r.toSecs + chronoSecs)) }

/-- One stored row of the `tasks` table (sqlite_storage.rs schema):
`tasks(ulid PK, body, modified_utc, ready_utc, due_utc, closed_utc,
recurrence_duration, priority_adjustment, user, metadata)`. -/
structure Row where
  ulid : String
  body : String
  modified_utc : Option DateTime
  ready_utc : Option DateTime
  due_utc : Option DateTime
  closed_utc : Option DateTime
  recurrence_duration : Option String
  priority_adjustment : Option Int
  user : Option String
  metadata : Option String
deriving DecidableEq

/-- The SQLite storage state: the `tasks` table, the `task_to_tag` table
as ordered (task_ulid, tag) pairs — the synthetic random per-row key of
the source is only ever used as a primary key and is not observable, so
it is not modeled — and the `deleted_tasks` tombstone table as ordered
(task_ulid, modified_utc) pairs. -/
structure DB where
  tasks : List Row
  tags : List (String × String)
  tombstones : List (String × Option DateTime)
deriving DecidableEq

/-- `tag LIKE '%pat'` on identifiers (search_using_ulid), via character
lists; identifiers contain no SQL wildcard characters. -/
def likeSuffix (pat s : String) : Bool :=
  List.isSuffixOf pat.toList s.toList

/-- The characters of a comma-joined tag list (`group_concat`). -/
def joinComma : List String → List Char
  | [] => []
  | [s] => s.toList
  | s :: rest => s.toList ++ ',' :: joinComma rest

/-- Rust `str::split(',')` on character lists: always returns at least
one (possibly empty) piece. -/
def splitCommaCore : List Char → List (List Char)
  | [] => [[]]
  | c :: rest =>
      if c = ',' then [] :: splitCommaCore rest
      else
        match splitCommaCore rest with
        | [] => [[c]]
        | p :: ps => (c :: p) :: ps

/-- Comma-splitting a string into strings. -/
def splitComma (cs : List Char) : List String :=
  (splitCommaCore cs).map (fun l => String.mk l)

/-- Tags recorded for one task identifier in a tag table, in table
order. -/
def pairsFor (tags : List (String × String)) (u : String) : List String :=
  (tags.filter (fun p => p.1 == u)).map (fun p => p.2)

/-- Tags stored for one task identifier, in table order. -/
def DB.tagsFor (db : DB) (u : String) : List String :=
  pairsFor db.tags u

/-- The `tags` column of `tasks_view` read back through the row mapper:
`group_concat` yields NULL when the task has no tags, else the
comma-joined list, which get_tasks splits on commas again. -/
def readTags (l : List String) : Option (List String) :=
  if l.isEmpty then none else some (splitComma (joinComma l))

/-- The row mapper of `SQLiteStorage::get_tasks`: note that
`priority_adjustment` is hard-coded to `None` on read
("filler value to stop weird increments" in the source). -/
def rowToTask (db : DB) (r : Row) : Task :=
  { ulid := r.ulid, body := r.body, modified_utc := r.modified_utc,
    ready_utc := r.ready_utc, due_utc := r.due_utc,
    closed_utc := r.closed_utc,
    recurrence_duration := r.recurrence_duration,
    priority_adjustment := none,
    user := r.user, metadata := r.metadata,
    tags := readTags (db.tagsFor r.ulid) }

/-- `SQLiteStorage::get_tasks` over `tasks_view`, with the extra SQL
clause embedded as a row predicate. -/
def DB.get_tasks (db : DB) (p : Row → Bool) : List Task :=
  (db.tasks.filter p).map (rowToTask db)

/-- `SQLiteStorage::unsafe_query`: the caller-supplied clause, verbatim,
as a row predicate. -/
def DB.unsafe_query (db : DB) (p : Row → Bool) : List Task :=
  db.get_tasks p

/-- `SQLiteStorage::search_using_ulid`: `WHERE ulid LIKE '%{u}'`. -/
def DB.search_using_ulid (db : DB) (u : String) : List Task :=
  db.get_tasks (fun r => likeSuffix u r.ulid)

/-- Insert tag pairs with `ON CONFLICT DO NOTHING` under the
`UNIQUE(task_ulid, tag)` constraint. -/
def insertTags (tags : List (String × String)) (u : String) : List String → List (String × String)
  | [] => tags
  | x :: xs =>
      insertTags (if (u, x) ∈ tags then tags else tags ++ [(u, x)]) u xs

/-- The row the INSERT statement of `SQLiteStorage::save` writes:
every column from the task, with `modified_utc` set to now. -/
def savedRow (now : DateTime) (t : Task) : Row :=
  { ulid := t.ulid, body := t.body, modified_utc := some now,
    ready_utc := t.ready_utc, due_utc := t.due_utc,
    closed_utc := t.closed_utc,
    recurrence_duration := t.recurrence_duration,
    priority_adjustment := t.priority_adjustment,
    user := t.user, metadata := t.metadata }

/-- `SQLiteStorage::save`: INSERT of the task row (primary-key conflict
on an existing identifier surfaces as an error) with `modified_utc` set
to now, then insertion of its tags. -/
def DB.save (db : DB) (now : DateTime) (t : Task) : Except Unit DB :=
  if db.tasks.any (fun r => r.ulid == t.ulid) then .error ()
  else
    .ok { db with
          tasks := db.tasks ++ [savedRow now t],
          tags := insertTags db.tags t.ulid (t.tags.getD []) }

/-- The column assignments of the UPDATE statement of
`SQLiteStorage::update`: every mutable column is replaced from the task
and `modified_utc` is refreshed to now; the primary key is untouched. -/
def applyUpdate (now : DateTime) (t : Task) (r : Row) : Row :=
  { r with body := t.body, modified_utc := some now,
           ready_utc := t.ready_utc, due_utc := t.due_utc,
           closed_utc := t.closed_utc,
           recurrence_duration := t.recurrence_duration,
           priority_adjustment := t.priority_adjustment,
           user := t.user, metadata := t.metadata }

/-- `SQLiteStorage::update`: UPDATE of all mutable columns of the rows
matching the identifier (zero matching rows is not an error), refreshing
`modified_utc` to now, then replacement of the tag set. -/
def DB.update (db : DB) (now : DateTime) (t : Task) : DB :=
  { db with
    tasks := db.tasks.map (fun r =>
      if r.ulid == t.ulid then applyUpdate now t r else r),
    tags := insertTags (db.tags.filter (fun p => p.1 != t.ulid)) t.ulid
      (t.tags.getD []) }

/-- `SQLiteStorage::delete`: bails when no task has the exact
identifier; otherwise removes the task row(s), inserts a tombstone with
the current time (a primary-key conflict with an existing tombstone
surfaces as an error; the partial state the source leaves behind in that
case is not modeled, claims only concern successful passes) and removes
the tags. -/
def DB.delete (db : DB) (now : DateTime) (t : Task) : Except Unit DB :=
  if (db.tasks.filter (fun r => r.ulid == t.ulid)).length = 0 then .error ()
  else if db.tombstones.any (fun p => p.1 == t.ulid) then .error ()
  else
    .ok { tasks := db.tasks.filter (fun r => r.ulid != t.ulid),
          tags := db.tags.filter (fun p => p.1 != t.ulid),
          tombstones := db.tombstones ++ [(t.ulid, some now)] }

/-- `modified_utc > '{cutoff date}' OR modified_utc IS NULL` — the SQL
string comparison of a datetime against a date string is a prefix
comparison, so it holds exactly when the datetime's date is at least the
cutoff date (or the column is NULL). -/
def inWindowOpt (cutoff : Date) : Option DateTime → Bool
  | none => true
  | some d => Date.leB cutoff d.dateOf

/-- `SQLiteStorage::deleted_ulids`: identifiers tombstoned within the
last `nDays` days, or with an unknown deletion time. -/
def DB.deleted_ulids (db : DB) (nDays : Nat) (now : DateTime) : List String :=
  (db.tombstones.filter (fun p => inWindowOpt (dateSub now.dateOf nDays) p.2)).map
    (fun p => p.1)

/-- `ORDER BY due_utc ASC` key (SQLite puts NULLs first on ASC; NULL due
dates never pass the next_tasks filter). -/
def dueLtB : Option DateTime → Option DateTime → Bool
  | none, none => false
  | none, some _ => true
  | some _, none => false
  | some a, some b => DateTime.ltB a b

/-- `priority DESC` key (SQLite puts NULLs last on DESC). -/
def prioGtB : Option Int → Option Int → Bool
  | none, _ => false
  | some _, none => true
  | some a, some b => decide (b < a)

/-- The composite ORDER BY comparator of next_tasks:
due date ascending, then stored priority descending. -/
def rowLeB (a b : Row) : Bool :=
  if a.due_utc = b.due_utc then
    prioGtB a.priority_adjustment b.priority_adjustment ||
      decide (a.priority_adjustment = b.priority_adjustment)
  else dueLtB a.due_utc b.due_utc

/-- Insertion into a sorted list. -/
def insertSorted (le : α → α → Bool) (x : α) : List α → List α
  | [] => [x]
  | y :: ys => if le x y then x :: y :: ys else y :: insertSorted le x ys

/-- Insertion sort (the ORDER BY of the embedded queries). -/
def insertionSort (le : α → α → Bool) : List α → List α
  | [] => []
  | x :: xs => insertSorted le x (insertionSort le xs)

/-- The WHERE clause of `SQLiteStorage::next_tasks`: due on or before
today, not closed, and no pending readiness gate. -/
def nextFilter (now : DateTime) (r : Row) : Bool :=
  (match r.due_utc with
   | none => false
   | some d => Date.leB d.dateOf now.dateOf) &&
  decide (r.closed_utc = none) &&
  (match r.ready_utc with
   | none => true
   | some rdy => DateTime.leB rdy now)

/-- `SQLiteStorage::next_tasks`: filter, order by due date ascending
then priority descending, limit `n`. -/
def DB.next_tasks (db : DB) (now : DateTime) (n : Nat) : List Task :=
  ((insertionSort rowLeB (db.tasks.filter (nextFilter now))).take n).map
    (rowToTask db)

/-- One write performed by the sync engine against a replica
(`toSelf = true` targets the replica sync was invoked on, i.e. the local
side; `toSelf = false` targets the peer passed to sync, i.e. the remote
side). -/
inductive WriteOp where
  | saveOp (toSelf : Bool) (t : Task)
  | updateOp (toSelf : Bool) (t : Task)
  | deleteOp (toSelf : Bool) (u : String)
deriving DecidableEq

/-- The generic shape of the sync engine's create-or-heal step over any
`TaskStorage`: attempt the save, and exactly when it returned an error,
return the result of the update instead (`if let Err(_) =
storage.save(t) { storage.update(t)? }` in the source). -/
def saveOrUpdate {ε σ : Type} (saveRes updateRes : Except ε σ) : Except ε σ :=
  match saveRes with
  | .ok s => .ok s
  | .error _ => updateRes

/-- The create-or-heal step instantiated at the embedded database
backend: save the record on the destination replica, falling back to
update when the save fails; the Bool reports whether the save succeeded
(the source decrements its added counter and increments its updated
counter on the fallback path). -/
def syncMissing (dst : DB) (now : DateTime) (t : Task) : DB × Bool :=
  match dst.save now t with
  | .ok db2 => (db2, true)
  | .error _ => (dst.update now t, false)

/-- The both-present branch of the sync content loop: skip identical
records, skip records equal up to `modified_utc`, otherwise last-write
wins — the side with the later `modified_utc` (Rust `Option` order on
the timestamp strings) overwrites the other via update. -/
def syncPairStep (now : DateTime) (selfDB otherDB : DB) (tr : List WriteOp)
    (selfTask otherTask : Task) : DB × DB × List WriteOp :=
  if otherTask = selfTask then (selfDB, otherDB, tr)
  else if taskClean otherTask = taskClean selfTask then (selfDB, otherDB, tr)
  else if optDTgtB otherTask.modified_utc selfTask.modified_utc then
    (DB.update selfDB now otherTask, otherDB, tr ++ [.updateOp true otherTask])
  else
    (selfDB, DB.update otherDB now selfTask, tr ++ [.updateOp false selfTask])

/-- First loop of `sync_deleted`: for each locally tombstoned identifier
not tombstoned on the peer, delete the peer's live copy when one exists
(searching by identifier suffix and deleting the first match). -/
def delLoop1 (now : DateTime) (otherDeleted : List String) (other : DB)
    (tr : List WriteOp) : List String → Except Unit (DB × List WriteOp)
  | [] => .ok (other, tr)
  | u :: rest =>
      if u ∈ otherDeleted then delLoop1 now otherDeleted other tr rest
      else
        match other.search_using_ulid u with
        | [] => delLoop1 now otherDeleted other tr rest
        | t :: _ =>
            match other.delete now t with
            | .error e => .error e
            | .ok other2 =>
                delLoop1 now otherDeleted other2 (tr ++ [.deleteOp false t.ulid]) rest

/-- Second loop of `sync_deleted`: the mirror direction, deleting local
live copies of identifiers tombstoned only on the peer. -/
def delLoop2 (now : DateTime) (selfDeleted : List String) (selfDB : DB)
    (tr : List WriteOp) : List String → Except Unit (DB × List WriteOp)
  | [] => .ok (selfDB, tr)
  | u :: rest =>
      if u ∈ selfDeleted then delLoop2 now selfDeleted selfDB tr rest
      else
        match selfDB.search_using_ulid u with
        | [] => delLoop2 now selfDeleted selfDB tr rest
        | t :: _ =>
            match selfDB.delete now t with
            | .error e => .error e
            | .ok selfDB2 =>
                delLoop2 now selfDeleted selfDB2 (tr ++ [.deleteOp true t.ulid]) rest

/-- `SQLiteStorage::sync_deleted`: fetch both tombstone windows up
front, then run both propagation loops. -/
def sync_deleted (selfDB otherDB : DB) (now : DateTime) (nDays : Nat) :
    Except Unit (DB × DB × List WriteOp) :=
  let sd := selfDB.deleted_ulids nDays now
  let od := otherDB.deleted_ulids nDays now
  match delLoop1 now od otherDB [] sd with
  | .error e => .error e
  | .ok (other2, tr1) =>
      match delLoop2 now sd selfDB tr1 od with
      | .error e => .error e
      | .ok (self2, tr2) => .ok (self2, other2, tr2)

/-- Lookup in a fetched identifier-keyed task map
(`create_tasks_hashmap` + `HashMap::get`; fetched identifiers are
distinct since `ulid` is the primary key). -/
def findTask (l : List Task) (u : String) : Option Task :=
  l.find? (fun t => t.ulid == u)

/-- First content loop of `sync`: iterate the local window, pushing
identifiers missing remotely via save-or-update, and reconciling
identifiers present on both sides via `syncPairStep`. -/
def loop1 (now : DateTime) (otherMap : List Task) (selfDB otherDB : DB)
    (tr : List WriteOp) : List Task → Except Unit (DB × DB × List WriteOp)
  | [] => .ok (selfDB, otherDB, tr)
  | t :: rest =>
      match findTask otherMap t.ulid with
      | none =>
          match syncMissing otherDB now t with
          | (o2, true) => loop1 now otherMap selfDB o2 (tr ++ [.saveOp false t]) rest
          | (o2, false) => loop1 now otherMap selfDB o2 (tr ++ [.updateOp false t]) rest
      | some ot =>
          match syncPairStep now selfDB otherDB tr t ot with
          | (s2, o2, tr2) => loop1 now otherMap s2 o2 tr2 rest

/-- Second content loop of `sync`: pull identifiers present only in the
remote window into the local replica via save-or-update. -/
def loop2 (now : DateTime) (selfMap : List Task) (selfDB : DB)
    (tr : List WriteOp) : List Task → Except Unit (DB × List WriteOp)
  | [] => .ok (selfDB, tr)
  | t :: rest =>
      if (findTask selfMap t.ulid).isSome then loop2 now selfMap selfDB tr rest
      else
        match syncMissing selfDB now t with
        | (s2, true) => loop2 now selfMap s2 (tr ++ [.saveOp true t]) rest
        | (s2, false) => loop2 now selfMap s2 (tr ++ [.updateOp true t]) rest

/-- The change-window row predicate of `sync`:
`WHERE modified_utc > '{now - nDays}' OR modified_utc IS NULL`. -/
def windowClause (cutoff : Date) (r : Row) : Bool :=
  inWindowOpt cutoff r.modified_utc

/-- `SQLiteStorage::sync` between two embedded-database replicas:
tombstone reconciliation first, then the two content loops over the
fetched change windows, threading the trace of effective writes.  The
loops iterate the fetched lists in order (the source iterates hash-map
keys in unspecified order over the same distinct key sets). -/
def sync (selfDB otherDB : DB) (now : DateTime) (nDays : Nat) :
    Except Unit (DB × DB × List WriteOp) :=
  match sync_deleted selfDB otherDB now nDays with
  | .error e => .error e
  | .ok (self1, other1, tr1) =>
      let cutoff := dateSub now.dateOf nDays
      let selfTasks := self1.unsafe_query (windowClause cutoff)
      let otherTasks := other1.unsafe_query (windowClause cutoff)
      match loop1 now otherTasks self1 other1 tr1 selfTasks with
      | .error e => .error e
      | .ok (self2, other2, tr2) =>
          match loop2 now selfTasks self2 tr2 otherTasks with
          | .error e => .error e
          | .ok (self3, tr3) => .ok (self3, other2, tr3)

/-- The `patch_task` handler of the tasks server: rejects a path/body
identifier mismatch, then runs the embedded-database update. -/
def patchTask (server : DB) (now : DateTime) (pathUlid : String) (t : Task) :
    Except Unit DB :=
  if pathUlid ≠ t.ulid then .error () else .ok (server.update now t)

/-- `APIStorage::update`: PATCH `/tasks/{task.ulid}` with the task body,
handled by `patch_task` on the server side. -/
def apiUpdate (server : DB) (now : DateTime) (t : Task) : Except Unit DB :=
  patchTask server now t.ulid t

/-- The `delete_task` handler of the tasks server: search by identifier
suffix, reject anything but exactly one match, then run the
embedded-database delete on the match. -/
def serverDeleteTask (server : DB) (now : DateTime) (u : String) :
    Except Unit DB :=
  let tasks := server.search_using_ulid u
  if tasks.length ≠ 1 then .error ()
  else
    match tasks with
    | [] => .error ()
    | t :: _ => server.delete now t

/-- `APIStorage::delete`: first searches the server for the identifier
and, when nothing is found, saves the task remotely before issuing the
DELETE call ("temporary soln that ensures syncs also works with delete
and remove APIs" in the source). -/
def apiDelete (server : DB) (now : DateTime) (t : Task) : Except Unit DB :=
  let found := server.search_using_ulid t.ulid
  match (if found.length = 0 then server.save now t else .ok server) with
  | .error e => .error e
  | .ok server2 => serverDeleteTask server2 now t.ulid

/-- A string without commas (a tag that survives the comma-joined
`tags_view` round trip). -/
def commaFree (s : String) : Prop := ',' ∉ s.toList

/-- Well-formedness of a task's tag set as produced by any read: absent,
or a nonempty duplicate-free list of comma-free tags. -/
def TagsWF : Option (List String) → Prop
  | none => True
  | some l => l ≠ [] ∧ l.Nodup ∧ ∀ s ∈ l, commaFree s

/-- Database well-formedness: primary keys are unique (`ulid` on tasks,
`(task_ulid, tag)` on tags, `task_ulid` on tombstones), stored tags are
comma-free, and tag rows reference live tasks. -/
def DB.WF (db : DB) : Prop :=
  (db.tasks.map (fun r => r.ulid)).Nodup ∧
  db.tags.Nodup ∧
  (db.tombstones.map (fun p => p.1)).Nodup ∧
  (∀ p ∈ db.tags, commaFree p.2) ∧
  (∀ p ∈ db.tags, p.1 ∈ db.tasks.map (fun r => r.ulid))

/-- All identifiers a sync run can search for or write to. -/
def DB.allIds (db : DB) : List String :=
  db.tasks.map (fun r => r.ulid) ++ db.tombstones.map (fun p => p.1)

/-- No identifier is a proper suffix of another (true of fixed-length
ULIDs); under this, the suffix searches of the sync engine behave as
exact-identifier lookups. -/
def SuffFree (ids : List String) : Prop :=
  ∀ a ∈ ids, ∀ b ∈ ids, likeSuffix a b = true → a = b

/-- No identifier tombstoned within the window is still live on the same
replica (deletion normally removes the row; only a re-save of a deleted
identifier can violate this). -/
def LiveTombDisj (db : DB) (nDays : Nat) (now : DateTime) : Prop :=
  ∀ u ∈ db.deleted_ulids nDays now, ∀ r ∈ db.tasks, r.ulid ≠ u

/-- The stored row with the given exact identifier, if any. -/
def DB.rowOf (db : DB) (u : String) : Option Row :=
  db.tasks.find? (fun r => r.ulid == u)

/-- The task with the given exact identifier as any read operation
reports it, if a row exists. -/
def DB.readTask (db : DB) (u : String) : Option Task :=
  (db.rowOf u).map (rowToTask db)

/-- The weekday-adjusted day offset of the business-day recurrence
token: 3 days from a Friday, 2 from a Saturday, otherwise 1. -/
def jdOffset (d : DateTime) : Nat :=
  if weekdayN d = 5 then 3 else if weekdayN d = 6 then 2 else 1

/-- A task with the given identifier and body and no optional fields. -/
def plainTask (u b : String) : Task :=
  { ulid := u, body := b, modified_utc := none, ready_utc := none,
    due_utc := none, closed_utc := none, recurrence_duration := none,
    priority_adjustment := none, user := none, metadata := none,
    tags := none }

/-- A stored row with the given identifier, body and modification time
and no other optional fields. -/
def plainRow (u b : String) (md : Option DateTime) : Row :=
  { ulid := u, body := b, modified_utc := md, ready_utc := none,
    due_utc := none, closed_utc := none, recurrence_duration := none,
    priority_adjustment := none, user := none, metadata := none }

/-- The empty storage state (a freshly created database). -/
def emptyDB : DB := { tasks := [], tags := [], tombstones := [] }

/-- A fixed wall-clock instant used by the concrete scenarios. -/
def cnow : DateTime := ⟨2023, 8, 10, 13, 0, 0⟩

/-- Local replica of the equal-timestamp conflict scenario: one task
`x1` with body "localbody", modified 2023-08-09 01:00:00. -/
def tieSelfDB : DB :=
  { tasks := [plainRow "x1" "localbody" (some ⟨2023, 8, 9, 1, 0, 0⟩)],
    tags := [], tombstones := [] }

/-- Remote replica of the equal-timestamp conflict scenario: same
identifier and modification time, body "remotebody". -/
def tieOtherDB : DB :=
  { tasks := [plainRow "x1" "remotebody" (some ⟨2023, 8, 9, 1, 0, 0⟩)],
    tags := [], tombstones := [] }

/-- The sync outcome of the equal-timestamp conflict scenario. -/
def tieRes : DB × DB × List WriteOp :=
  (sync tieSelfDB tieOtherDB cnow 7).toOption.getD (tieSelfDB, tieOtherDB, [])

/-- Local replica of the resurrection scenario: identifier `u1` is both
live (a legacy row with no modification time) and tombstoned within the
window — reachable by save, delete, save again, since save does not
clear tombstones. -/
def zombieSelfDB : DB :=
  { tasks := [plainRow "u1" "zombie" none], tags := [],
    tombstones := [("u1", some ⟨2023, 8, 10, 12, 0, 0⟩)] }

/-- The outcome of the first sync run of the resurrection scenario
against an empty peer. -/
def zombieRes1 : DB × DB × List WriteOp :=
  (sync zombieSelfDB emptyDB cnow 7).toOption.getD (zombieSelfDB, emptyDB, [])

/-- The outcome of the immediately repeated sync run of the resurrection
scenario, with no intervening mutation. -/
def zombieRes2 : DB × DB × List WriteOp :=
  (sync zombieRes1.1 zombieRes1.2.1 cnow 7).toOption.getD
    (zombieRes1.1, zombieRes1.2.1, [])

/-- A task with a stored priority adjustment, for the save round-trip
scenario. -/
def prioTask : Task := { plainTask "p1" "pbody" with priority_adjustment := some 1 }

/-- The storage state after saving `prioTask` into an empty database. -/
def prioDB : DB := ((emptyDB.save cnow prioTask).toOption).getD emptyDB

/-- Local replica of the deletion-propagation scenario: no live tasks,
one tombstone for `d1` inside the sync window. -/
def delSelfDB : DB :=
  { tasks := [], tags := [],
    tombstones := [("d1", some ⟨2023, 8, 10, 12, 0, 0⟩)] }

/-- Peer replica of the deletion-propagation scenario: an independently
held live, unmodified copy of `d1`, not tombstoned. -/
def delOtherDB : DB :=
  { tasks := [plainRow "d1" "peer" (some ⟨2023, 8, 9, 1, 0, 0⟩)],
    tags := [], tombstones := [] }

/-- The peer replica after the deletion of `d1` has propagated to it. -/
def delOtherSynced : DB :=
  { tasks := [], tags := [], tombstones := [("d1", some cnow)] }


/-- Two states agree on one identifier slice: same stored row, same
stored tags. -/
def SliceEq (db1 db2 : DB) (u : String) : Prop :=
  db1.rowOf u = db2.rowOf u ∧ db1.tagsFor u = db2.tagsFor u

/-- A state holds at `u` exactly the record a write of task `w` at time
`now` produces: the saved row and the task's tag list. -/
def WrittenSlice (db : DB) (now : DateTime) (w : Task) (u : String) : Prop :=
  db.rowOf u = some (savedRow now w) ∧ db.tagsFor u = w.tags.getD []

end RustTasks

deriving instance DecidableEq for Except

namespace RustTasks

/-- Strict timestamp order is irreflexive. -/
theorem dtLtB_irrefl (a : DateTime) : DateTime.ltB a a = false := by
  simp [DateTime.ltB]

/-- The Rust `Option` order on timestamps is irreflexive. -/
theorem optDTgtB_irrefl (m : Option DateTime) : optDTgtB m m = false := by
  cases m <;> simp [optDTgtB, dtLtB_irrefl]

/-- `LIKE '%u'` matches `u` itself. -/
theorem likeSuffix_refl (u : String) : likeSuffix u u = true :=
  List.isSuffixOf_iff_suffix.mpr (List.suffix_refl _)

/-- Equal strings satisfy the suffix match. -/
theorem likeSuffix_of_eq {u v : String} (h : v = u) : likeSuffix u v = true := by
  rw [h]; exact likeSuffix_refl u

/-- C1 (amended): in the content loop, when the two records of a shared
identifier have equal `modified_utc` but different content, the conflict
is resolved in favor of the local side: the remote record is overwritten
via update with the local record and the local replica is untouched. -/
theorem syncPairStep_tie_favors_local
    (now : DateTime) (selfDB otherDB : DB) (tr : List WriteOp)
    (tSelf tOther : Task)
    (hmod : tOther.modified_utc = tSelf.modified_utc)
    (hdiff : taskClean tOther ≠ taskClean tSelf) :
    syncPairStep now selfDB otherDB tr tSelf tOther =
      (selfDB, otherDB.update now tSelf, tr ++ [.updateOp false tSelf]) := by
  have hne : tOther ≠ tSelf := fun h => hdiff (by rw [h])
  simp [syncPairStep, hne, hdiff, hmod, optDTgtB_irrefl]

/-- C1 (witness): the equal-timestamp branch applied at a concrete
conflicting pair. -/
theorem syncPairStep_tie_favors_local_witness :
    ((plainTask "w" "b").modified_utc = (plainTask "w" "a").modified_utc ∧
      taskClean (plainTask "w" "b") ≠ taskClean (plainTask "w" "a")) ∧
    syncPairStep cnow emptyDB emptyDB [] (plainTask "w" "a") (plainTask "w" "b") =
      (emptyDB, emptyDB.update cnow (plainTask "w" "a"),
        [.updateOp false (plainTask "w" "a")]) :=
  ⟨⟨by decide, by decide⟩,
    syncPairStep_tie_favors_local cnow emptyDB emptyDB [] (plainTask "w" "a")
      (plainTask "w" "b") (by decide) (by decide)⟩

/-- C1 (counterexample): a full sync over two single-task replicas whose
records share an identifier and a `modified_utc` but differ in body.
The run succeeds, the local replica is left byte-identical while the
remote record is overwritten with the local body — the opposite of
resolving in favor of the remote side. -/
theorem sync_tie_counterexample :
    (tieSelfDB.readTask "x1").map Task.modified_utc =
      (tieOtherDB.readTask "x1").map Task.modified_utc ∧
    (tieSelfDB.readTask "x1").map Task.body = some "localbody" ∧
    (tieOtherDB.readTask "x1").map Task.body = some "remotebody" ∧
    (sync tieSelfDB tieOtherDB cnow 7).isOk = true ∧
    tieRes.1 = tieSelfDB ∧
    (tieRes.2.1.readTask "x1").map Task.body = some "localbody" := by
  decide

/-- C5: the create-or-heal step of the sync engine tries save first, and
exactly when the save returns an error it returns the result of update
with the same record; the step as a whole errors precisely when the save
failed and the fallback update also errored, and at the embedded
database backend the step is total — a save failure alone is never
fatal. -/
theorem sync_save_fallback_to_update :
    (∀ (ε σ : Type) (sv up : Except ε σ) (s : σ), sv = .ok s →
        saveOrUpdate sv up = .ok s) ∧
    (∀ (ε σ : Type) (sv up : Except ε σ) (e : ε), sv = .error e →
        saveOrUpdate sv up = up) ∧
    (∀ (ε σ : Type) (sv up : Except ε σ) (e : ε),
        saveOrUpdate sv up = .error e ↔
          ((∃ e2, sv = .error e2) ∧ up = .error e)) ∧
    (∀ (dst : DB) (now : DateTime) (t : Task) (db2 : DB),
        dst.save now t = .ok db2 → syncMissing dst now t = (db2, true)) ∧
    (∀ (dst : DB) (now : DateTime) (t : Task),
        dst.save now t = .error () →
          syncMissing dst now t = (dst.update now t, false)) := by
  refine ⟨?_, ?_, ?_, ?_, ?_⟩
  · intro ε σ sv up s h; rw [h]; rfl
  · intro ε σ sv up e h; rw [h]; rfl
  · intro ε σ sv up e
    cases sv <;> simp [saveOrUpdate]
  · intro dst now t db2 h; simp [syncMissing, h]
  · intro dst now t h; simp [syncMissing, h]

/-- C5 (witness): the sqlite instantiation at a concrete state where
the save fails because the identifier already exists. -/
theorem sync_save_fallback_to_update_witness :
    tieSelfDB.save cnow (plainTask "x1" "b") = .error () ∧
    syncMissing tieSelfDB cnow (plainTask "x1" "b") =
      (tieSelfDB.update cnow (plainTask "x1" "b"), false) :=
  ⟨by decide,
    sync_save_fallback_to_update.2.2.2.2 tieSelfDB cnow (plainTask "x1" "b")
      (by decide)⟩

/-- C7 (counterexample): updating a task whose identifier is absent from
an empty database silently succeeds — as a no-op — on the embedded
backend, and the remote-API backend likewise reports success. -/
theorem update_missing_counterexample :
    emptyDB.update cnow (plainTask "m7" "b") = emptyDB ∧
    apiUpdate emptyDB cnow (plainTask "m7" "b") = .ok emptyDB := by
  decide

/-- C7 (amended): for every task whose identifier does not exist in the
backend, update succeeds silently, leaving the tasks table unchanged, in
both the embedded-database backend and the remote-API backend; no error
is reported. -/
theorem update_missing_silent (db : DB) (now : DateTime) (t : Task)
    (h : ∀ r ∈ db.tasks, r.ulid ≠ t.ulid) :
    (db.update now t).tasks = db.tasks ∧
    apiUpdate db now t = .ok (db.update now t) := by
  constructor
  · show db.tasks.map _ = db.tasks
    conv_rhs => rw [← List.map_id db.tasks]
    refine List.map_congr_left (fun r hr => ?_)
    simp [h r hr]
  · simp [apiUpdate, patchTask]

/-- C7 (amended, witness): the silent no-op at a concrete state. -/
theorem update_missing_silent_witness :
    (∀ r ∈ tieSelfDB.tasks, r.ulid ≠ (plainTask "m7" "b").ulid) ∧
    ((tieSelfDB.update cnow (plainTask "m7" "b")).tasks = tieSelfDB.tasks ∧
      apiUpdate tieSelfDB cnow (plainTask "m7" "b") =
        .ok (tieSelfDB.update cnow (plainTask "m7" "b"))) :=
  ⟨by decide, update_missing_silent tieSelfDB cnow (plainTask "m7" "b") (by decide)⟩

/-- C10: every task returned by the read operations of the embedded
backend carries `priority_adjustment = None` whatever is stored, and the
stored value still influences the ordering of next_tasks: two states
that agree except for stored priorities order the same due date
differently. -/
theorem read_priority_always_none :
    (∀ (db : DB) (u : String) (t : Task), t ∈ db.search_using_ulid u →
        t.priority_adjustment = none) ∧
    (∀ (db : DB) (p : Row → Bool) (t : Task), t ∈ db.unsafe_query p →
        t.priority_adjustment = none) ∧
    (∀ (db : DB) (now : DateTime) (n : Nat) (t : Task),
        t ∈ db.next_tasks now n → t.priority_adjustment = none) ∧
    (∃ (dbA dbB : DB) (now : DateTime) (n : Nat),
        dbA.tasks.map (fun r => { r with priority_adjustment := none }) =
          dbB.tasks.map (fun r => { r with priority_adjustment := none }) ∧
        dbA.tags = dbB.tags ∧ dbA.tombstones = dbB.tombstones ∧
        (dbA.next_tasks now n).map Task.ulid ≠
          (dbB.next_tasks now n).map Task.ulid) := by
  refine ⟨?_, ?_, ?_, ?_⟩
  · intro db u t ht
    simp only [DB.search_using_ulid, DB.get_tasks, List.mem_map] at ht
    obtain ⟨r, _, rfl⟩ := ht
    rfl
  · intro db p t ht
    simp only [DB.unsafe_query, DB.get_tasks, List.mem_map] at ht
    obtain ⟨r, _, rfl⟩ := ht
    rfl
  · intro db now n t ht
    simp only [DB.next_tasks, List.mem_map] at ht
    obtain ⟨r, _, rfl⟩ := ht
    rfl
  · refine ⟨{ tasks := [{ plainRow "a1" "b1" none with
                  due_utc := some ⟨2023, 1, 1, 0, 0, 0⟩,
                  priority_adjustment := some 1 },
                { plainRow "a2" "b2" none with
                  due_utc := some ⟨2023, 1, 1, 0, 0, 0⟩,
                  priority_adjustment := some 2 }],
              tags := [], tombstones := [] },
            { tasks := [{ plainRow "a1" "b1" none with
                  due_utc := some ⟨2023, 1, 1, 0, 0, 0⟩,
                  priority_adjustment := some 2 },
                { plainRow "a2" "b2" none with
                  due_utc := some ⟨2023, 1, 1, 0, 0, 0⟩,
                  priority_adjustment := some 1 }],
              tags := [], tombstones := [] },
            cnow, 2, by decide, by decide, by decide, by decide⟩

/-- Splitting a comma-free character list yields one piece. -/
theorem splitCommaCore_nocomma (cs : List Char) (h : ',' ∉ cs) :
    splitCommaCore cs = [cs] := by
  induction cs with
  | nil => rfl
  | cons c rest ih =>
      have hc : c ≠ ',' := fun hc => h (hc ▸ List.mem_cons_self c rest)
      have hrest : ',' ∉ rest := fun hr => h (List.mem_cons_of_mem c hr)
      simp [splitCommaCore, hc, ih hrest]

/-- Splitting a comma-free piece followed by a comma peels the piece. -/
theorem splitCommaCore_append (cs rest : List Char) (h : ',' ∉ cs) :
    splitCommaCore (cs ++ ',' :: rest) = cs :: splitCommaCore rest := by
  induction cs with
  | nil => simp [splitCommaCore]
  | cons c cs2 ih =>
      have hc : c ≠ ',' := fun hc => h (hc ▸ List.mem_cons_self c cs2)
      have hcs2 : ',' ∉ cs2 := fun hr => h (List.mem_cons_of_mem c hr)
      rw [List.cons_append, splitCommaCore, if_neg hc, ih hcs2]

/-- Rebuilding a string from its characters. -/
theorem strMk_toList (s : String) : String.mk s.toList = s := by
  cases s; rfl

/-- Joining a list with a nonempty tail inserts a comma. -/
theorem joinComma_cons (s : String) (l : List String) (h : l ≠ []) :
    joinComma (s :: l) = s.toList ++ ',' :: joinComma l := by
  cases l with
  | nil => exact absurd rfl h
  | cons a as => rfl

/-- The comma join/split round trip restores a nonempty list of
comma-free strings. -/
theorem splitComma_joinComma (l : List String) (h : l ≠ [])
    (hcf : ∀ s ∈ l, commaFree s) : splitComma (joinComma l) = l := by
  induction l with
  | nil => exact absurd rfl h
  | cons s l2 ih =>
      cases l2 with
      | nil =>
          have hs : ',' ∉ s.toList := hcf s (List.mem_cons_self s [])
          show List.map (fun l => String.mk l) (splitCommaCore (joinComma [s])) = [s]
          rw [show joinComma [s] = s.toList from rfl,
            splitCommaCore_nocomma s.toList hs]
          simp [strMk_toList]
      | cons b bs =>
          have hs : ',' ∉ s.toList := hcf s (List.mem_cons_self s _)
          have hcf2 : ∀ x ∈ b :: bs, commaFree x := fun x hx =>
            hcf x (List.mem_cons_of_mem s hx)
          have ih2 := ih (by simp) hcf2
          rw [joinComma_cons s (b :: bs) (by simp)]
          simp only [splitComma,
            splitCommaCore_append s.toList (joinComma (b :: bs)) hs,
            List.map_cons, strMk_toList]
          rw [show (splitCommaCore (joinComma (b :: bs))).map
                (fun cs => String.mk cs) = splitComma (joinComma (b :: bs)) from rfl,
            ih2]

/-- Reading back a nonempty duplicate-free comma-free tag list. -/
theorem readTags_eq (l : List String) (h : l ≠ [])
    (hcf : ∀ s ∈ l, commaFree s) : readTags l = some l := by
  simp [readTags, h, splitComma_joinComma l h hcf]

/-- Tag-membership in the pairs table. -/
theorem mem_pairsFor (tags : List (String × String)) (u x : String) :
    x ∈ pairsFor tags u ↔ (u, x) ∈ tags := by
  simp only [pairsFor, List.mem_map, List.mem_filter]
  constructor
  · rintro ⟨p, ⟨hp, hu⟩, rfl⟩
    have hpu : p.1 = u := by simpa using hu
    rw [← hpu, Prod.mk.eta]
    exact hp
  · intro hm
    exact ⟨(u, x), ⟨hm, by simp⟩, rfl⟩

/-- pairsFor distributes over appends. -/
theorem pairsFor_append (t1 t2 : List (String × String)) (u : String) :
    pairsFor (t1 ++ t2) u = pairsFor t1 u ++ pairsFor t2 u := by
  simp [pairsFor, List.filter_append]

/-- pairsFor of a matching singleton. -/
theorem pairsFor_single_eq (u x : String) : pairsFor [(u, x)] u = [x] := by
  simp [pairsFor]

/-- pairsFor of a non-matching singleton. -/
theorem pairsFor_single_ne (u v x : String) (h : v ≠ u) :
    pairsFor [(u, x)] v = [] := by
  simp [pairsFor, Ne.symm h]

/-- Inserting tags for `u` extends the tag projection at `u` exactly by
the inserted list, provided the combined projection stays
duplicate-free (the `ON CONFLICT DO NOTHING` never fires). -/
theorem pairsFor_insertTags (tags0 : List (String × String)) (u : String)
    (l : List String) (hnd : (pairsFor tags0 u ++ l).Nodup) :
    pairsFor (insertTags tags0 u l) u = pairsFor tags0 u ++ l := by
  induction l generalizing tags0 with
  | nil => simp [insertTags]
  | cons x xs ih =>
      by_cases hx : (u, x) ∈ tags0
      · exfalso
        have hx2 : x ∈ pairsFor tags0 u := (mem_pairsFor tags0 u x).mpr hx
        have hdisj := (List.nodup_append.mp hnd).2.2
        exact hdisj hx2 (List.mem_cons_self x xs)
      · simp only [insertTags, if_neg hx]
        have heq : pairsFor (tags0 ++ [(u, x)]) u = pairsFor tags0 u ++ [x] := by
          rw [pairsFor_append, pairsFor_single_eq]
        have hnd2 : (pairsFor (tags0 ++ [(u, x)]) u ++ xs).Nodup := by
          rw [heq, List.append_assoc]
          simpa using hnd
        rw [ih (tags0 ++ [(u, x)]) hnd2, heq, List.append_assoc]
        rfl

/-- Inserting tags for `u` leaves the projection at other identifiers
unchanged. -/
theorem pairsFor_insertTags_ne (tags0 : List (String × String)) (u : String)
    (l : List String) (v : String) (h : v ≠ u) :
    pairsFor (insertTags tags0 u l) v = pairsFor tags0 v := by
  induction l generalizing tags0 with
  | nil => simp [insertTags]
  | cons x xs ih =>
      by_cases hx : (u, x) ∈ tags0
      · simp only [insertTags, if_pos hx]
        exact ih tags0
      · simp only [insertTags, if_neg hx]
        rw [ih (tags0 ++ [(u, x)]), pairsFor_append, pairsFor_single_ne u v x h,
          List.append_nil]

/-- Dropping the tag rows of `u` empties the projection at `u`. -/
theorem pairsFor_filter_self (tags : List (String × String)) (u : String) :
    pairsFor (tags.filter (fun p => p.1 != u)) u = [] := by
  simp only [pairsFor, List.filter_filter]
  have : ∀ p : String × String, ((p.1 == u) && (p.1 != u)) = false := by
    intro p
    by_cases h : p.1 = u <;> simp [h]
  rw [List.filter_congr (fun p _ => this p)]
  simp

/-- Dropping the tag rows of `u` leaves other projections unchanged. -/
theorem pairsFor_filter_ne (tags : List (String × String)) (u v : String)
    (h : v ≠ u) :
    pairsFor (tags.filter (fun p => p.1 != u)) v = pairsFor tags v := by
  simp only [pairsFor, List.filter_filter]
  have : ∀ p : String × String, ((p.1 == v) && (p.1 != u)) = (p.1 == v) := by
    intro p
    by_cases hv : p.1 = v
    · simp [hv, h]
    · simp [hv]
  rw [List.filter_congr (fun p _ => this p)]

/-- The update column assignments keep the primary key. -/
theorem applyUpdate_ulid (now : DateTime) (t : Task) (r : Row) :
    (applyUpdate now t r).ulid = r.ulid := rfl

/-- Pointwise equal predicates find the same element. -/
theorem find?_congrP {α : Type} {p q : α → Bool} (h : ∀ a, p a = q a) :
    ∀ l : List α, l.find? p = l.find? q := by
  intro l
  induction l with
  | nil => rfl
  | cons a as ih =>
      by_cases ha : p a = true
      · rw [List.find?_cons_of_pos _ ha, List.find?_cons_of_pos _ ((h a) ▸ ha)]
      · rw [List.find?_cons_of_neg _ ha,
          List.find?_cons_of_neg _ (by rw [← h a]; exact ha), ih]

/-- The row at the updated identifier after an update. -/
theorem rowOf_update_self (db : DB) (now : DateTime) (t : Task) :
    (db.update now t).rowOf t.ulid =
      (db.rowOf t.ulid).map (applyUpdate now t) := by
  show (db.tasks.map fun r => if r.ulid == t.ulid then applyUpdate now t r else r).find?
      (fun r => r.ulid == t.ulid) = (db.tasks.find? (fun r => r.ulid == t.ulid)).map _
  rw [List.find?_map]
  rw [find?_congrP (p := (fun r : Row => r.ulid == t.ulid) ∘
        fun r => if r.ulid == t.ulid then applyUpdate now t r else r)
      (q := fun r : Row => r.ulid == t.ulid)
      (fun r => by by_cases h : r.ulid = t.ulid <;> simp [h, applyUpdate_ulid])]
  cases hfind : db.tasks.find? (fun r => r.ulid == t.ulid) with
  | none => rfl
  | some r =>
      have hr := List.find?_some hfind
      simp only [Option.map_some']
      rw [if_pos hr]

/-- The rows at other identifiers are untouched by an update. -/
theorem rowOf_update_ne (db : DB) (now : DateTime) (t : Task) (v : String)
    (h : v ≠ t.ulid) :
    (db.update now t).rowOf v = db.rowOf v := by
  show (db.tasks.map fun r => if r.ulid == t.ulid then applyUpdate now t r else r).find?
      (fun r => r.ulid == v) = db.tasks.find? (fun r => r.ulid == v)
  rw [List.find?_map]
  rw [find?_congrP (p := (fun r : Row => r.ulid == v) ∘
        fun r => if r.ulid == t.ulid then applyUpdate now t r else r)
      (q := fun r : Row => r.ulid == v)
      (fun r => by by_cases hr : r.ulid = t.ulid <;> simp [hr, applyUpdate_ulid, h, Ne.symm h])]
  cases hfind : db.tasks.find? (fun r => r.ulid == v) with
  | none => rfl
  | some r =>
      have hr : r.ulid = v := by simpa using List.find?_some hfind
      simp only [Option.map_some']
      rw [if_neg (by rw [hr]; simpa using h)]

/-- The tag projection at the updated identifier after an update is the
task's tag list, when that list is well formed. -/
theorem tagsFor_update_self (db : DB) (now : DateTime) (t : Task)
    (htags : TagsWF t.tags) :
    (db.update now t).tagsFor t.ulid = t.tags.getD [] := by
  show pairsFor (insertTags (db.tags.filter (fun p => p.1 != t.ulid)) t.ulid
      (t.tags.getD [])) t.ulid = t.tags.getD []
  have h0 := pairsFor_filter_self db.tags t.ulid
  have hnd : (pairsFor (db.tags.filter (fun p => p.1 != t.ulid)) t.ulid ++
      t.tags.getD []).Nodup := by
    rw [h0, List.nil_append]
    cases ht : t.tags with
    | none => simp
    | some l =>
        rcases (ht ▸ htags : TagsWF (some l)) with ⟨_, hnd, _⟩
        simpa using hnd
  rw [pairsFor_insertTags _ _ _ hnd, h0, List.nil_append]

/-- Reading the updated identifier back after an update returns the
written task with `modified_utc` refreshed and the priority reported as
none. -/
theorem readTask_update_self (db : DB) (now : DateTime) (t : Task)
    (hrow : (db.rowOf t.ulid).isSome = true)
    (htags : TagsWF t.tags) :
    (db.update now t).readTask t.ulid =
      some { t with modified_utc := some now, priority_adjustment := none } := by
  unfold DB.readTask
  rw [rowOf_update_self]
  cases hfind : db.rowOf t.ulid with
  | none => rw [hfind] at hrow; exact absurd hrow (by simp)
  | some r =>
      have hu : r.ulid = t.ulid := by
        have := List.find?_some hfind
        simpa using this
      have htg : (db.update now t).tagsFor r.ulid = t.tags.getD [] := by
        rw [hu]; exact tagsFor_update_self db now t htags
      have htags2 : readTags (t.tags.getD []) = t.tags := by
        cases ht : t.tags with
        | none => rfl
        | some l =>
            rcases (ht ▸ htags : TagsWF (some l)) with ⟨hne, _, hcf⟩
            simpa using readTags_eq l hne hcf
      simp only [Option.map_some']
      show some (rowToTask (db.update now t) (applyUpdate now t r)) = _
      simp only [rowToTask, applyUpdate]
      rw [htg, htags2, hu]

theorem read_priority_always_none_witness :
    ({ prioTask with modified_utc := some cnow, priority_adjustment := none } ∈
        prioDB.search_using_ulid "p1") ∧
    ({ prioTask with
        modified_utc := some cnow
        priority_adjustment := none } : Task).priority_adjustment = none :=
  ⟨by decide,
    read_priority_always_none.1 prioDB "p1"
      { prioTask with modified_utc := some cnow, priority_adjustment := none }
      (by decide)⟩

/-- Strict timestamp order is asymmetric. -/
theorem dtLtB_asymm (a b : DateTime) (h : DateTime.ltB a b = true) :
    DateTime.ltB b a = false := by
  rcases a with ⟨y1, mo1, d1, h1, mi1, s1⟩
  rcases b with ⟨y2, mo2, d2, h2, mi2, s2⟩
  simp only [DateTime.ltB, Bool.or_eq_true, Bool.and_eq_true,
    decide_eq_true_eq] at h
  simp only [DateTime.ltB, Bool.or_eq_false_iff, Bool.and_eq_false_iff,
    decide_eq_false_iff_not, not_lt]
  omega

/-- Distinct timestamps are strictly ordered one way or the other. -/
theorem dtLtB_total (a b : DateTime) (h : a ≠ b) :
    DateTime.ltB a b = true ∨ DateTime.ltB b a = true := by
  rcases a with ⟨y1, mo1, d1, h1, mi1, s1⟩
  rcases b with ⟨y2, mo2, d2, h2, mi2, s2⟩
  simp only [ne_eq, DateTime.mk.injEq, not_and] at h
  simp only [DateTime.ltB, Bool.or_eq_true, Bool.and_eq_true,
    decide_eq_true_eq]
  by_cases hy : y1 = y2
  · by_cases hmo : mo1 = mo2
    · by_cases hd : d1 = d2
      · by_cases hh : h1 = h2
        · by_cases hmi : mi1 = mi2
          · have := h hy hmo hd hh hmi
            omega
          · omega
        · omega
      · omega
    · omega
  · omega

/-- Refreshing `modified_utc` and dropping the priority does not change
the content view of a priority-free task. -/
theorem taskClean_refresh (t : Task) (now : DateTime)
    (hp : t.priority_adjustment = none) :
    taskClean { t with modified_utc := some now, priority_adjustment := none } =
      taskClean t := by
  rcases t with ⟨u, b, m, rd, du, cl, rec, pr, us, md, tg⟩
  simp only at hp
  simp [taskClean, hp]

/-- C3: in the content loop, when the two records of a shared identifier
differ in content (ignoring `modified_utc`) and carry distinct
`modified_utc` timestamps, the record with the later timestamp wins: the
stale side is overwritten via update with the winner's full record, and
reading the stale side back afterwards is content-equal (ignoring
`modified_utc`) to the winner; distinct timestamps always order one way
or the other. -/
theorem sync_last_write_wins
    (now : DateTime) (selfDB otherDB : DB) (tr : List WriteOp)
    (tSelf tOther : Task) (a b : DateTime)
    (hsu : tOther.ulid = tSelf.ulid)
    (hma : tSelf.modified_utc = some a) (hmb : tOther.modified_utc = some b)
    (hdiff : taskClean tOther ≠ taskClean tSelf) :
    (a ≠ b → DateTime.ltB a b = true ∨ DateTime.ltB b a = true) ∧
    (DateTime.ltB a b = true →
      syncPairStep now selfDB otherDB tr tSelf tOther =
        (selfDB.update now tOther, otherDB, tr ++ [.updateOp true tOther]) ∧
      ((selfDB.rowOf tSelf.ulid).isSome = true → TagsWF tOther.tags →
        tOther.priority_adjustment = none →
        ((selfDB.update now tOther).readTask tSelf.ulid).map taskClean =
          some (taskClean tOther))) ∧
    (DateTime.ltB b a = true →
      syncPairStep now selfDB otherDB tr tSelf tOther =
        (selfDB, otherDB.update now tSelf, tr ++ [.updateOp false tSelf]) ∧
      ((otherDB.rowOf tOther.ulid).isSome = true → TagsWF tSelf.tags →
        tSelf.priority_adjustment = none →
        ((otherDB.update now tSelf).readTask tOther.ulid).map taskClean =
          some (taskClean tSelf))) := by
  have hne : tOther ≠ tSelf := fun h => hdiff (by rw [h])
  refine ⟨fun h => dtLtB_total a b h, ?_, ?_⟩
  · intro hab
    have hcond : optDTgtB tOther.modified_utc tSelf.modified_utc = true := by
      rw [hma, hmb]
      simpa [optDTgtB] using hab
    constructor
    · simp [syncPairStep, hne, hdiff, hcond]
    · intro hrow htags hp
      have h1 := readTask_update_self selfDB now tOther
        (by rw [hsu]; exact hrow) htags
      rw [← hsu, h1, Option.map_some']
      rw [taskClean_refresh tOther now hp]
  · intro hba
    have hcond : optDTgtB tOther.modified_utc tSelf.modified_utc = false := by
      rw [hma, hmb]
      simpa [optDTgtB] using dtLtB_asymm b a hba
    constructor
    · simp [syncPairStep, hne, hdiff, hcond]
    · intro hrow htags hp
      have h1 := readTask_update_self otherDB now tSelf
        (by rw [← hsu]; exact hrow) htags
      rw [hsu, h1, Option.map_some']
      rw [taskClean_refresh tSelf now hp]

/-- C3 (witness): the last-write-wins branch at a concrete conflicting
pair where the remote side is newer. -/
theorem sync_last_write_wins_witness :
    DateTime.ltB ⟨2023, 1, 1, 0, 0, 0⟩ ⟨2023, 1, 2, 0, 0, 0⟩ = true ∧
    (syncPairStep cnow tieSelfDB emptyDB []
        { plainTask "x1" "sbody" with modified_utc := some ⟨2023, 1, 1, 0, 0, 0⟩ }
        { plainTask "x1" "obody" with modified_utc := some ⟨2023, 1, 2, 0, 0, 0⟩ } =
      (tieSelfDB.update cnow
          { plainTask "x1" "obody" with modified_utc := some ⟨2023, 1, 2, 0, 0, 0⟩ },
        emptyDB,
        [.updateOp true
          { plainTask "x1" "obody" with modified_utc := some ⟨2023, 1, 2, 0, 0, 0⟩ }]) ∧
      ((tieSelfDB.update cnow
          { plainTask "x1" "obody" with
              modified_utc := some ⟨2023, 1, 2, 0, 0, 0⟩ }).readTask "x1").map taskClean =
        some (taskClean
          { plainTask "x1" "obody" with modified_utc := some ⟨2023, 1, 2, 0, 0, 0⟩ })) :=
  ⟨by decide,
    ((sync_last_write_wins cnow tieSelfDB emptyDB []
        { plainTask "x1" "sbody" with modified_utc := some ⟨2023, 1, 1, 0, 0, 0⟩ }
        { plainTask "x1" "obody" with modified_utc := some ⟨2023, 1, 2, 0, 0, 0⟩ }
        ⟨2023, 1, 1, 0, 0, 0⟩ ⟨2023, 1, 2, 0, 0, 0⟩ (by decide) (by decide)
        (by decide) (by decide)).2.1 (by decide)).1,
    ((sync_last_write_wins cnow tieSelfDB emptyDB []
        { plainTask "x1" "sbody" with modified_utc := some ⟨2023, 1, 1, 0, 0, 0⟩ }
        { plainTask "x1" "obody" with modified_utc := some ⟨2023, 1, 2, 0, 0, 0⟩ }
        ⟨2023, 1, 1, 0, 0, 0⟩ ⟨2023, 1, 2, 0, 0, 0⟩ (by decide) (by decide)
        (by decide) (by decide)).2.1 (by decide)).2 (by decide) (by exact trivial)
      (by decide)⟩

/-- Reading back the stored tag list of a well-formed tag set. -/
theorem readTags_getD (o : Option (List String)) (h : TagsWF o) :
    readTags (o.getD []) = o := by
  cases o with
  | none => rfl
  | some l =>
      rcases h with ⟨hne, _, hcf⟩
      simpa using readTags_eq l hne hcf

/-- An absent identifier makes the save succeed. -/
theorem save_ok_of_fresh (db : DB) (now : DateTime) (t : Task)
    (hfresh : ∀ r ∈ db.tasks, likeSuffix t.ulid r.ulid = false) :
    db.save now t =
      .ok { db with
            tasks := db.tasks ++ [savedRow now t],
            tags := insertTags db.tags t.ulid (t.tags.getD []) } := by
  have hnotany : db.tasks.any (fun r => r.ulid == t.ulid) = false := by
    rw [List.any_eq_false]
    intro r hr hbeq
    have heq : r.ulid = t.ulid := by simpa using hbeq
    have hfa := hfresh r hr
    rw [likeSuffix_of_eq heq] at hfa
    exact absurd hfa (by simp)
  simp [DB.save, hnotany]

/-- Reading the freshly inserted row through the row mapper gives the
saved task back, with `modified_utc` refreshed and the priority reported
as none. -/
theorem rowToTask_savedRow (db2 : DB) (now : DateTime) (t : Task)
    (htg : db2.tagsFor t.ulid = t.tags.getD [])
    (htags : TagsWF t.tags) :
    rowToTask db2 (savedRow now t) =
      { t with modified_utc := some now, priority_adjustment := none } := by
  simp only [rowToTask, savedRow]
  rw [htg, readTags_getD t.tags htags]

/-- C6 (amended): saving a fresh, well-formed task and searching for its
identifier returns exactly one record, equal to the task in every field
except `modified_utc` — which is refreshed to the save time — and
`priority_adjustment` — which every read reports as none. -/
theorem save_then_search_roundtrip (db : DB) (now : DateTime) (t : Task)
    (hfresh : ∀ r ∈ db.tasks, likeSuffix t.ulid r.ulid = false)
    (htagfree : ∀ p ∈ db.tags, p.1 ≠ t.ulid)
    (htags : TagsWF t.tags) :
    ∃ db2, db.save now t = .ok db2 ∧
      db2.search_using_ulid t.ulid =
        [{ t with modified_utc := some now, priority_adjustment := none }] := by
  refine ⟨_, save_ok_of_fresh db now t hfresh, ?_⟩
  show (((db.tasks ++ [savedRow now t]).filter
      (fun r => likeSuffix t.ulid r.ulid)).map _) = _
  rw [List.filter_append, List.filter_eq_nil_iff.mpr
      (fun r hr => by simp [hfresh r hr]),
    List.nil_append]
  rw [show (([savedRow now t]).filter (fun r => likeSuffix t.ulid r.ulid)) =
      [savedRow now t] by
    simp [savedRow, likeSuffix_refl]]
  rw [List.map_cons, List.map_nil]
  congr 1
  have hp0 : pairsFor db.tags t.ulid = [] := by
    simp only [pairsFor, List.map_eq_nil_iff, List.filter_eq_nil_iff]
    intro p hp
    simp [htagfree p hp]
  have hnd : (pairsFor db.tags t.ulid ++ t.tags.getD []).Nodup := by
    rw [hp0, List.nil_append]
    cases ht : t.tags with
    | none => simp
    | some l =>
        rcases (ht ▸ htags : TagsWF (some l)) with ⟨_, hnd2, _⟩
        simpa using hnd2
  apply rowToTask_savedRow
  · show pairsFor (insertTags db.tags t.ulid (t.tags.getD [])) t.ulid =
      t.tags.getD []
    rw [pairsFor_insertTags _ _ _ hnd, hp0, List.nil_append]
  · exact htags

/-- C6 (amended, witness): the round trip at a concrete task carrying a
stored priority. -/
theorem save_then_search_roundtrip_witness :
    (∀ r ∈ emptyDB.tasks, likeSuffix prioTask.ulid r.ulid = false) ∧
    (∃ db2, emptyDB.save cnow prioTask = .ok db2 ∧
      db2.search_using_ulid prioTask.ulid =
        [{ prioTask with modified_utc := some cnow
                         priority_adjustment := none }]) :=
  ⟨by decide,
    save_then_search_roundtrip emptyDB cnow prioTask (by decide) (by decide)
      (by exact trivial)⟩

/-- C6 (counterexample): after saving a task with a stored priority
adjustment into an empty database, the search returns exactly one record
— but its `priority_adjustment` is none rather than the saved task's
value, so the record is not equal to the task in every field except
`modified_utc`. -/
theorem save_search_prio_counterexample :
    (emptyDB.save cnow prioTask).isOk = true ∧
    prioDB.search_using_ulid "p1" =
      [{ prioTask with modified_utc := some cnow
                       priority_adjustment := none }] ∧
    prioTask.priority_adjustment = some 1 := by
  decide

/-- C8 (counterexample): deleting a task absent from an empty embedded
database is rejected with an error, but the same call through the
remote-API backend succeeds: the client first saves the missing task
remotely and then deletes it, leaving a tombstone. -/
theorem api_delete_missing_counterexample :
    emptyDB.delete cnow (plainTask "m8" "b") = .error () ∧
    apiDelete emptyDB cnow (plainTask "m8" "b") =
      .ok { tasks := [], tags := [], tombstones := [("m8", some cnow)] } := by
  decide

/-- C8 (amended): the embedded-database backend rejects deletes of
nonexistent identifiers, but the remote-API backend does not implement
that contract: it saves the missing task on the server and then deletes
it, so the call succeeds, leaves the task set unchanged and records a
fresh tombstone. -/
theorem delete_missing_behavior :
    (∀ (db : DB) (now : DateTime) (t : Task),
        (∀ r ∈ db.tasks, r.ulid ≠ t.ulid) → db.delete now t = .error ()) ∧
    (∀ (server : DB) (now : DateTime) (t : Task),
        server.search_using_ulid t.ulid = [] →
        (∀ p ∈ server.tombstones, p.1 ≠ t.ulid) →
        ∃ db2, apiDelete server now t = .ok db2 ∧
          db2.tasks = server.tasks ∧
          db2.tombstones = server.tombstones ++ [(t.ulid, some now)]) := by
  constructor
  · intro db now t h
    have hfil : db.tasks.filter (fun r => r.ulid == t.ulid) = [] :=
      List.filter_eq_nil_iff.mpr (fun r hr => by simp [h r hr])
    simp [DB.delete, hfil]
  · intro server now t hsearch htomb
    have hfilsuf : server.tasks.filter (fun r => likeSuffix t.ulid r.ulid) = [] := by
      have hmap : (server.tasks.filter
          (fun r => likeSuffix t.ulid r.ulid)).map (rowToTask server) = [] := hsearch
      rw [List.map_eq_nil_iff] at hmap
      exact hmap
    have hfresh : ∀ r ∈ server.tasks, likeSuffix t.ulid r.ulid = false := by
      intro r hr
      have := List.filter_eq_nil_iff.mp hfilsuf r hr
      simpa using this
    have hlen0 : (server.search_using_ulid t.ulid).length = 0 := by
      rw [hsearch]; rfl
    have htasksback : ((server.tasks ++ [savedRow now t]).filter
        (fun r => r.ulid != t.ulid)) = server.tasks := by
      rw [List.filter_append]
      rw [show (([savedRow now t]).filter (fun r => r.ulid != t.ulid)) = [] by
        simp [savedRow]]
      rw [List.append_nil]
      apply List.filter_eq_self.mpr
      intro r hr
      have heq := hfresh r hr
      have hrne : r.ulid ≠ t.ulid := by
        intro hcontra
        rw [likeSuffix_of_eq hcontra] at heq
        exact absurd heq (by simp)
      simp [hrne]
    refine ⟨{ tasks := (server.tasks ++ [savedRow now t]).filter
                (fun r => r.ulid != t.ulid)
              tags := (insertTags server.tags t.ulid (t.tags.getD [])).filter
                (fun p => p.1 != t.ulid)
              tombstones := server.tombstones ++ [(t.ulid, some now)] },
      ?_, htasksback, rfl⟩
    show apiDelete server now t = _
    have hstep : apiDelete server now t =
        (match server.save now t with
          | .error e => .error e
          | .ok server2 => serverDeleteTask server2 now t.ulid) := by
      unfold apiDelete
      rw [hsearch]
      rfl
    rw [hstep, save_ok_of_fresh server now t hfresh]
    show serverDeleteTask _ now t.ulid = _
    unfold serverDeleteTask
    have hsrch2 : DB.search_using_ulid
        { server with
          tasks := server.tasks ++ [savedRow now t]
          tags := insertTags server.tags t.ulid (t.tags.getD []) } t.ulid =
        [rowToTask { server with
          tasks := server.tasks ++ [savedRow now t]
          tags := insertTags server.tags t.ulid (t.tags.getD []) }
          (savedRow now t)] := by
      show ((server.tasks ++ [savedRow now t]).filter
          (fun r => likeSuffix t.ulid r.ulid)).map _ = _
      rw [List.filter_append, List.filter_eq_nil_iff.mpr
          (fun r hr => by simp [hfresh r hr]), List.nil_append]
      rw [show (([savedRow now t]).filter (fun r => likeSuffix t.ulid r.ulid)) =
          [savedRow now t] by simp [savedRow, likeSuffix_refl]]
      rfl
    rw [hsrch2]
    rw [if_neg (by simp)]
    show DB.delete _ now _ = _
    unfold DB.delete
    have hulid : (rowToTask { server with
        tasks := server.tasks ++ [savedRow now t]
        tags := insertTags server.tags t.ulid (t.tags.getD []) }
        (savedRow now t)).ulid = t.ulid := rfl
    rw [hulid]
    have hcnt : ((server.tasks ++ [savedRow now t]).filter
        (fun r => r.ulid == t.ulid)).length ≠ 0 := by
      rw [List.filter_append]
      simp [savedRow]
    rw [if_neg (by simpa using hcnt)]
    have htomb2 : server.tombstones.any (fun p => p.1 == t.ulid) = false := by
      rw [List.any_eq_false]
      intro p hp
      simp [htomb p hp]
    rw [if_neg (by simp [htomb2])]

/-- C8 (amended, witness): the two behaviors at concrete states. -/
theorem delete_missing_behavior_witness :
    emptyDB.delete cnow (plainTask "m9" "b") = .error () ∧
    (∃ db2, apiDelete tieSelfDB cnow (plainTask "m9" "b") = .ok db2 ∧
      db2.tasks = tieSelfDB.tasks ∧
      db2.tombstones = tieSelfDB.tombstones ++ [("m9", some cnow)]) :=
  ⟨delete_missing_behavior.1 emptyDB cnow (plainTask "m9" "b") (by decide),
    delete_missing_behavior.2 tieSelfDB cnow (plainTask "m9" "b") (by decide)
      (by decide)⟩

/-- The three special-cased duration tokens parse to pure day counts. -/
theorem parse_P3D : parseIsoDuration "P3D" = some ⟨0, 0, 3, 0, 0, 0⟩ := by decide

/-- Parsing "P2D". -/
theorem parse_P2D : parseIsoDuration "P2D" = some ⟨0, 0, 2, 0, 0, 0⟩ := by decide

/-- Parsing "P1D". -/
theorem parse_P1D : parseIsoDuration "P1D" = some ⟨0, 0, 1, 0, 0, 0⟩ := by decide

/-- A pure-day ISO duration anchored anywhere is a fixed count of
seconds. -/
theorem toChronoAt_days (dd : DateTime) (k : Nat) :
    toChronoAt dd ⟨0, 0, k, 0, 0, 0⟩ = (k : Int) * 86400 := by
  simp [toChronoAt, addMonths]

/-- C9: for every task with a due date and a recurrence token ending in
the business-day marker, next_task yields a new occurrence whose due
date is the old one plus 3 days from a Friday, 2 from a Saturday and 1
otherwise; the same adjusted offset is added to the ready date when
present, the fresh identifier is assigned, and all other fields —
including the recurrence rule — are preserved.  Concretely, the Friday
due date 2024-02-09 10:00:00 and the Saturday due date
2024-02-10 10:00:00 both yield 2024-02-12 10:00:00. -/
theorem next_task_business_day (t : Task) (freshUlid x : String) (d : DateTime)
    (hrec : t.recurrence_duration = some x)
    (hjd : strEndsWith x "1JD" = true)
    (hdue : t.due_utc = some d) :
    nextTask freshUlid t =
      some { t with ulid := freshUlid
                    due_utc := some (addDaysDT d (jdOffset d))
                    ready_utc := t.ready_utc.map
                      (fun r => addDaysDT r (jdOffset d)) } ∧
    weekdayN ⟨2024, 2, 9, 10, 0, 0⟩ = 5 ∧
    addDaysDT ⟨2024, 2, 9, 10, 0, 0⟩ 3 = ⟨2024, 2, 12, 10, 0, 0⟩ ∧
    weekdayN ⟨2024, 2, 10, 10, 0, 0⟩ = 6 ∧
    addDaysDT ⟨2024, 2, 10, 10, 0, 0⟩ 2 = ⟨2024, 2, 12, 10, 0, 0⟩ := by
  refine ⟨?_, by decide, by decide, by decide, by decide⟩
  unfold nextTask
  rw [hrec, hdue]
  simp only [hjd, if_true]
  by_cases h5 : weekdayN d = 5
  · rw [if_pos h5, parse_P3D]
    show some _ = _
    rw [show jdOffset d = 3 from by simp [jdOffset, h5]]
    rw [toChronoAt_days d 3]
    rfl
  · by_cases h6 : weekdayN d = 6
    · rw [if_neg h5, if_pos h6, parse_P2D]
      show some _ = _
      rw [show jdOffset d = 2 from by simp [jdOffset, h5, h6]]
      rw [toChronoAt_days d 2]
      rfl
    · rw [if_neg h5, if_neg h6, parse_P1D]
      show some _ = _
      rw [show jdOffset d = 1 from by simp [jdOffset, h5, h6]]
      rw [toChronoAt_days d 1]
      rfl

/-- C9 (witness): the business-day recurrence evaluated at the Friday
due date of the repository's own test. -/
theorem next_task_business_day_witness :
    strEndsWith "P1JD" "1JD" = true ∧
    nextTask "fr" { plainTask "old" "b" with
        due_utc := some ⟨2024, 2, 9, 10, 0, 0⟩
        recurrence_duration := some "P1JD" } =
      some { { plainTask "old" "b" with
          due_utc := some ⟨2024, 2, 9, 10, 0, 0⟩
          recurrence_duration := some "P1JD" } with
        ulid := "fr"
        due_utc := some (addDaysDT ⟨2024, 2, 9, 10, 0, 0⟩
          (jdOffset ⟨2024, 2, 9, 10, 0, 0⟩))
        ready_utc := Option.map
          (fun r => addDaysDT r (jdOffset ⟨2024, 2, 9, 10, 0, 0⟩))
          ({ plainTask "old" "b" with
              due_utc := some ⟨2024, 2, 9, 10, 0, 0⟩
              recurrence_duration := some "P1JD" } : Task).ready_utc } :=
  ⟨by decide,
    (next_task_business_day
      { plainTask "old" "b" with
          due_utc := some ⟨2024, 2, 9, 10, 0, 0⟩
          recurrence_duration := some "P1JD" }
      "fr" "P1JD" ⟨2024, 2, 9, 10, 0, 0⟩ (by decide) (by decide) (by decide)).1⟩

/-- With unique identifiers, filtering for an identifier yields at most
the found row. -/
theorem filter_eq_toList_find? (l : List Row) (u : String)
    (hnd : (l.map (fun r => r.ulid)).Nodup) :
    l.filter (fun r => r.ulid == u) = (l.find? (fun r => r.ulid == u)).toList := by
  induction l with
  | nil => rfl
  | cons a as ih =>
      have hnd1 : (a.ulid :: as.map (fun r => r.ulid)).Nodup := by simpa using hnd
      rcases List.nodup_cons.mp hnd1 with ⟨hna, hnd2⟩
      by_cases ha : a.ulid = u
      · rw [List.filter_cons_of_pos (by simp [ha]),
          List.find?_cons_of_pos _ (by simp [ha])]
        have hnil : as.filter (fun r => r.ulid == u) = [] := by
          rw [List.filter_eq_nil_iff]
          intro r hr hru
          have hru2 : r.ulid = u := by simpa using hru
          exact hna (by
            rw [ha, ← hru2]
            exact List.mem_map_of_mem (fun r => r.ulid) hr)
        rw [hnil]
        rfl
      · rw [List.filter_cons_of_neg (by simp [ha]),
          List.find?_cons_of_neg _ (by simp [ha]), ih hnd2]

/-- A member row with a unique identifier is the one found. -/
theorem find?_of_mem_nodup (l : List Row) (r : Row) (hr : r ∈ l)
    (hnd : (l.map (fun r => r.ulid)).Nodup) :
    l.find? (fun x => x.ulid == r.ulid) = some r := by
  induction l with
  | nil => cases hr
  | cons a as ih =>
      have hnd1 : (a.ulid :: as.map (fun r => r.ulid)).Nodup := by simpa using hnd
      rcases List.nodup_cons.mp hnd1 with ⟨hna, hnd2⟩
      rcases List.mem_cons.mp hr with hr2 | hr2
      · rw [hr2]
        exact List.find?_cons_of_pos _ (by simp)
      · have hne : a.ulid ≠ r.ulid := by
          intro hcontra
          exact hna (hcontra ▸ List.mem_map_of_mem (fun r => r.ulid) hr2)
        rw [List.find?_cons_of_neg _ (by simp [hne]), ih hr2 hnd2]

/-- The row mapper only consults the tag table through the row's
identifier. -/
theorem rowToTask_congr (db db2 : DB) (r : Row)
    (h : db.tagsFor r.ulid = db2.tagsFor r.ulid) :
    rowToTask db r = rowToTask db2 r := by
  simp only [rowToTask, h]

/-- On a row with the matching identifier, the UPDATE assignments write
exactly the row the INSERT of save would write. -/
theorem applyUpdate_eq_savedRow (now : DateTime) (t : Task) (r : Row)
    (h : r.ulid = t.ulid) :
    applyUpdate now t r = savedRow now t := by
  rcases r with ⟨u9, b9, m9, rd9, du9, cl9, rc9, pa9, us9, md9⟩
  simp only at h
  simp [applyUpdate, savedRow, h]

/-- Updates do not touch tag projections at other identifiers. -/
theorem tagsFor_update_ne (db : DB) (now : DateTime) (t : Task) (v : String)
    (h : v ≠ t.ulid) :
    (db.update now t).tagsFor v = db.tagsFor v := by
  show pairsFor (insertTags (db.tags.filter (fun p => p.1 != t.ulid)) t.ulid
      (t.tags.getD [])) v = pairsFor db.tags v
  rw [pairsFor_insertTags_ne _ _ _ _ h, pairsFor_filter_ne _ _ _ h]

/-- Updates do not touch the tombstone table. -/
theorem tombstones_update (db : DB) (now : DateTime) (t : Task) :
    (db.update now t).tombstones = db.tombstones := rfl

/-- Updates do not change the identifier column of any row. -/
theorem tasks_map_ulid_update (db : DB) (now : DateTime) (t : Task) :
    (db.update now t).tasks.map (fun r => r.ulid) =
      db.tasks.map (fun r => r.ulid) := by
  show (db.tasks.map (fun r =>
      if r.ulid == t.ulid then applyUpdate now t r else r)).map (fun r => r.ulid) =
    db.tasks.map (fun r => r.ulid)
  rw [List.map_map]
  refine List.map_congr_left (fun r _ => ?_)
  by_cases h : r.ulid = t.ulid <;> simp [Function.comp, h, applyUpdate_ulid]

/-- Elimination of a successful save: the identifier was absent and the
result state is the insertion. -/
theorem save_ok_elim (db db2 : DB) (now : DateTime) (t : Task)
    (h : db.save now t = .ok db2) :
    db.rowOf t.ulid = none ∧
    db2 = { db with
            tasks := db.tasks ++ [savedRow now t]
            tags := insertTags db.tags t.ulid (t.tags.getD []) } := by
  unfold DB.save at h
  by_cases hany : db.tasks.any (fun r => r.ulid == t.ulid) = true
  · rw [if_pos hany] at h
    cases h
  · rw [if_neg hany] at h
    injection h with h2
    constructor
    · rw [show db.rowOf t.ulid = db.tasks.find? (fun r => r.ulid == t.ulid) from rfl,
        List.find?_eq_none]
      intro r hr
      intro hru
      exact hany (List.any_eq_true.mpr ⟨r, hr, hru⟩)
    · exact h2.symm

/-- Elimination of a failed save: some row already carries the
identifier. -/
theorem save_error_elim (db : DB) (now : DateTime) (t : Task)
    (h : db.save now t = .error ()) :
    db.rowOf t.ulid ≠ none := by
  unfold DB.save at h
  by_cases hany : db.tasks.any (fun r => r.ulid == t.ulid) = true
  · rcases List.any_eq_true.mp hany with ⟨r, hr, hru⟩
    intro hn
    rw [show db.rowOf t.ulid = db.tasks.find? (fun r => r.ulid == t.ulid) from rfl,
      List.find?_eq_none] at hn
    exact hn r hr hru
  · rw [if_neg hany] at h
    cases h

/-- The row at the saved identifier after a successful save. -/
theorem rowOf_save_self (db db2 : DB) (now : DateTime) (t : Task)
    (h : db.save now t = .ok db2) :
    db2.rowOf t.ulid = some (savedRow now t) := by
  rcases save_ok_elim db db2 now t h with ⟨hnone, rfl⟩
  show (db.tasks ++ [savedRow now t]).find? (fun r => r.ulid == t.ulid) = _
  rw [List.find?_append, show db.tasks.find? (fun r => r.ulid == t.ulid) = none from hnone]
  simp [savedRow]

/-- The rows at other identifiers after a successful save. -/
theorem rowOf_save_ne (db db2 : DB) (now : DateTime) (t : Task) (v : String)
    (h : db.save now t = .ok db2) (hv : v ≠ t.ulid) :
    db2.rowOf v = db.rowOf v := by
  rcases save_ok_elim db db2 now t h with ⟨_, rfl⟩
  show (db.tasks ++ [savedRow now t]).find? (fun r => r.ulid == v) = _
  rw [List.find?_append]
  rw [show ([savedRow now t].find? (fun r => r.ulid == v)) = none from by
    simp [savedRow, Ne.symm hv]]
  rw [Option.or_none]
  rfl

/-- The tag projection at the saved identifier after a successful save
into a state with no tag rows there. -/
theorem tagsFor_save_self (db db2 : DB) (now : DateTime) (t : Task)
    (h : db.save now t = .ok db2)
    (hempty : pairsFor db.tags t.ulid = [])
    (htags : TagsWF t.tags) :
    db2.tagsFor t.ulid = t.tags.getD [] := by
  rcases save_ok_elim db db2 now t h with ⟨_, rfl⟩
  show pairsFor (insertTags db.tags t.ulid (t.tags.getD [])) t.ulid = _
  have hnd : (pairsFor db.tags t.ulid ++ t.tags.getD []).Nodup := by
    rw [hempty, List.nil_append]
    cases ht : t.tags with
    | none => simp
    | some l =>
        rcases (ht ▸ htags : TagsWF (some l)) with ⟨_, hnd2, _⟩
        simpa using hnd2
  rw [pairsFor_insertTags _ _ _ hnd, hempty, List.nil_append]

/-- The tag projections at other identifiers after a successful save. -/
theorem tagsFor_save_ne (db db2 : DB) (now : DateTime) (t : Task) (v : String)
    (h : db.save now t = .ok db2) (hv : v ≠ t.ulid) :
    db2.tagsFor v = db.tagsFor v := by
  rcases save_ok_elim db db2 now t h with ⟨_, rfl⟩
  show pairsFor (insertTags db.tags t.ulid (t.tags.getD [])) v = pairsFor db.tags v
  rw [pairsFor_insertTags_ne _ _ _ _ hv]

/-- Saving does not touch the tombstone table. -/
theorem tombstones_save (db db2 : DB) (now : DateTime) (t : Task)
    (h : db.save now t = .ok db2) :
    db2.tombstones = db.tombstones := by
  rcases save_ok_elim db db2 now t h with ⟨_, rfl⟩
  rfl

/-- Elimination of a successful delete: a row existed, no tombstone
existed, and the result state removes the row and its tags and appends
the tombstone. -/
theorem delete_ok_elim (db db2 : DB) (now : DateTime) (t : Task)
    (h : db.delete now t = .ok db2) :
    (db.tasks.filter (fun r => r.ulid == t.ulid)).length ≠ 0 ∧
    db.tombstones.any (fun p => p.1 == t.ulid) = false ∧
    db2 = { tasks := db.tasks.filter (fun r => r.ulid != t.ulid)
            tags := db.tags.filter (fun p => p.1 != t.ulid)
            tombstones := db.tombstones ++ [(t.ulid, some now)] } := by
  unfold DB.delete at h
  by_cases h1 : (db.tasks.filter (fun r => r.ulid == t.ulid)).length = 0
  · rw [if_pos h1] at h
    cases h
  · rw [if_neg h1] at h
    by_cases h2 : db.tombstones.any (fun p => p.1 == t.ulid) = true
    · rw [if_pos h2] at h
      cases h
    · rw [if_neg h2] at h
      injection h with h3
      exact ⟨h1, by rw [Bool.eq_false_iff]; exact h2, h3.symm⟩

/-- Filtering by a predicate every sought element satisfies commutes
with the search. -/
theorem find?_filter_comm (l : List Row) (u : String) (q : Row → Bool)
    (hq : ∀ r : Row, r.ulid = u → q r = true) :
    (l.filter q).find? (fun r => r.ulid == u) = l.find? (fun r => r.ulid == u) := by
  induction l with
  | nil => rfl
  | cons a as ih =>
      by_cases ha : a.ulid = u
      · rw [List.filter_cons_of_pos (hq a ha),
          List.find?_cons_of_pos _ (by simp [ha]),
          List.find?_cons_of_pos _ (by simp [ha])]
      · by_cases hqa : q a = true
        · rw [List.filter_cons_of_pos hqa,
            List.find?_cons_of_neg _ (by simp [ha]),
            List.find?_cons_of_neg _ (by simp [ha]), ih]
        · rw [List.filter_cons_of_neg hqa,
            List.find?_cons_of_neg _ (by simp [ha]), ih]

/-- The row at the deleted identifier after a successful delete. -/
theorem rowOf_delete_self (db db2 : DB) (now : DateTime) (t : Task)
    (h : db.delete now t = .ok db2) :
    db2.rowOf t.ulid = none := by
  rcases delete_ok_elim db db2 now t h with ⟨_, _, rfl⟩
  show (db.tasks.filter (fun r => r.ulid != t.ulid)).find? (fun r => r.ulid == t.ulid) = none
  rw [List.find?_eq_none]
  intro r hr
  rcases List.mem_filter.mp hr with ⟨_, hne⟩
  simpa using hne

/-- The rows at other identifiers after a successful delete. -/
theorem rowOf_delete_ne (db db2 : DB) (now : DateTime) (t : Task) (v : String)
    (h : db.delete now t = .ok db2) (hv : v ≠ t.ulid) :
    db2.rowOf v = db.rowOf v := by
  rcases delete_ok_elim db db2 now t h with ⟨_, _, rfl⟩
  show (db.tasks.filter (fun r => r.ulid != t.ulid)).find? (fun r => r.ulid == v) = _
  exact find?_filter_comm db.tasks v _ (fun r hr => by simp [hr, hv])

/-- The tag projection at the deleted identifier is cleared. -/
theorem tagsFor_delete_self (db db2 : DB) (now : DateTime) (t : Task)
    (h : db.delete now t = .ok db2) :
    db2.tagsFor t.ulid = [] := by
  rcases delete_ok_elim db db2 now t h with ⟨_, _, rfl⟩
  exact pairsFor_filter_self db.tags t.ulid

/-- The tag projections at other identifiers survive a delete. -/
theorem tagsFor_delete_ne (db db2 : DB) (now : DateTime) (t : Task) (v : String)
    (h : db.delete now t = .ok db2) (hv : v ≠ t.ulid) :
    db2.tagsFor v = db.tagsFor v := by
  rcases delete_ok_elim db db2 now t h with ⟨_, _, rfl⟩
  exact pairsFor_filter_ne db.tags t.ulid v hv

/-- A successful delete appends exactly one tombstone, for the deleted
identifier, timestamped now. -/
theorem tombstones_delete (db db2 : DB) (now : DateTime) (t : Task)
    (h : db.delete now t = .ok db2) :
    db2.tombstones = db.tombstones ++ [(t.ulid, some now)] := by
  rcases delete_ok_elim db db2 now t h with ⟨_, _, rfl⟩
  rfl

/-- Deletes shrink the task table. -/
theorem tasks_delete_sublist (db db2 : DB) (now : DateTime) (t : Task)
    (h : db.delete now t = .ok db2) : db2.tasks.Sublist db.tasks := by
  rcases delete_ok_elim db db2 now t h with ⟨_, _, rfl⟩
  exact List.filter_sublist db.tasks

/-- Deletes shrink the tag table. -/
theorem tags_delete_sublist (db db2 : DB) (now : DateTime) (t : Task)
    (h : db.delete now t = .ok db2) : db2.tags.Sublist db.tags := by
  rcases delete_ok_elim db db2 now t h with ⟨_, _, rfl⟩
  exact List.filter_sublist db.tags

/-- Comma-splitting always yields at least one piece. -/
theorem splitCommaCore_ne_nil (cs : List Char) : splitCommaCore cs ≠ [] := by
  cases cs with
  | nil => simp [splitCommaCore]
  | cons c rest =>
      by_cases hc : c = ','
      · simp [splitCommaCore, hc]
      · simp only [splitCommaCore, if_neg hc]
        cases splitCommaCore rest <;> simp

/-- No piece of a comma split contains a comma. -/
theorem splitCommaCore_commaFree (cs : List Char) :
    ∀ p ∈ splitCommaCore cs, ',' ∉ p := by
  induction cs with
  | nil =>
      intro p hp
      simp only [splitCommaCore, List.mem_singleton] at hp
      simp [hp]
  | cons c rest ih =>
      intro p hp
      by_cases hc : c = ','
      · simp only [splitCommaCore, if_pos hc, List.mem_cons] at hp
        rcases hp with hp | hp
        · simp [hp]
        · exact ih p hp
      · simp only [splitCommaCore, if_neg hc] at hp
        cases hcore : splitCommaCore rest with
        | nil => exact absurd hcore (splitCommaCore_ne_nil rest)
        | cons q qs =>
            rw [hcore] at hp
            rcases List.mem_cons.mp hp with hp | hp
            · rw [hp]
              intro hmem
              rcases List.mem_cons.mp hmem with hme | hme
              · exact hc hme.symm
              · exact ih q (hcore ▸ List.mem_cons_self q qs) hme
            · exact ih p (hcore ▸ List.mem_cons_of_mem q hp)

/-- Every string produced by comma-splitting is comma-free. -/
theorem splitComma_commaFree (cs : List Char) :
    ∀ s ∈ splitComma cs, commaFree s := by
  intro s hs
  rcases List.mem_map.mp hs with ⟨p, hp, rfl⟩
  show ',' ∉ (String.mk p).toList
  exact splitCommaCore_commaFree cs p hp

/-- Distinct tag pairs project to distinct tags per identifier. -/
theorem pairsFor_nodup (tags : List (String × String)) (u : String)
    (hnd : tags.Nodup) : (pairsFor tags u).Nodup := by
  have hsub : (tags.filter (fun p => p.1 == u)).Nodup :=
    (List.filter_sublist tags).nodup hnd
  refine List.Nodup.map_on ?_ hsub
  intro x hx y hy hxy
  rcases List.mem_filter.mp hx with ⟨_, hx2⟩
  rcases List.mem_filter.mp hy with ⟨_, hy2⟩
  have hx3 : x.1 = u := by simpa using hx2
  have hy3 : y.1 = u := by simpa using hy2
  rcases x with ⟨x1, x2⟩
  rcases y with ⟨y1, y2⟩
  simp only at hx3 hy3 hxy
  rw [hx3, hy3, hxy]

/-- Any read task has a well-formed tag set and no reported priority,
provided the stored tags are duplicate-free and comma-free. -/
theorem readTask_tags_wf (db : DB) (r : Row)
    (hW2 : db.tags.Nodup) (hW4 : ∀ p ∈ db.tags, commaFree p.2) :
    TagsWF (rowToTask db r).tags ∧
    (rowToTask db r).priority_adjustment = none := by
  refine ⟨?_, rfl⟩
  show TagsWF (readTags (db.tagsFor r.ulid))
  by_cases hl : db.tagsFor r.ulid = []
  · rw [hl]
    exact trivial
  · have hcf : ∀ s ∈ db.tagsFor r.ulid, commaFree s := by
      intro s hs
      rcases List.mem_map.mp hs with ⟨p, hp, rfl⟩
      exact hW4 p (List.mem_of_mem_filter hp)
    rw [show readTags (db.tagsFor r.ulid) = some (db.tagsFor r.ulid) from by
      simp [readTags, hl, splitComma_joinComma _ hl hcf]]
    exact ⟨hl, pairsFor_nodup db.tags r.ulid hW2, hcf⟩

/-- A found row is a member carrying the sought identifier. -/
theorem rowOf_some_elim (db : DB) (u : String) (r : Row)
    (h : db.rowOf u = some r) : r ∈ db.tasks ∧ r.ulid = u := by
  refine ⟨List.mem_of_find?_eq_some h, ?_⟩
  simpa using List.find?_some h

/-- With unique identifiers the found row is the only one with its
identifier. -/
theorem rowOf_mem_unique (db : DB) (u : String) (r : Row)
    (h : db.rowOf u = some r)
    (hnd : (db.tasks.map (fun r => r.ulid)).Nodup) :
    ∀ x ∈ db.tasks, x.ulid = u → x = r := by
  intro x hx hxu
  have h1 := find?_of_mem_nodup db.tasks x hx hnd
  rw [hxu] at h1
  rw [show db.rowOf u = db.tasks.find? (fun y => y.ulid == u) from rfl] at h
  rw [h] at h1
  injection h1 with h2
  exact h2.symm

/-- Under suffix-exactness the suffix search behaves as an exact lookup
of the stored row. -/
theorem search_exact (db : DB) (u : String)
    (hse : ∀ r ∈ db.tasks, likeSuffix u r.ulid = true → r.ulid = u)
    (hnd : (db.tasks.map (fun r => r.ulid)).Nodup) :
    db.search_using_ulid u = ((db.rowOf u).map (rowToTask db)).toList := by
  show ((db.tasks.filter (fun r => likeSuffix u r.ulid)).map (rowToTask db)) = _
  have hfe : db.tasks.filter (fun r => likeSuffix u r.ulid) =
      db.tasks.filter (fun r => r.ulid == u) := by
    apply List.filter_congr
    intro r hr
    by_cases h : r.ulid = u
    · rw [likeSuffix_of_eq h]
      simp [h]
    · have hf : likeSuffix u r.ulid = false := by
        cases hlk : likeSuffix u r.ulid
        · rfl
        · exact absurd (hse r hr hlk) h
      simp [hf, h]
  rw [hfe, filter_eq_toList_find? db.tasks u hnd]
  rw [show db.rowOf u = db.tasks.find? (fun r => r.ulid == u) from rfl]
  cases db.tasks.find? (fun r => r.ulid == u) <;> rfl

/-- Membership elimination for the change-window fetch. -/
theorem mem_fetch_elim (db : DB) (c : Date) (t : Task)
    (hnd : (db.tasks.map (fun r => r.ulid)).Nodup)
    (ht : t ∈ db.unsafe_query (windowClause c)) :
    ∃ r, db.rowOf t.ulid = some r ∧ windowClause c r = true ∧
      t = rowToTask db r := by
  rcases List.mem_map.mp ht with ⟨r, hr, rfl⟩
  rcases List.mem_filter.mp hr with ⟨hrm, hrw⟩
  refine ⟨r, ?_, hrw, rfl⟩
  rw [show (rowToTask db r).ulid = r.ulid from rfl]
  exact find?_of_mem_nodup db.tasks r hrm hnd

/-- Membership introduction for the change-window fetch. -/
theorem mem_fetch_intro (db : DB) (c : Date) (u : String) (r : Row)
    (hr : db.rowOf u = some r) (hw : windowClause c r = true) :
    rowToTask db r ∈ db.unsafe_query (windowClause c) := by
  rcases rowOf_some_elim db u r hr with ⟨hmem, _⟩
  exact List.mem_map_of_mem (rowToTask db) (List.mem_filter.mpr ⟨hmem, hw⟩)

/-- The fetched window carries distinct identifiers. -/
theorem fetch_ulids_nodup (db : DB) (c : Date)
    (hnd : (db.tasks.map (fun r => r.ulid)).Nodup) :
    ((db.unsafe_query (windowClause c)).map (fun t => t.ulid)).Nodup := by
  show (((db.tasks.filter (windowClause c)).map (rowToTask db)).map
    (fun t => t.ulid)).Nodup
  rw [List.map_map]
  have heq : ((fun t : Task => t.ulid) ∘ rowToTask db) = fun r : Row => r.ulid := rfl
  rw [heq]
  exact ((List.filter_sublist db.tasks).map (fun r => r.ulid)).nodup hnd

/-- The hash-map lookup over the fetched window, characterized by the
stored row. -/
theorem findTask_fetch (db : DB) (c : Date) (u : String)
    (hnd : (db.tasks.map (fun r => r.ulid)).Nodup) :
    findTask (db.unsafe_query (windowClause c)) u =
      (match db.rowOf u with
        | some r => if windowClause c r then some (rowToTask db r) else none
        | none => none) := by
  show ((db.tasks.filter (windowClause c)).map (rowToTask db)).find?
    (fun t => t.ulid == u) = _
  rw [List.find?_map]
  rw [find?_congrP (p := (fun t : Task => t.ulid == u) ∘ rowToTask db)
    (q := fun r : Row => r.ulid == u) (fun r => rfl)]
  cases hrow : db.rowOf u with
  | none =>
      rw [show (db.tasks.filter (windowClause c)).find?
          (fun r => r.ulid == u) = none from ?_]
      · rfl
      · rw [List.find?_eq_none]
        intro r hr hru
        rw [show db.rowOf u = db.tasks.find? (fun r => r.ulid == u) from rfl,
          List.find?_eq_none] at hrow
        exact hrow r (List.mem_of_mem_filter hr) hru
  | some r =>
      rcases rowOf_some_elim db u r hrow with ⟨hmem, hru⟩
      by_cases hw : windowClause c r = true
      · rw [show (db.tasks.filter (windowClause c)).find?
            (fun x => x.ulid == u) = some r from ?_]
        · simp [hw]
        · have hmem2 : r ∈ db.tasks.filter (windowClause c) :=
            List.mem_filter.mpr ⟨hmem, hw⟩
          have hnd2 : ((db.tasks.filter (windowClause c)).map
              (fun r => r.ulid)).Nodup :=
            ((List.filter_sublist db.tasks).map (fun r => r.ulid)).nodup hnd
          have := find?_of_mem_nodup _ r hmem2 hnd2
          rw [hru] at this
          exact this
      · rw [show (db.tasks.filter (windowClause c)).find?
            (fun x => x.ulid == u) = none from ?_]
        · simp [hw]
        · rw [List.find?_eq_none]
          intro x hx hxu
          rcases List.mem_filter.mp hx with ⟨hxm, hxw⟩
          have hxu2 : x.ulid = u := by simpa using hxu
          have hxr : x = r := rowOf_mem_unique db u r hrow hnd x hxm hxu2
          rw [hxr] at hxw
          exact hw hxw

/-- Membership in the tombstone window. -/
theorem mem_deleted_iff (db : DB) (n : Nat) (now : DateTime) (u : String) :
    u ∈ db.deleted_ulids n now ↔
      ∃ m, (u, m) ∈ db.tombstones ∧
        inWindowOpt (dateSub now.dateOf n) m = true := by
  simp only [DB.deleted_ulids, List.mem_map, List.mem_filter]
  constructor
  · rintro ⟨p, ⟨hp, hw⟩, rfl⟩
    exact ⟨p.2, by rw [Prod.mk.eta]; exact hp, hw⟩
  · rintro ⟨m, hm, hw⟩
    exact ⟨(u, m), ⟨hm, hw⟩, rfl⟩

/-- Inserted tag pairs are old pairs or carry the inserted identifier
and one of the inserted tags. -/
theorem mem_insertTags (tags0 : List (String × String)) (u : String)
    (l : List String) :
    ∀ p ∈ insertTags tags0 u l, p ∈ tags0 ∨ (p.1 = u ∧ p.2 ∈ l) := by
  induction l generalizing tags0 with
  | nil =>
      intro p hp
      exact Or.inl hp
  | cons x xs ih =>
      intro p hp
      by_cases hx : (u, x) ∈ tags0
      · rw [insertTags, if_pos hx] at hp
        rcases ih tags0 p hp with h | ⟨h1, h2⟩
        · exact Or.inl h
        · exact Or.inr ⟨h1, List.mem_cons_of_mem x h2⟩
      · rw [insertTags, if_neg hx] at hp
        rcases ih (tags0 ++ [(u, x)]) p hp with h | ⟨h1, h2⟩
        · rcases List.mem_append.mp h with h | h
          · exact Or.inl h
          · rcases List.mem_singleton.mp h with rfl
            exact Or.inr ⟨rfl, List.mem_cons_self x xs⟩
        · exact Or.inr ⟨h1, List.mem_cons_of_mem x h2⟩

/-- An identifier with a stored row is found. -/
theorem rowOf_ne_none_of_mem (db : DB) (u : String) (r : Row)
    (hr : r ∈ db.tasks) (hu : r.ulid = u) : db.rowOf u ≠ none := by
  intro hn
  rw [show db.rowOf u = db.tasks.find? (fun x => x.ulid == u) from rfl,
    List.find?_eq_none] at hn
  exact hn r hr (by simp [hu])

/-- A live-referencing tag table has no rows for an absent identifier. -/
theorem pairsFor_nil_of_dead (db : DB) (u : String)
    (hW5 : ∀ p ∈ db.tags, p.1 ∈ db.tasks.map (fun r => r.ulid))
    (hdead : db.rowOf u = none) : pairsFor db.tags u = [] := by
  by_cases h : pairsFor db.tags u = []
  · exact h
  · exfalso
    rcases List.exists_mem_of_ne_nil _ h with ⟨x, hx⟩
    have hmem := (mem_pairsFor db.tags u x).mp hx
    have := hW5 (u, x) hmem
    rcases List.mem_map.mp this with ⟨r, hr, hru⟩
    exact rowOf_ne_none_of_mem db u r hr hru hdead

/-- Updating a live identifier keeps tag rows referencing live tasks. -/
theorem tagslive_update (db : DB) (now : DateTime) (t : Task)
    (hlive : db.rowOf t.ulid ≠ none)
    (hW5 : ∀ p ∈ db.tags, p.1 ∈ db.tasks.map (fun r => r.ulid)) :
    ∀ p ∈ (db.update now t).tags,
      p.1 ∈ (db.update now t).tasks.map (fun r => r.ulid) := by
  intro p hp
  rw [tasks_map_ulid_update]
  rcases mem_insertTags _ _ _ p hp with h | ⟨h1, _⟩
  · exact hW5 p (List.mem_of_mem_filter h)
  · cases hrow : db.rowOf t.ulid with
    | none => exact absurd hrow hlive
    | some r =>
        rcases rowOf_some_elim db t.ulid r hrow with ⟨hmem, hru⟩
        rw [h1, ← hru]
        exact List.mem_map_of_mem (fun r => r.ulid) hmem

/-- Deleting keeps tag rows referencing live tasks. -/
theorem tagslive_delete (db db2 : DB) (now : DateTime) (t : Task)
    (h : db.delete now t = .ok db2)
    (hW5 : ∀ p ∈ db.tags, p.1 ∈ db.tasks.map (fun r => r.ulid)) :
    ∀ p ∈ db2.tags, p.1 ∈ db2.tasks.map (fun r => r.ulid) := by
  rcases delete_ok_elim db db2 now t h with ⟨_, _, rfl⟩
  intro p hp
  rcases List.mem_filter.mp hp with ⟨hpm, hpne⟩
  have hne : p.1 ≠ t.ulid := by simpa using hpne
  rcases List.mem_map.mp (hW5 p hpm) with ⟨r, hr, hru⟩
  refine List.mem_map.mpr ⟨r, ?_, hru⟩
  exact List.mem_filter.mpr ⟨hr, by simp [hru, hne]⟩

/-- Saving keeps tag rows referencing live tasks. -/
theorem tagslive_save (db db2 : DB) (now : DateTime) (t : Task)
    (h : db.save now t = .ok db2)
    (hW5 : ∀ p ∈ db.tags, p.1 ∈ db.tasks.map (fun r => r.ulid)) :
    ∀ p ∈ db2.tags, p.1 ∈ db2.tasks.map (fun r => r.ulid) := by
  rcases save_ok_elim db db2 now t h with ⟨_, rfl⟩
  intro p hp
  show p.1 ∈ (db.tasks ++ [savedRow now t]).map (fun r => r.ulid)
  rw [List.map_append, List.mem_append]
  rcases mem_insertTags _ _ _ p hp with hmem | ⟨h1, _⟩
  · exact Or.inl (hW5 p hmem)
  · exact Or.inr (by simp [savedRow, h1])

/-- The create-or-heal step writes exactly the record: the destination
holds the saved row and tag list at the written identifier, everything
else — rows, tags, tombstones — is untouched, identifiers stay unique
and live-referenced, and at most the written identifier is added. -/
theorem syncMissing_spec (dst : DB) (now : DateTime) (t : Task)
    (hW1 : (dst.tasks.map (fun r => r.ulid)).Nodup)
    (hW5 : ∀ p ∈ dst.tags, p.1 ∈ dst.tasks.map (fun r => r.ulid))
    (htags : TagsWF t.tags) :
    (syncMissing dst now t).1.rowOf t.ulid = some (savedRow now t) ∧
    (syncMissing dst now t).1.tagsFor t.ulid = t.tags.getD [] ∧
    (∀ v, v ≠ t.ulid → (syncMissing dst now t).1.rowOf v = dst.rowOf v ∧
        (syncMissing dst now t).1.tagsFor v = dst.tagsFor v) ∧
    (syncMissing dst now t).1.tombstones = dst.tombstones ∧
    ((syncMissing dst now t).1.tasks.map (fun r => r.ulid)).Nodup ∧
    (∀ u, u ∈ (syncMissing dst now t).1.tasks.map (fun r => r.ulid) →
        u ∈ dst.tasks.map (fun r => r.ulid) ∨ u = t.ulid) ∧
    (∀ p ∈ (syncMissing dst now t).1.tags,
        p.1 ∈ (syncMissing dst now t).1.tasks.map (fun r => r.ulid)) := by
  cases hsv : dst.save now t with
  | ok db2 =>
      have hstep : (syncMissing dst now t).1 = db2 := by
        simp [syncMissing, hsv]
      rw [hstep]
      have hdead := (save_ok_elim dst db2 now t hsv).1
      refine ⟨rowOf_save_self dst db2 now t hsv,
        tagsFor_save_self dst db2 now t hsv
          (pairsFor_nil_of_dead dst t.ulid hW5 hdead) htags,
        fun v hv => ⟨rowOf_save_ne dst db2 now t v hsv hv,
          tagsFor_save_ne dst db2 now t v hsv hv⟩,
        tombstones_save dst db2 now t hsv, ?_, ?_, ?_⟩
      · rcases save_ok_elim dst db2 now t hsv with ⟨_, rfl⟩
        show ((dst.tasks ++ [savedRow now t]).map (fun r => r.ulid)).Nodup
        rw [List.map_append, List.nodup_append]
        refine ⟨hW1, by simp, ?_⟩
        intro x hx hx2
        have hxu : x = t.ulid := by simpa [savedRow] using hx2
        rcases List.mem_map.mp hx with ⟨r, hr, hru⟩
        exact rowOf_ne_none_of_mem dst t.ulid r hr (hxu ▸ hru) hdead
      · rcases save_ok_elim dst db2 now t hsv with ⟨_, rfl⟩
        intro u hu
        show u ∈ dst.tasks.map (fun r => r.ulid) ∨ u = t.ulid
        rcases List.mem_append.mp (by
          rw [← List.map_append]
          exact hu) with h | h
        · exact Or.inl h
        · exact Or.inr (by simpa [savedRow] using h)
      · exact tagslive_save dst db2 now t hsv hW5
  | error e =>
      cases e
      have hstep : (syncMissing dst now t).1 = dst.update now t := by
        simp [syncMissing, hsv]
      rw [hstep]
      have hlive := save_error_elim dst now t hsv
      cases hrow : dst.rowOf t.ulid with
      | none => exact absurd hrow hlive
      | some r =>
          rcases rowOf_some_elim dst t.ulid r hrow with ⟨_, hru⟩
          refine ⟨?_, tagsFor_update_self dst now t htags,
            fun v hv => ⟨rowOf_update_ne dst now t v hv,
              tagsFor_update_ne dst now t v hv⟩,
            tombstones_update dst now t, ?_, ?_, ?_⟩
          · rw [rowOf_update_self, hrow, Option.map_some',
              applyUpdate_eq_savedRow now t r hru]
          · rw [tasks_map_ulid_update]
            exact hW1
          · intro u hu
            rw [tasks_map_ulid_update] at hu
            exact Or.inl hu
          · exact tagslive_update dst now t hlive hW5

/-- Specification of the first tombstone-propagation loop: identifiers
outside the processed list, already tombstoned on the peer, or without a
live copy are untouched; each processed identifier with a live copy is
deleted and tombstoned now; tombstones only grow by processed
identifiers; the task table shrinks; uniqueness and tag-liveness are
preserved. -/
theorem delLoop1_spec (now : DateTime) (od : List String) :
    ∀ (ds : List String) (other : DB) (tr : List WriteOp) (other2 : DB)
      (tr2 : List WriteOp),
      delLoop1 now od other tr ds = .ok (other2, tr2) →
      ds.Nodup →
      (∀ u ∈ ds, ∀ r ∈ other.tasks, likeSuffix u r.ulid = true → r.ulid = u) →
      (other.tasks.map (fun r => r.ulid)).Nodup →
      (∀ p ∈ other.tags, p.1 ∈ other.tasks.map (fun r => r.ulid)) →
      ((∀ u, u ∉ ds →
          other2.rowOf u = other.rowOf u ∧ other2.tagsFor u = other.tagsFor u) ∧
       (∀ u ∈ ds, u ∈ od →
          other2.rowOf u = other.rowOf u ∧ other2.tagsFor u = other.tagsFor u) ∧
       (∀ u ∈ ds, u ∉ od → other.rowOf u = none →
          other2.rowOf u = other.rowOf u ∧ other2.tagsFor u = other.tagsFor u) ∧
       (∀ u ∈ ds, u ∉ od → other.rowOf u ≠ none →
          other2.rowOf u = none ∧ (u, some now) ∈ other2.tombstones) ∧
       (∃ ext, other2.tombstones = other.tombstones ++ ext ∧
          ∀ p ∈ ext, p.1 ∈ ds ∧ p.2 = some now) ∧
       other2.tasks.Sublist other.tasks ∧
       (other2.tasks.map (fun r => r.ulid)).Nodup ∧
       (∀ p ∈ other2.tags, p.1 ∈ other2.tasks.map (fun r => r.ulid))) := by
  intro ds
  induction ds with
  | nil =>
      intro other tr other2 tr2 h hnd hse hW1 hW5
      have h2 : (Except.ok (other, tr) : Except Unit (DB × List WriteOp)) =
          .ok (other2, tr2) := h
      injection h2 with h3
      have hdb : other = other2 := congrArg Prod.fst h3
      subst hdb
      refine ⟨fun u _ => ⟨rfl, rfl⟩, fun u hu => absurd hu (by simp),
        fun u hu => absurd hu (by simp), fun u hu => absurd hu (by simp),
        ⟨[], by simp, by simp⟩, List.Sublist.refl _, hW1, hW5⟩
  | cons u rest ih =>
      intro other tr other2 tr2 h hnd hse hW1 hW5
      have hnd1 : u ∉ rest := (List.nodup_cons.mp hnd).1
      have hnd2 : rest.Nodup := (List.nodup_cons.mp hnd).2
      unfold delLoop1 at h
      by_cases hu : u ∈ od
      · rw [if_pos hu] at h
        obtain ⟨cA, cB, cC, cD, cE, cF, cG, cH⟩ :=
          ih other tr other2 tr2 h hnd2
            (fun v hv => hse v (List.mem_cons_of_mem u hv)) hW1 hW5
        refine ⟨?_, ?_, ?_, ?_, ?_, cF, cG, cH⟩
        · intro v hv
          exact cA v (fun hvr => hv (List.mem_cons_of_mem u hvr))
        · intro v hv hvo
          rcases List.mem_cons.mp hv with rfl | hv2
          · exact cA v hnd1
          · exact cB v hv2 hvo
        · intro v hv hvo hvn
          rcases List.mem_cons.mp hv with rfl | hv2
          · exact absurd hu hvo
          · exact cC v hv2 hvo hvn
        · intro v hv hvo hvn
          rcases List.mem_cons.mp hv with rfl | hv2
          · exact absurd hu hvo
          · exact cD v hv2 hvo hvn
        · rcases cE with ⟨ext, hext, hkeys⟩
          exact ⟨ext, hext, fun p hp =>
            ⟨List.mem_cons_of_mem u (hkeys p hp).1, (hkeys p hp).2⟩⟩
      · rw [if_neg hu] at h
        have hsrch := search_exact other u (hse u (List.mem_cons_self u rest)) hW1
        cases hrow : other.rowOf u with
        | none =>
            rw [hsrch, hrow] at h
            have h2 : delLoop1 now od other tr rest = .ok (other2, tr2) := h
            obtain ⟨cA, cB, cC, cD, cE, cF, cG, cH⟩ :=
              ih other tr other2 tr2 h2 hnd2
                (fun v hv => hse v (List.mem_cons_of_mem u hv)) hW1 hW5
            refine ⟨?_, ?_, ?_, ?_, ?_, cF, cG, cH⟩
            · intro v hv
              exact cA v (fun hvr => hv (List.mem_cons_of_mem u hvr))
            · intro v hv hvo
              rcases List.mem_cons.mp hv with rfl | hv2
              · exact absurd hvo hu
              · exact cB v hv2 hvo
            · intro v hv hvo hvn
              rcases List.mem_cons.mp hv with rfl | hv2
              · exact cA v hnd1
              · exact cC v hv2 hvo hvn
            · intro v hv hvo hvn
              rcases List.mem_cons.mp hv with rfl | hv2
              · exact absurd hrow hvn
              · exact cD v hv2 hvo hvn
            · rcases cE with ⟨ext, hext, hkeys⟩
              exact ⟨ext, hext, fun p hp =>
                ⟨List.mem_cons_of_mem u (hkeys p hp).1, (hkeys p hp).2⟩⟩
        | some r =>
            rw [hsrch, hrow] at h
            have h2 : (match other.delete now (rowToTask other r) with
                | Except.error e => (Except.error e : Except Unit (DB × List WriteOp))
                | Except.ok o2 => delLoop1 now od o2
                    (tr ++ [WriteOp.deleteOp false (rowToTask other r).ulid]) rest) =
                .ok (other2, tr2) := h
            have hulid : (rowToTask other r).ulid = u :=
              (rowOf_some_elim other u r hrow).2
            cases hdel : other.delete now (rowToTask other r) with
            | error e => rw [hdel] at h2; cases h2
            | ok o2 =>
                rw [hdel] at h2
                have hsub := tasks_delete_sublist other o2 now _ hdel
                have hW1o2 : (o2.tasks.map (fun r => r.ulid)).Nodup :=
                  (hsub.map (fun r => r.ulid)).nodup hW1
                have hW5o2 := tagslive_delete other o2 now _ hdel hW5
                obtain ⟨cA, cB, cC, cD, cE, cF, cG, cH⟩ :=
                  ih o2 _ other2 tr2 h2 hnd2
                    (fun v hv x hx hlk =>
                      hse v (List.mem_cons_of_mem u hv) x (hsub.subset hx) hlk)
                    hW1o2 hW5o2
                have hrowself : o2.rowOf u = none := by
                  have := rowOf_delete_self other o2 now _ hdel
                  rw [hulid] at this
                  exact this
                have hrowne : ∀ v, v ≠ u → o2.rowOf v = other.rowOf v := by
                  intro v hv
                  exact rowOf_delete_ne other o2 now _ v hdel (hulid ▸ hv)
                have htagsne : ∀ v, v ≠ u → o2.tagsFor v = other.tagsFor v := by
                  intro v hv
                  exact tagsFor_delete_ne other o2 now _ v hdel (hulid ▸ hv)
                have htombs : o2.tombstones =
                    other.tombstones ++ [(u, some now)] := by
                  have := tombstones_delete other o2 now _ hdel
                  rw [hulid] at this
                  exact this
                rcases cE with ⟨ext, hext, hkeys⟩
                refine ⟨?_, ?_, ?_, ?_, ?_, cF.trans hsub, cG, cH⟩
                · intro v hv
                  have hvu : v ≠ u := fun hh => hv (hh ▸ List.mem_cons_self u rest)
                  have hvr : v ∉ rest := fun hh => hv (List.mem_cons_of_mem u hh)
                  obtain ⟨e1, e2⟩ := cA v hvr
                  exact ⟨e1.trans (hrowne v hvu), e2.trans (htagsne v hvu)⟩
                · intro v hv hvo
                  rcases List.mem_cons.mp hv with rfl | hv2
                  · exact absurd hvo hu
                  · have hvu : v ≠ u := fun hh => hnd1 (hh ▸ hv2)
                    obtain ⟨e1, e2⟩ := cB v hv2 hvo
                    exact ⟨e1.trans (hrowne v hvu), e2.trans (htagsne v hvu)⟩
                · intro v hv hvo hvn
                  rcases List.mem_cons.mp hv with rfl | hv2
                  · exact absurd hrow (by rw [hvn]; intro hc; cases hc)
                  · have hvu : v ≠ u := fun hh => hnd1 (hh ▸ hv2)
                    obtain ⟨e1, e2⟩ := cC v hv2 hvo (by rw [hrowne v hvu]; exact hvn)
                    exact ⟨e1.trans (hrowne v hvu), e2.trans (htagsne v hvu)⟩
                · intro v hv hvo hvn
                  rcases List.mem_cons.mp hv with rfl | hv2
                  · obtain ⟨e1, e2⟩ := cA v hnd1
                    refine ⟨e1.trans hrowself, ?_⟩
                    rw [hext, htombs]
                    exact List.mem_append.mpr (Or.inl
                      (List.mem_append.mpr (Or.inr (List.mem_singleton.mpr rfl))))
                  · have hvu : v ≠ u := fun hh => hnd1 (hh ▸ hv2)
                    refine cD v hv2 hvo ?_
                    rw [hrowne v hvu]
                    exact hvn
                · refine ⟨(u, some now) :: ext, ?_, ?_⟩
                  · rw [hext, htombs, List.append_assoc]
                    rfl
                  · intro p hp
                    rcases List.mem_cons.mp hp with rfl | hp2
                    · exact ⟨List.mem_cons_self u rest, rfl⟩
                    · exact ⟨List.mem_cons_of_mem u (hkeys p hp2).1,
                        (hkeys p hp2).2⟩

/-- Specification of the second (mirror) tombstone-propagation loop: identifiers
outside the processed list, already tombstoned on the peer, or without a
live copy are untouched; each processed identifier with a live copy is
deleted and tombstoned now; tombstones only grow by processed
identifiers; the task table shrinks; uniqueness and tag-liveness are
preserved. -/
theorem delLoop2_spec (now : DateTime) (od : List String) :
    ∀ (ds : List String) (other : DB) (tr : List WriteOp) (other2 : DB)
      (tr2 : List WriteOp),
      delLoop2 now od other tr ds = .ok (other2, tr2) →
      ds.Nodup →
      (∀ u ∈ ds, ∀ r ∈ other.tasks, likeSuffix u r.ulid = true → r.ulid = u) →
      (other.tasks.map (fun r => r.ulid)).Nodup →
      (∀ p ∈ other.tags, p.1 ∈ other.tasks.map (fun r => r.ulid)) →
      ((∀ u, u ∉ ds →
          other2.rowOf u = other.rowOf u ∧ other2.tagsFor u = other.tagsFor u) ∧
       (∀ u ∈ ds, u ∈ od →
          other2.rowOf u = other.rowOf u ∧ other2.tagsFor u = other.tagsFor u) ∧
       (∀ u ∈ ds, u ∉ od → other.rowOf u = none →
          other2.rowOf u = other.rowOf u ∧ other2.tagsFor u = other.tagsFor u) ∧
       (∀ u ∈ ds, u ∉ od → other.rowOf u ≠ none →
          other2.rowOf u = none ∧ (u, some now) ∈ other2.tombstones) ∧
       (∃ ext, other2.tombstones = other.tombstones ++ ext ∧
          ∀ p ∈ ext, p.1 ∈ ds ∧ p.2 = some now) ∧
       other2.tasks.Sublist other.tasks ∧
       (other2.tasks.map (fun r => r.ulid)).Nodup ∧
       (∀ p ∈ other2.tags, p.1 ∈ other2.tasks.map (fun r => r.ulid))) := by
  intro ds
  induction ds with
  | nil =>
      intro other tr other2 tr2 h hnd hse hW1 hW5
      have h2 : (Except.ok (other, tr) : Except Unit (DB × List WriteOp)) =
          .ok (other2, tr2) := h
      injection h2 with h3
      have hdb : other = other2 := congrArg Prod.fst h3
      subst hdb
      refine ⟨fun u _ => ⟨rfl, rfl⟩, fun u hu => absurd hu (by simp),
        fun u hu => absurd hu (by simp), fun u hu => absurd hu (by simp),
        ⟨[], by simp, by simp⟩, List.Sublist.refl _, hW1, hW5⟩
  | cons u rest ih =>
      intro other tr other2 tr2 h hnd hse hW1 hW5
      have hnd1 : u ∉ rest := (List.nodup_cons.mp hnd).1
      have hnd2 : rest.Nodup := (List.nodup_cons.mp hnd).2
      unfold delLoop2 at h
      by_cases hu : u ∈ od
      · rw [if_pos hu] at h
        obtain ⟨cA, cB, cC, cD, cE, cF, cG, cH⟩ :=
          ih other tr other2 tr2 h hnd2
            (fun v hv => hse v (List.mem_cons_of_mem u hv)) hW1 hW5
        refine ⟨?_, ?_, ?_, ?_, ?_, cF, cG, cH⟩
        · intro v hv
          exact cA v (fun hvr => hv (List.mem_cons_of_mem u hvr))
        · intro v hv hvo
          rcases List.mem_cons.mp hv with rfl | hv2
          · exact cA v hnd1
          · exact cB v hv2 hvo
        · intro v hv hvo hvn
          rcases List.mem_cons.mp hv with rfl | hv2
          · exact absurd hu hvo
          · exact cC v hv2 hvo hvn
        · intro v hv hvo hvn
          rcases List.mem_cons.mp hv with rfl | hv2
          · exact absurd hu hvo
          · exact cD v hv2 hvo hvn
        · rcases cE with ⟨ext, hext, hkeys⟩
          exact ⟨ext, hext, fun p hp =>
            ⟨List.mem_cons_of_mem u (hkeys p hp).1, (hkeys p hp).2⟩⟩
      · rw [if_neg hu] at h
        have hsrch := search_exact other u (hse u (List.mem_cons_self u rest)) hW1
        cases hrow : other.rowOf u with
        | none =>
            rw [hsrch, hrow] at h
            have h2 : delLoop2 now od other tr rest = .ok (other2, tr2) := h
            obtain ⟨cA, cB, cC, cD, cE, cF, cG, cH⟩ :=
              ih other tr other2 tr2 h2 hnd2
                (fun v hv => hse v (List.mem_cons_of_mem u hv)) hW1 hW5
            refine ⟨?_, ?_, ?_, ?_, ?_, cF, cG, cH⟩
            · intro v hv
              exact cA v (fun hvr => hv (List.mem_cons_of_mem u hvr))
            · intro v hv hvo
              rcases List.mem_cons.mp hv with rfl | hv2
              · exact absurd hvo hu
              · exact cB v hv2 hvo
            · intro v hv hvo hvn
              rcases List.mem_cons.mp hv with rfl | hv2
              · exact cA v hnd1
              · exact cC v hv2 hvo hvn
            · intro v hv hvo hvn
              rcases List.mem_cons.mp hv with rfl | hv2
              · exact absurd hrow hvn
              · exact cD v hv2 hvo hvn
            · rcases cE with ⟨ext, hext, hkeys⟩
              exact ⟨ext, hext, fun p hp =>
                ⟨List.mem_cons_of_mem u (hkeys p hp).1, (hkeys p hp).2⟩⟩
        | some r =>
            rw [hsrch, hrow] at h
            have h2 : (match other.delete now (rowToTask other r) with
                | Except.error e => (Except.error e : Except Unit (DB × List WriteOp))
                | Except.ok o2 => delLoop2 now od o2
                    (tr ++ [WriteOp.deleteOp true (rowToTask other r).ulid]) rest) =
                .ok (other2, tr2) := h
            have hulid : (rowToTask other r).ulid = u :=
              (rowOf_some_elim other u r hrow).2
            cases hdel : other.delete now (rowToTask other r) with
            | error e => rw [hdel] at h2; cases h2
            | ok o2 =>
                rw [hdel] at h2
                have hsub := tasks_delete_sublist other o2 now _ hdel
                have hW1o2 : (o2.tasks.map (fun r => r.ulid)).Nodup :=
                  (hsub.map (fun r => r.ulid)).nodup hW1
                have hW5o2 := tagslive_delete other o2 now _ hdel hW5
                obtain ⟨cA, cB, cC, cD, cE, cF, cG, cH⟩ :=
                  ih o2 _ other2 tr2 h2 hnd2
                    (fun v hv x hx hlk =>
                      hse v (List.mem_cons_of_mem u hv) x (hsub.subset hx) hlk)
                    hW1o2 hW5o2
                have hrowself : o2.rowOf u = none := by
                  have := rowOf_delete_self other o2 now _ hdel
                  rw [hulid] at this
                  exact this
                have hrowne : ∀ v, v ≠ u → o2.rowOf v = other.rowOf v := by
                  intro v hv
                  exact rowOf_delete_ne other o2 now _ v hdel (hulid ▸ hv)
                have htagsne : ∀ v, v ≠ u → o2.tagsFor v = other.tagsFor v := by
                  intro v hv
                  exact tagsFor_delete_ne other o2 now _ v hdel (hulid ▸ hv)
                have htombs : o2.tombstones =
                    other.tombstones ++ [(u, some now)] := by
                  have := tombstones_delete other o2 now _ hdel
                  rw [hulid] at this
                  exact this
                rcases cE with ⟨ext, hext, hkeys⟩
                refine ⟨?_, ?_, ?_, ?_, ?_, cF.trans hsub, cG, cH⟩
                · intro v hv
                  have hvu : v ≠ u := fun hh => hv (hh ▸ List.mem_cons_self u rest)
                  have hvr : v ∉ rest := fun hh => hv (List.mem_cons_of_mem u hh)
                  obtain ⟨e1, e2⟩ := cA v hvr
                  exact ⟨e1.trans (hrowne v hvu), e2.trans (htagsne v hvu)⟩
                · intro v hv hvo
                  rcases List.mem_cons.mp hv with rfl | hv2
                  · exact absurd hvo hu
                  · have hvu : v ≠ u := fun hh => hnd1 (hh ▸ hv2)
                    obtain ⟨e1, e2⟩ := cB v hv2 hvo
                    exact ⟨e1.trans (hrowne v hvu), e2.trans (htagsne v hvu)⟩
                · intro v hv hvo hvn
                  rcases List.mem_cons.mp hv with rfl | hv2
                  · exact absurd hrow (by rw [hvn]; intro hc; cases hc)
                  · have hvu : v ≠ u := fun hh => hnd1 (hh ▸ hv2)
                    obtain ⟨e1, e2⟩ := cC v hv2 hvo (by rw [hrowne v hvu]; exact hvn)
                    exact ⟨e1.trans (hrowne v hvu), e2.trans (htagsne v hvu)⟩
                · intro v hv hvo hvn
                  rcases List.mem_cons.mp hv with rfl | hv2
                  · obtain ⟨e1, e2⟩ := cA v hnd1
                    refine ⟨e1.trans hrowself, ?_⟩
                    rw [hext, htombs]
                    exact List.mem_append.mpr (Or.inl
                      (List.mem_append.mpr (Or.inr (List.mem_singleton.mpr rfl))))
                  · have hvu : v ≠ u := fun hh => hnd1 (hh ▸ hv2)
                    refine cD v hv2 hvo ?_
                    rw [hrowne v hvu]
                    exact hvn
                · refine ⟨(u, some now) :: ext, ?_, ?_⟩
                  · rw [hext, htombs, List.append_assoc]
                    rfl
                  · intro p hp
                    rcases List.mem_cons.mp hp with rfl | hp2
                    · exact ⟨List.mem_cons_self u rest, rfl⟩
                    · exact ⟨List.mem_cons_of_mem u (hkeys p hp2).1,
                        (hkeys p hp2).2⟩


/-- Slice agreement is reflexive. -/
theorem SliceEq_refl (db : DB) (u : String) : SliceEq db db u := ⟨rfl, rfl⟩

/-- Slice agreement composes. -/
theorem SliceEq_trans {db3 db2 db1 : DB} {u : String}
    (h32 : SliceEq db3 db2 u) (h21 : SliceEq db2 db1 u) : SliceEq db3 db1 u :=
  ⟨h32.1.trans h21.1, h32.2.trans h21.2⟩

/-- A written slice persists across later slice-preserving steps. -/
theorem WrittenSlice_mono {db2 db1 : DB} {now : DateTime} {w : Task} {u : String}
    (heq : SliceEq db2 db1 u) (hw : WrittenSlice db1 now w u) :
    WrittenSlice db2 now w u :=
  ⟨heq.1.trans hw.1, heq.2.trans hw.2⟩

/-- The sync engine's update of a live well-formed task writes exactly
the record at its identifier and leaves every other slice, all
tombstones and the identifier column untouched. -/
theorem update_write_spec (db : DB) (now : DateTime) (w : Task)
    (hlive : db.rowOf w.ulid ≠ none) (htags : TagsWF w.tags) :
    WrittenSlice (db.update now w) now w w.ulid ∧
    (∀ v, v ≠ w.ulid → SliceEq (db.update now w) db v) ∧
    (db.update now w).tombstones = db.tombstones ∧
    (db.update now w).tasks.map (fun r => r.ulid) =
      db.tasks.map (fun r => r.ulid) := by
  cases hrow : db.rowOf w.ulid with
  | none => exact absurd hrow hlive
  | some r =>
      rcases rowOf_some_elim db w.ulid r hrow with ⟨_, hru⟩
      refine ⟨⟨?_, tagsFor_update_self db now w htags⟩,
        fun v hv => ⟨rowOf_update_ne db now w v hv, tagsFor_update_ne db now w v hv⟩,
        tombstones_update db now w, tasks_map_ulid_update db now w⟩
      rw [rowOf_update_self, hrow, Option.map_some',
        applyUpdate_eq_savedRow now w r hru]

/-- A found map entry is a member and carries the sought identifier. -/
theorem findTask_some_elim (l : List Task) (u : String) (t2 : Task)
    (h : findTask l u = some t2) : t2 ∈ l ∧ t2.ulid = u := by
  refine ⟨List.mem_of_find?_eq_some h, ?_⟩
  simpa using List.find?_some h

/-- Specification of the first content loop: processed identifiers
missing from the peer window are written to the peer; identifiers
present in both windows are skipped when content-equal and otherwise the
stale side is overwritten with the winning record; all other slices and
all tombstones are untouched; the local identifier column is unchanged,
the peer identifiers grow by at most the processed ones, and uniqueness
and tag-liveness are preserved on both sides. -/
theorem loop1_spec (now : DateTime) (B : List Task) :
    ∀ (A : List Task) (S O : DB) (tr : List WriteOp) (S2 O2 : DB)
      (tr2 : List WriteOp),
      loop1 now B S O tr A = .ok (S2, O2, tr2) →
      (A.map (fun t => t.ulid)).Nodup →
      (∀ t ∈ A, TagsWF t.tags) →
      (∀ t2 ∈ B, TagsWF t2.tags) →
      (S.tasks.map (fun r => r.ulid)).Nodup →
      (O.tasks.map (fun r => r.ulid)).Nodup →
      (∀ p ∈ S.tags, p.1 ∈ S.tasks.map (fun r => r.ulid)) →
      (∀ p ∈ O.tags, p.1 ∈ O.tasks.map (fun r => r.ulid)) →
      (∀ t ∈ A, S.rowOf t.ulid ≠ none) →
      (∀ t ∈ A, ∀ t2, findTask B t.ulid = some t2 → O.rowOf t.ulid ≠ none) →
      ((∀ u, (∀ x ∈ A, x.ulid ≠ u) → SliceEq S2 S u ∧ SliceEq O2 O u) ∧
       (S2.tombstones = S.tombstones ∧ O2.tombstones = O.tombstones) ∧
       (S2.tasks.map (fun r => r.ulid) = S.tasks.map (fun r => r.ulid)) ∧
       ((O2.tasks.map (fun r => r.ulid)).Nodup ∧
        (∀ u, u ∈ O2.tasks.map (fun r => r.ulid) →
          u ∈ O.tasks.map (fun r => r.ulid) ∨ ∃ x ∈ A, x.ulid = u)) ∧
       ((∀ p ∈ S2.tags, p.1 ∈ S2.tasks.map (fun r => r.ulid)) ∧
        (∀ p ∈ O2.tags, p.1 ∈ O2.tasks.map (fun r => r.ulid))) ∧
       (∀ x ∈ A,
         (findTask B x.ulid = none →
            SliceEq S2 S x.ulid ∧ WrittenSlice O2 now x x.ulid) ∧
         (∀ t2, findTask B x.ulid = some t2 →
           ((t2 = x ∨ taskClean t2 = taskClean x) →
              SliceEq S2 S x.ulid ∧ SliceEq O2 O x.ulid) ∧
           (taskClean t2 ≠ taskClean x →
              (optDTgtB t2.modified_utc x.modified_utc = true →
                 SliceEq O2 O x.ulid ∧ WrittenSlice S2 now t2 x.ulid) ∧
              (optDTgtB t2.modified_utc x.modified_utc = false →
                 SliceEq S2 S x.ulid ∧ WrittenSlice O2 now x x.ulid))))) := by
  intro A
  induction A with
  | nil =>
      intro S O tr S2 O2 tr2 h _ _ _ hW1S hW1O hW5S hW5O _ _
      have h2 : (Except.ok (S, O, tr) : Except Unit (DB × DB × List WriteOp)) =
          .ok (S2, O2, tr2) := h
      injection h2 with h3
      have hS : S = S2 := congrArg Prod.fst h3
      have hO : O = O2 := congrArg (fun x => x.2.1) h3
      subst hS
      subst hO
      exact ⟨fun u _ => ⟨SliceEq_refl _ _, SliceEq_refl _ _⟩, ⟨rfl, rfl⟩, rfl,
        ⟨hW1O, fun u hu => Or.inl hu⟩, ⟨hW5S, hW5O⟩,
        fun x hx => absurd hx (by simp)⟩
  | cons t rest ih =>
      intro S O tr S2 O2 tr2 h hndA htagsA htagsB hW1S hW1O hW5S hW5O hliveS hliveO
      have hndA1 : t.ulid ∉ rest.map (fun x => x.ulid) :=
        (List.nodup_cons.mp (by simpa using hndA)).1
      have hndA2 : (rest.map (fun x => x.ulid)).Nodup :=
        (List.nodup_cons.mp (by simpa using hndA)).2
      have hneRest : ∀ x ∈ rest, x.ulid ≠ t.ulid := by
        intro x hx hc
        exact hndA1 (hc ▸ List.mem_map_of_mem (fun z => z.ulid) hx)
      unfold loop1 at h
      cases hfind : findTask B t.ulid with
      | none =>
          rw [hfind] at h
          obtain ⟨hw1, hw2, hfr, htmb, hnod, hids, hlive5⟩ :=
            syncMissing_spec O now t hW1O hW5O (htagsA t (List.mem_cons_self t rest))
          rcases hsm : syncMissing O now t with ⟨Onew, flag⟩
          rw [hsm] at h hw1 hw2 hfr htmb hnod hids hlive5
          simp only at hw1 hw2 hfr htmb hnod hids hlive5
          have hrec : ∃ trx, loop1 now B S Onew trx rest = .ok (S2, O2, tr2) := by
            cases flag
            · exact ⟨_, h⟩
            · exact ⟨_, h⟩
          rcases hrec with ⟨trx, hrec⟩
          obtain ⟨cA, cT, cSid, cOid, cW5, cPer⟩ :=
            ih S Onew trx S2 O2 tr2 hrec hndA2
              (fun x hx => htagsA x (List.mem_cons_of_mem t hx)) htagsB
              hW1S hnod hW5S hlive5
              (fun x hx => hliveS x (List.mem_cons_of_mem t hx))
              (fun x hx t2 hf => by
                rw [(hfr x.ulid (hneRest x hx)).1]
                exact hliveO x (List.mem_cons_of_mem t hx) t2 hf)
          have hOframe : ∀ v, v ≠ t.ulid → SliceEq Onew O v :=
            fun v hv => ⟨(hfr v hv).1, (hfr v hv).2⟩
          refine ⟨?_, ⟨cT.1, cT.2.trans htmb⟩, cSid, ?_, cW5, ?_⟩
          · intro u hu
            obtain ⟨e1, e2⟩ := cA u (fun x hx => hu x (List.mem_cons_of_mem t hx))
            exact ⟨e1, SliceEq_trans e2
              (hOframe u (Ne.symm (hu t (List.mem_cons_self t rest))))⟩
          · refine ⟨cOid.1, ?_⟩
            intro u hu
            rcases cOid.2 u hu with h2 | ⟨x, hx, hxu⟩
            · rcases hids u h2 with h3 | h3
              · exact Or.inl h3
              · exact Or.inr ⟨t, List.mem_cons_self t rest, h3.symm⟩
            · exact Or.inr ⟨x, List.mem_cons_of_mem t hx, hxu⟩
          · intro x hx
            rcases List.mem_cons.mp hx with rfl | hx2
            · refine ⟨fun _ => ?_, fun t2 hf => absurd hf (by rw [hfind]; simp)⟩
              obtain ⟨e1, e2⟩ := cA x.ulid (hneRest)
              exact ⟨e1, WrittenSlice_mono e2 ⟨hw1, hw2⟩⟩
            · obtain ⟨d1, d2⟩ := cPer x hx2
              have hxt := hneRest x hx2
              refine ⟨fun hf => ?_, fun t2 hf => ?_⟩
              · obtain ⟨e1, e2⟩ := d1 hf
                exact ⟨e1, e2⟩
              · obtain ⟨d21, d22⟩ := d2 t2 hf
                refine ⟨fun hcase => ?_, fun hclne => ?_⟩
                · obtain ⟨e1, e2⟩ := d21 hcase
                  exact ⟨e1, SliceEq_trans e2 (hOframe x.ulid hxt)⟩
                · obtain ⟨d221, d222⟩ := d22 hclne
                  refine ⟨fun hgt => ?_, fun hngt => ?_⟩
                  · obtain ⟨e1, e2⟩ := d221 hgt
                    exact ⟨SliceEq_trans e1 (hOframe x.ulid hxt), e2⟩
                  · obtain ⟨e1, e2⟩ := d222 hngt
                    exact ⟨e1, e2⟩
      | some ot =>
          rw [hfind] at h
          have hou : ot.ulid = t.ulid := (findTask_some_elim B t.ulid ot hfind).2
          have hotB : ot ∈ B := (findTask_some_elim B t.ulid ot hfind).1
          have hred : (match syncPairStep now S O tr t ot with
              | (s2, o2, tr3) => loop1 now B s2 o2 tr3 rest) =
              .ok (S2, O2, tr2) := h
          by_cases heq : ot = t
          case pos =>
            have hstep : syncPairStep now S O tr t ot = (S, O, tr) := by
              simp [syncPairStep, heq]
            rw [hstep] at hred
            have hrec2 : loop1 now B S O tr rest = .ok (S2, O2, tr2) := hred
            obtain ⟨cA, cT, cSid, cOid, cW5, cPer⟩ :=
              ih S O tr S2 O2 tr2 hrec2 hndA2
                (fun x hx => htagsA x (List.mem_cons_of_mem t hx)) htagsB
                hW1S hW1O hW5S hW5O
                (fun x hx => hliveS x (List.mem_cons_of_mem t hx))
                (fun x hx => hliveO x (List.mem_cons_of_mem t hx))
            refine ⟨?_, cT, cSid, ?_, cW5, ?_⟩
            · intro u hu
              exact cA u (fun x hx => hu x (List.mem_cons_of_mem t hx))
            · exact ⟨cOid.1, fun u hu => (cOid.2 u hu).elim Or.inl
                (fun ⟨x, hx, hxu⟩ => Or.inr ⟨x, List.mem_cons_of_mem t hx, hxu⟩)⟩
            · intro x hx
              rcases List.mem_cons.mp hx with rfl | hx2
              · refine ⟨fun hf => absurd hf (by rw [hfind]; simp), fun t2 hf => ?_⟩
                have ht2 : t2 = ot := by
                  rw [hfind] at hf
                  injection hf with hf2
                  exact hf2.symm
                obtain ⟨e1, e2⟩ := cA x.ulid hneRest
                refine ⟨fun _ => ⟨e1, e2⟩, fun hclne => ?_⟩
                exact absurd (by rw [ht2, heq]) hclne
              · exact cPer x hx2
          case neg =>
            by_cases hcl : taskClean ot = taskClean t
            case pos =>
              have hstep : syncPairStep now S O tr t ot = (S, O, tr) := by
                simp [syncPairStep, heq, hcl]
              rw [hstep] at hred
              have hrec2 : loop1 now B S O tr rest = .ok (S2, O2, tr2) := hred
              obtain ⟨cA, cT, cSid, cOid, cW5, cPer⟩ :=
                ih S O tr S2 O2 tr2 hrec2 hndA2
                  (fun x hx => htagsA x (List.mem_cons_of_mem t hx)) htagsB
                  hW1S hW1O hW5S hW5O
                  (fun x hx => hliveS x (List.mem_cons_of_mem t hx))
                  (fun x hx => hliveO x (List.mem_cons_of_mem t hx))
              refine ⟨?_, cT, cSid, ?_, cW5, ?_⟩
              · intro u hu
                exact cA u (fun x hx => hu x (List.mem_cons_of_mem t hx))
              · exact ⟨cOid.1, fun u hu => (cOid.2 u hu).elim Or.inl
                  (fun ⟨x, hx, hxu⟩ => Or.inr ⟨x, List.mem_cons_of_mem t hx, hxu⟩)⟩
              · intro x hx
                rcases List.mem_cons.mp hx with rfl | hx2
                · refine ⟨fun hf => absurd hf (by rw [hfind]; simp), fun t2 hf => ?_⟩
                  have ht2 : t2 = ot := by
                    rw [hfind] at hf
                    injection hf with hf2
                    exact hf2.symm
                  obtain ⟨e1, e2⟩ := cA x.ulid hneRest
                  refine ⟨fun _ => ⟨e1, e2⟩, fun hclne => ?_⟩
                  exact absurd (ht2 ▸ hcl) hclne
                · exact cPer x hx2
            case neg =>
              by_cases hgt : optDTgtB ot.modified_utc t.modified_utc = true
              case pos =>
                have hstep : syncPairStep now S O tr t ot =
                    (S.update now ot, O, tr ++ [.updateOp true ot]) := by
                  simp [syncPairStep, heq, hcl, hgt]
                rw [hstep] at hred
                have hrec2 : loop1 now B (S.update now ot) O
                    (tr ++ [WriteOp.updateOp true ot]) rest = .ok (S2, O2, tr2) := hred
                have hliveOt : S.rowOf ot.ulid ≠ none := by
                  rw [hou]
                  exact hliveS t (List.mem_cons_self t rest)
                obtain ⟨hwr, hfrS, htmbS, hSid⟩ :=
                  update_write_spec S now ot hliveOt (htagsB ot hotB)
                have hW1S2 : ((S.update now ot).tasks.map (fun r => r.ulid)).Nodup := by
                  rw [hSid]; exact hW1S
                have hW5S2 := tagslive_update S now ot hliveOt hW5S
                obtain ⟨cA, cT, cSid, cOid, cW5, cPer⟩ :=
                  ih (S.update now ot) O _ S2 O2 tr2 hrec2 hndA2
                    (fun x hx => htagsA x (List.mem_cons_of_mem t hx)) htagsB
                    hW1S2 hW1O hW5S2 hW5O
                    (fun x hx => by
                      rw [(hfrS x.ulid (hou ▸ hneRest x hx)).1]
                      exact hliveS x (List.mem_cons_of_mem t hx))
                    (fun x hx => hliveO x (List.mem_cons_of_mem t hx))
                have hSframe : ∀ v, v ≠ t.ulid → SliceEq (S.update now ot) S v :=
                  fun v hv => hfrS v (hou ▸ hv)
                refine ⟨?_, ⟨cT.1.trans htmbS, cT.2⟩, cSid.trans hSid, ?_, cW5, ?_⟩
                · intro u hu
                  obtain ⟨e1, e2⟩ := cA u (fun x hx => hu x (List.mem_cons_of_mem t hx))
                  exact ⟨SliceEq_trans e1
                    (hSframe u (Ne.symm (hu t (List.mem_cons_self t rest)))), e2⟩
                · exact ⟨cOid.1, fun u hu => (cOid.2 u hu).elim Or.inl
                    (fun ⟨x, hx, hxu⟩ => Or.inr ⟨x, List.mem_cons_of_mem t hx, hxu⟩)⟩
                · intro x hx
                  rcases List.mem_cons.mp hx with rfl | hx2
                  · refine ⟨fun hf => absurd hf (by rw [hfind]; simp), fun t2 hf => ?_⟩
                    have ht2 : t2 = ot := by
                      rw [hfind] at hf
                      injection hf with hf2
                      exact hf2.symm
                    obtain ⟨e1, e2⟩ := cA x.ulid hneRest
                    subst ht2
                    refine ⟨fun hcase => ?_, fun hclne => ?_⟩
                    · rcases hcase with hcase | hcase
                      · exact absurd hcase heq
                      · exact absurd hcase hcl
                    · refine ⟨fun _ => ⟨e2, ?_⟩, fun hngt => absurd hgt (by rw [hngt]; simp)⟩
                      exact WrittenSlice_mono e1 (by rw [show x.ulid = t2.ulid from hou.symm]; exact hwr)
                  · obtain ⟨d1, d2⟩ := cPer x hx2
                    have hxt := hneRest x hx2
                    refine ⟨fun hf => ?_, fun t2 hf => ?_⟩
                    · obtain ⟨e1, e2⟩ := d1 hf
                      exact ⟨SliceEq_trans e1 (hSframe x.ulid hxt), e2⟩
                    · obtain ⟨d21, d22⟩ := d2 t2 hf
                      refine ⟨fun hcase => ?_, fun hclne => ?_⟩
                      · obtain ⟨e1, e2⟩ := d21 hcase
                        exact ⟨SliceEq_trans e1 (hSframe x.ulid hxt), e2⟩
                      · obtain ⟨d221, d222⟩ := d22 hclne
                        refine ⟨fun hg => d221 hg, fun hng => ?_⟩
                        obtain ⟨e1, e2⟩ := d222 hng
                        exact ⟨SliceEq_trans e1 (hSframe x.ulid hxt), e2⟩
              case neg =>
                have hgtf : optDTgtB ot.modified_utc t.modified_utc = false := by
                  cases hb : optDTgtB ot.modified_utc t.modified_utc
                  · rfl
                  · exact absurd hb hgt
                have hstep : syncPairStep now S O tr t ot =
                    (S, O.update now t, tr ++ [.updateOp false t]) := by
                  simp [syncPairStep, heq, hcl, hgtf]
                rw [hstep] at hred
                have hrec2 : loop1 now B S (O.update now t)
                    (tr ++ [WriteOp.updateOp false t]) rest = .ok (S2, O2, tr2) := hred
                have hliveOt : O.rowOf t.ulid ≠ none :=
                  hliveO t (List.mem_cons_self t rest) ot hfind
                obtain ⟨hwr, hfrO, htmbO, hOid⟩ :=
                  update_write_spec O now t hliveOt (htagsA t (List.mem_cons_self t rest))
                have hW1O2 : ((O.update now t).tasks.map (fun r => r.ulid)).Nodup := by
                  rw [hOid]; exact hW1O
                have hW5O2 := tagslive_update O now t hliveOt hW5O
                obtain ⟨cA, cT, cSid, cOid, cW5, cPer⟩ :=
                  ih S (O.update now t) _ S2 O2 tr2 hrec2 hndA2
                    (fun x hx => htagsA x (List.mem_cons_of_mem t hx)) htagsB
                    hW1S hW1O2 hW5S hW5O2
                    (fun x hx => hliveS x (List.mem_cons_of_mem t hx))
                    (fun x hx t2 hf => by
                      rw [(hfrO x.ulid (hneRest x hx)).1]
                      exact hliveO x (List.mem_cons_of_mem t hx) t2 hf)
                have hOframe : ∀ v, v ≠ t.ulid → SliceEq (O.update now t) O v :=
                  fun v hv => hfrO v hv
                refine ⟨?_, ⟨cT.1, cT.2.trans htmbO⟩, cSid, ?_, cW5, ?_⟩
                · intro u hu
                  obtain ⟨e1, e2⟩ := cA u (fun x hx => hu x (List.mem_cons_of_mem t hx))
                  exact ⟨e1, SliceEq_trans e2
                    (hOframe u (Ne.symm (hu t (List.mem_cons_self t rest))))⟩
                · refine ⟨cOid.1, ?_⟩
                  intro u hu
                  rcases cOid.2 u hu with h2 | ⟨x, hx, hxu⟩
                  · rw [hOid] at h2
                    exact Or.inl h2
                  · exact Or.inr ⟨x, List.mem_cons_of_mem t hx, hxu⟩
                · intro x hx
                  rcases List.mem_cons.mp hx with rfl | hx2
                  · refine ⟨fun hf => absurd hf (by rw [hfind]; simp), fun t2 hf => ?_⟩
                    have ht2 : t2 = ot := by
                      rw [hfind] at hf
                      injection hf with hf2
                      exact hf2.symm
                    obtain ⟨e1, e2⟩ := cA x.ulid hneRest
                    subst ht2
                    refine ⟨fun hcase => ?_, fun hclne => ?_⟩
                    · rcases hcase with hcase | hcase
                      · exact absurd hcase heq
                      · exact absurd hcase hcl
                    · refine ⟨fun hg => absurd hg (by rw [hgtf]; simp), fun _ => ?_⟩
                      exact ⟨e1, WrittenSlice_mono e2 hwr⟩
                  · obtain ⟨d1, d2⟩ := cPer x hx2
                    have hxt := hneRest x hx2
                    refine ⟨fun hf => ?_, fun t2 hf => ?_⟩
                    · obtain ⟨e1, e2⟩ := d1 hf
                      exact ⟨e1, e2⟩
                    · obtain ⟨d21, d22⟩ := d2 t2 hf
                      refine ⟨fun hcase => ?_, fun hclne => ?_⟩
                      · obtain ⟨e1, e2⟩ := d21 hcase
                        exact ⟨e1, SliceEq_trans e2 (hOframe x.ulid hxt)⟩
                      · obtain ⟨d221, d222⟩ := d22 hclne
                        refine ⟨fun hg => ?_, fun hng => ?_⟩
                        · obtain ⟨e1, e2⟩ := d221 hg
                          exact ⟨SliceEq_trans e1 (hOframe x.ulid hxt), e2⟩
                        · obtain ⟨e1, e2⟩ := d222 hng
                          exact ⟨e1, e2⟩

/-- Specification of the second content loop: identifiers already in the
local window are skipped, every other processed identifier is written
locally via save-or-update; all other slices and all tombstones are
untouched, local identifiers grow by at most the processed ones, and
uniqueness and tag-liveness are preserved. -/
theorem loop2_spec (now : DateTime) (A : List Task) :
    ∀ (Bl : List Task) (S : DB) (tr : List WriteOp) (S2 : DB)
      (tr2 : List WriteOp),
      loop2 now A S tr Bl = .ok (S2, tr2) →
      (Bl.map (fun t => t.ulid)).Nodup →
      (∀ t ∈ Bl, TagsWF t.tags) →
      (S.tasks.map (fun r => r.ulid)).Nodup →
      (∀ p ∈ S.tags, p.1 ∈ S.tasks.map (fun r => r.ulid)) →
      ((∀ u, (∀ x ∈ Bl, x.ulid ≠ u) → SliceEq S2 S u) ∧
       S2.tombstones = S.tombstones ∧
       ((S2.tasks.map (fun r => r.ulid)).Nodup ∧
        (∀ u, u ∈ S2.tasks.map (fun r => r.ulid) →
          u ∈ S.tasks.map (fun r => r.ulid) ∨ ∃ x ∈ Bl, x.ulid = u)) ∧
       (∀ p ∈ S2.tags, p.1 ∈ S2.tasks.map (fun r => r.ulid)) ∧
       (∀ x ∈ Bl,
         ((findTask A x.ulid).isSome = true → SliceEq S2 S x.ulid) ∧
         ((findTask A x.ulid).isSome = false →
            WrittenSlice S2 now x x.ulid))) := by
  intro Bl
  induction Bl with
  | nil =>
      intro S tr S2 tr2 h hnd htags hW1 hW5
      have h2 : (Except.ok (S, tr) : Except Unit (DB × List WriteOp)) =
          .ok (S2, tr2) := h
      injection h2 with h3
      have hS : S = S2 := congrArg Prod.fst h3
      subst hS
      exact ⟨fun u _ => SliceEq_refl _ _, rfl, ⟨hW1, fun u hu => Or.inl hu⟩,
        hW5, fun x hx => absurd hx (by simp)⟩
  | cons t rest ih =>
      intro S tr S2 tr2 h hnd htags hW1 hW5
      have hndA1 : t.ulid ∉ rest.map (fun x => x.ulid) :=
        (List.nodup_cons.mp (by simpa using hnd)).1
      have hndA2 : (rest.map (fun x => x.ulid)).Nodup :=
        (List.nodup_cons.mp (by simpa using hnd)).2
      have hneRest : ∀ x ∈ rest, x.ulid ≠ t.ulid := by
        intro x hx hc
        exact hndA1 (hc ▸ List.mem_map_of_mem (fun z => z.ulid) hx)
      unfold loop2 at h
      by_cases hfs : (findTask A t.ulid).isSome = true
      · rw [if_pos hfs] at h
        obtain ⟨cA, cT, cId, cW5, cPer⟩ :=
          ih S tr S2 tr2 h hndA2
            (fun x hx => htags x (List.mem_cons_of_mem t hx)) hW1 hW5
        refine ⟨?_, cT, ?_, cW5, ?_⟩
        · intro u hu
          exact cA u (fun x hx => hu x (List.mem_cons_of_mem t hx))
        · exact ⟨cId.1, fun u hu => (cId.2 u hu).elim Or.inl
            (fun ⟨x, hx, hxu⟩ => Or.inr ⟨x, List.mem_cons_of_mem t hx, hxu⟩)⟩
        · intro x hx
          rcases List.mem_cons.mp hx with rfl | hx2
          · exact ⟨fun _ => cA x.ulid hneRest,
              fun hns => absurd (hfs.symm.trans hns) (by decide)⟩
          · exact cPer x hx2
      · rw [if_neg hfs] at h
        obtain ⟨hw1, hw2, hfr, htmb, hnod, hids, hlive5⟩ :=
          syncMissing_spec S now t hW1 hW5 (htags t (List.mem_cons_self t rest))
        rcases hsm : syncMissing S now t with ⟨Snew, flag⟩
        rw [hsm] at h hw1 hw2 hfr htmb hnod hids hlive5
        simp only at hw1 hw2 hfr htmb hnod hids hlive5
        have hrec : ∃ trx, loop2 now A Snew trx rest = .ok (S2, tr2) := by
          cases flag
          · exact ⟨_, h⟩
          · exact ⟨_, h⟩
        rcases hrec with ⟨trx, hrec⟩
        obtain ⟨cA, cT, cId, cW5, cPer⟩ :=
          ih Snew trx S2 tr2 hrec hndA2
            (fun x hx => htags x (List.mem_cons_of_mem t hx)) hnod hlive5
        have hSframe : ∀ v, v ≠ t.ulid → SliceEq Snew S v :=
          fun v hv => ⟨(hfr v hv).1, (hfr v hv).2⟩
        refine ⟨?_, cT.trans htmb, ?_, cW5, ?_⟩
        · intro u hu
          exact SliceEq_trans
            (cA u (fun x hx => hu x (List.mem_cons_of_mem t hx)))
            (hSframe u (Ne.symm (hu t (List.mem_cons_self t rest))))
        · refine ⟨cId.1, ?_⟩
          intro u hu
          rcases cId.2 u hu with h2 | ⟨x, hx, hxu⟩
          · rcases hids u h2 with h3 | h3
            · exact Or.inl h3
            · exact Or.inr ⟨t, List.mem_cons_self t rest, h3.symm⟩
          · exact Or.inr ⟨x, List.mem_cons_of_mem t hx, hxu⟩
        · intro x hx
          rcases List.mem_cons.mp hx with rfl | hx2
          · refine ⟨fun hsome => absurd hsome hfs, fun _ => ?_⟩
            exact WrittenSlice_mono (cA x.ulid hneRest) ⟨hw1, hw2⟩
          · obtain ⟨d1, d2⟩ := cPer x hx2
            exact ⟨fun hsome => SliceEq_trans (d1 hsome)
              (hSframe x.ulid (hneRest x hx2)), d2⟩

/-- Clearing the modification time erases any prior modification stamp. -/
theorem taskClean_modified (t : Task) (v : Option DateTime) :
    taskClean { t with modified_utc := v } = taskClean t := rfl

/-- A written record with no stored priority adjustment is clean-equal to
its source. -/
theorem taskClean_written (t : Task) (v : Option DateTime)
    (h : t.priority_adjustment = none) :
    taskClean { t with modified_utc := v, priority_adjustment := none } =
      taskClean t := by
  cases t
  subst h
  rfl

/-- With unique identifiers the fetched-map lookup finds a member task. -/
theorem findTask_of_mem_nodup (l : List Task) (t : Task) (ht : t ∈ l)
    (hnd : (l.map (fun x => x.ulid)).Nodup) :
    findTask l t.ulid = some t := by
  induction l with
  | nil => cases ht
  | cons a as ih =>
      have hnd1 : (a.ulid :: as.map (fun x => x.ulid)).Nodup := by simpa using hnd
      rcases List.nodup_cons.mp hnd1 with ⟨hna, hnd2⟩
      rcases List.mem_cons.mp ht with rfl | ht2
      · show List.find? _ _ = _
        exact List.find?_cons_of_pos _ (by simp)
      · have hne : a.ulid ≠ t.ulid := by
          intro hcontra
          exact hna (hcontra ▸ List.mem_map_of_mem (fun x => x.ulid) ht2)
        show List.find? _ _ = _
        rw [List.find?_cons_of_neg _ (by simp [hne])]
        exact ih ht2 hnd2

/-- The map lookup misses when no listed task carries the identifier. -/
theorem findTask_eq_none_of (l : List Task) (u : String)
    (h : ∀ x ∈ l, x.ulid ≠ u) : findTask l u = none :=
  List.find?_eq_none.mpr (fun x hx => by simp [h x hx])

/-- A row lookup misses exactly when the identifier is absent from the
identifier column. -/
theorem rowOf_eq_none_iff (db : DB) (u : String) :
    db.rowOf u = none ↔ u ∉ db.tasks.map (fun r => r.ulid) := by
  constructor
  · intro h hc
    rcases List.mem_map.mp hc with ⟨r, hr, hru⟩
    exact rowOf_ne_none_of_mem db u r hr hru h
  · intro h
    rw [show db.rowOf u = db.tasks.find? (fun r => r.ulid == u) from rfl,
      List.find?_eq_none]
    intro r hr
    simp only [beq_iff_eq]
    intro hc
    exact h (hc ▸ List.mem_map_of_mem (fun r => r.ulid) hr)

/-- The tombstone window of a well-formed replica lists distinct
identifiers. -/
theorem deleted_ulids_nodup (db : DB) (n : Nat) (now : DateTime)
    (hW3 : (db.tombstones.map (fun p => p.1)).Nodup) :
    (db.deleted_ulids n now).Nodup := by
  show (((db.tombstones.filter
    (fun p => inWindowOpt (dateSub now.dateOf n) p.2)).map (fun p => p.1))).Nodup
  have hsub : (db.tombstones.filter
      (fun p => inWindowOpt (dateSub now.dateOf n) p.2)).map (fun p => p.1)
      |>.Sublist (db.tombstones.map (fun p => p.1)) :=
    (List.filter_sublist db.tombstones).map (fun p => p.1)
  exact hsub.nodup hW3

/-- A windowed tombstone key is a tombstone key. -/
theorem deleted_sub_keys (db : DB) (n : Nat) (now : DateTime) :
    ∀ u ∈ db.deleted_ulids n now, u ∈ db.tombstones.map (fun p => p.1) := by
  intro u hu
  rcases (mem_deleted_iff db n now u).mp hu with ⟨m, hm, _⟩
  exact List.mem_map.mpr ⟨(u, m), hm, rfl⟩

/-- The first tombstone-propagation loop only shrinks the tag table. -/
theorem delLoop1_tags_sublist (now : DateTime) (od : List String) :
    ∀ (ds : List String) (other : DB) (tr : List WriteOp) (other2 : DB)
      (tr2 : List WriteOp),
      delLoop1 now od other tr ds = .ok (other2, tr2) →
      other2.tags.Sublist other.tags := by
  intro ds
  induction ds with
  | nil =>
      intro other tr other2 tr2 h
      have h2 : (Except.ok (other, tr) : Except Unit (DB × List WriteOp)) =
          .ok (other2, tr2) := h
      injection h2 with h3
      rw [show other = other2 from congrArg Prod.fst h3]
  | cons u rest ih =>
      intro other tr other2 tr2 h
      unfold delLoop1 at h
      by_cases hu : u ∈ od
      · rw [if_pos hu] at h
        exact ih other tr other2 tr2 h
      · rw [if_neg hu] at h
        cases hsr : other.search_using_ulid u with
        | nil =>
            rw [hsr] at h
            exact ih other tr other2 tr2 h
        | cons t ts =>
            rw [hsr] at h
            have hred : (match other.delete now t with
                | Except.error e =>
                    (Except.error e : Except Unit (DB × List WriteOp))
                | Except.ok o2 => delLoop1 now od o2
                    (tr ++ [WriteOp.deleteOp false t.ulid]) rest) =
                .ok (other2, tr2) := h
            cases hdel : other.delete now t with
            | error e =>
                rw [hdel] at hred
                simp at hred
            | ok odel =>
                rw [hdel] at hred
                exact (ih odel _ other2 tr2 hred).trans
                  (tags_delete_sublist other odel now t hdel)

/-- The second tombstone-propagation loop only shrinks the tag table. -/
theorem delLoop2_tags_sublist (now : DateTime) (od : List String) :
    ∀ (ds : List String) (other : DB) (tr : List WriteOp) (other2 : DB)
      (tr2 : List WriteOp),
      delLoop2 now od other tr ds = .ok (other2, tr2) →
      other2.tags.Sublist other.tags := by
  intro ds
  induction ds with
  | nil =>
      intro other tr other2 tr2 h
      have h2 : (Except.ok (other, tr) : Except Unit (DB × List WriteOp)) =
          .ok (other2, tr2) := h
      injection h2 with h3
      rw [show other = other2 from congrArg Prod.fst h3]
  | cons u rest ih =>
      intro other tr other2 tr2 h
      unfold delLoop2 at h
      by_cases hu : u ∈ od
      · rw [if_pos hu] at h
        exact ih other tr other2 tr2 h
      · rw [if_neg hu] at h
        cases hsr : other.search_using_ulid u with
        | nil =>
            rw [hsr] at h
            exact ih other tr other2 tr2 h
        | cons t ts =>
            rw [hsr] at h
            have hred : (match other.delete now t with
                | Except.error e =>
                    (Except.error e : Except Unit (DB × List WriteOp))
                | Except.ok o2 => delLoop2 now od o2
                    (tr ++ [WriteOp.deleteOp true t.ulid]) rest) =
                .ok (other2, tr2) := h
            cases hdel : other.delete now t with
            | error e =>
                rw [hdel] at hred
                simp at hred
            | ok odel =>
                rw [hdel] at hred
                exact (ih odel _ other2 tr2 hred).trans
                  (tags_delete_sublist other odel now t hdel)

/-- The first tombstone-propagation loop does nothing when every
processed identifier is already tombstoned on the peer or absent from
the peer's search results. -/
theorem delLoop1_noop (now : DateTime) (od : List String) :
    ∀ (ds : List String) (other : DB) (tr : List WriteOp),
      (∀ u ∈ ds, u ∈ od ∨ other.search_using_ulid u = []) →
      delLoop1 now od other tr ds = .ok (other, tr) := by
  intro ds
  induction ds with
  | nil => intro other tr _; rfl
  | cons u rest ih =>
      intro other tr hcond
      unfold delLoop1
      by_cases hu : u ∈ od
      · rw [if_pos hu]
        exact ih other tr (fun v hv => hcond v (List.mem_cons_of_mem u hv))
      · rw [if_neg hu]
        rcases hcond u (List.mem_cons_self u rest) with h | h
        · exact absurd h hu
        · rw [h]
          exact ih other tr (fun v hv => hcond v (List.mem_cons_of_mem u hv))

/-- The second tombstone-propagation loop does nothing when every
processed identifier is already tombstoned locally or absent from the
local search results. -/
theorem delLoop2_noop (now : DateTime) (od : List String) :
    ∀ (ds : List String) (other : DB) (tr : List WriteOp),
      (∀ u ∈ ds, u ∈ od ∨ other.search_using_ulid u = []) →
      delLoop2 now od other tr ds = .ok (other, tr) := by
  intro ds
  induction ds with
  | nil => intro other tr _; rfl
  | cons u rest ih =>
      intro other tr hcond
      unfold delLoop2
      by_cases hu : u ∈ od
      · rw [if_pos hu]
        exact ih other tr (fun v hv => hcond v (List.mem_cons_of_mem u hv))
      · rw [if_neg hu]
        rcases hcond u (List.mem_cons_self u rest) with h | h
        · exact absurd h hu
        · rw [h]
          exact ih other tr (fun v hv => hcond v (List.mem_cons_of_mem u hv))

/-- The first content loop does nothing when every processed identifier
has a peer record equal to the local one up to the modification stamp. -/
theorem loop1_noop (now : DateTime) (B : List Task) :
    ∀ (A : List Task) (S O : DB) (tr : List WriteOp),
      (∀ t ∈ A, ∃ ot, findTask B t.ulid = some ot ∧
        (ot = t ∨ taskClean ot = taskClean t)) →
      loop1 now B S O tr A = .ok (S, O, tr) := by
  intro A
  induction A with
  | nil => intro S O tr _; rfl
  | cons t rest ih =>
      intro S O tr hcond
      rcases hcond t (List.mem_cons_self t rest) with ⟨ot, hf, hcase⟩
      unfold loop1
      rw [hf]
      have hstep : syncPairStep now S O tr t ot = (S, O, tr) := by
        rcases hcase with rfl | hcl
        · simp [syncPairStep]
        · by_cases heq : ot = t
          · simp [syncPairStep, heq]
          · simp [syncPairStep, heq, hcl]
      show (match syncPairStep now S O tr t ot with
        | (s2, o2, tr2) => loop1 now B s2 o2 tr2 rest) = .ok (S, O, tr)
      rw [hstep]
      exact ih S O tr (fun x hx => hcond x (List.mem_cons_of_mem t hx))

/-- The second content loop does nothing when every processed identifier
is already present in the local window. -/
theorem loop2_noop (now : DateTime) (A : List Task) :
    ∀ (Bl : List Task) (S : DB) (tr : List WriteOp),
      (∀ t ∈ Bl, (findTask A t.ulid).isSome = true) →
      loop2 now A S tr Bl = .ok (S, tr) := by
  intro Bl
  induction Bl with
  | nil => intro S tr _; rfl
  | cons t rest ih =>
      intro S tr hcond
      unfold loop2
      rw [if_pos (hcond t (List.mem_cons_self t rest))]
      exact ih S tr (fun x hx => hcond x (List.mem_cons_of_mem t hx))

/-- Consolidated facts about the tombstone-reconciliation phase of sync:
every windowed tombstone's identifier ends up dead on both replicas,
both-tombstoned identifiers are untouched, propagated deletions record a
tombstone stamped now, tombstone tables only grow by the peer's windowed
keys, task tables shrink, and well-formedness survives. -/
theorem sync_deleted_facts (S O : DB) (now : DateTime) (n : Nat)
    (S1 O1 : DB) (tr1 : List WriteOp)
    (hWFS : S.WF) (hWFO : O.WF)
    (hSuff : SuffFree (S.allIds ++ O.allIds))
    (hLS : LiveTombDisj S n now) (hLO : LiveTombDisj O n now)
    (hsd : sync_deleted S O now n = .ok (S1, O1, tr1)) :
    (∀ u, u ∈ S.deleted_ulids n now ∨ u ∈ O.deleted_ulids n now →
        S1.rowOf u = none ∧ O1.rowOf u = none) ∧
    (∀ u ∈ S.deleted_ulids n now, u ∈ O.deleted_ulids n now →
        SliceEq S1 S u ∧ SliceEq O1 O u) ∧
    (∀ u ∈ S.deleted_ulids n now, u ∉ O.deleted_ulids n now →
        O.rowOf u ≠ none → (u, some now) ∈ O1.tombstones) ∧
    (∀ u ∈ O.deleted_ulids n now, u ∉ S.deleted_ulids n now →
        S.rowOf u ≠ none → (u, some now) ∈ S1.tombstones) ∧
    (∃ ext, S1.tombstones = S.tombstones ++ ext ∧
        ∀ p ∈ ext, p.1 ∈ O.deleted_ulids n now ∧ p.2 = some now) ∧
    (∃ ext, O1.tombstones = O.tombstones ++ ext ∧
        ∀ p ∈ ext, p.1 ∈ S.deleted_ulids n now ∧ p.2 = some now) ∧
    (S1.tasks.Sublist S.tasks ∧ O1.tasks.Sublist O.tasks) ∧
    ((S1.tasks.map (fun r => r.ulid)).Nodup ∧
     (O1.tasks.map (fun r => r.ulid)).Nodup ∧
     (∀ p ∈ S1.tags, p.1 ∈ S1.tasks.map (fun r => r.ulid)) ∧
     (∀ p ∈ O1.tags, p.1 ∈ O1.tasks.map (fun r => r.ulid)) ∧
     S1.tags.Nodup ∧ O1.tags.Nodup ∧
     (∀ p ∈ S1.tags, commaFree p.2) ∧
     (∀ p ∈ O1.tags, commaFree p.2)) := by
  obtain ⟨hW1S, hW2S, hW3S, hW4S, hW5S⟩ := hWFS
  obtain ⟨hW1O, hW2O, hW3O, hW4O, hW5O⟩ := hWFO
  have hseO : ∀ u ∈ S.deleted_ulids n now, ∀ r ∈ O.tasks,
      likeSuffix u r.ulid = true → r.ulid = u := by
    intro u hu r hr hl
    have hu2 : u ∈ S.allIds ++ O.allIds :=
      List.mem_append.mpr (Or.inl (List.mem_append.mpr
        (Or.inr (deleted_sub_keys S n now u hu))))
    have hr2 : r.ulid ∈ S.allIds ++ O.allIds :=
      List.mem_append.mpr (Or.inr (List.mem_append.mpr
        (Or.inl (List.mem_map_of_mem (fun r => r.ulid) hr))))
    exact (hSuff u hu2 r.ulid hr2 hl).symm
  have hseS : ∀ u ∈ O.deleted_ulids n now, ∀ r ∈ S.tasks,
      likeSuffix u r.ulid = true → r.ulid = u := by
    intro u hu r hr hl
    have hu2 : u ∈ S.allIds ++ O.allIds :=
      List.mem_append.mpr (Or.inr (List.mem_append.mpr
        (Or.inr (deleted_sub_keys O n now u hu))))
    have hr2 : r.ulid ∈ S.allIds ++ O.allIds :=
      List.mem_append.mpr (Or.inl (List.mem_append.mpr
        (Or.inl (List.mem_map_of_mem (fun r => r.ulid) hr))))
    exact (hSuff u hu2 r.ulid hr2 hl).symm
  have hrowS_none : ∀ u ∈ S.deleted_ulids n now, S.rowOf u = none := by
    intro u hu
    rw [rowOf_eq_none_iff]
    intro hc
    rcases List.mem_map.mp hc with ⟨r, hr, hru⟩
    exact hLS u hu r hr hru
  have hrowO_none : ∀ u ∈ O.deleted_ulids n now, O.rowOf u = none := by
    intro u hu
    rw [rowOf_eq_none_iff]
    intro hc
    rcases List.mem_map.mp hc with ⟨r, hr, hru⟩
    exact hLO u hu r hr hru
  unfold sync_deleted at hsd
  have hsd2 : (match delLoop1 now (O.deleted_ulids n now) O []
      (S.deleted_ulids n now) with
    | Except.error e => (Except.error e : Except Unit (DB × DB × List WriteOp))
    | Except.ok (other2, trx) =>
        match delLoop2 now (S.deleted_ulids n now) S trx
            (O.deleted_ulids n now) with
        | Except.error e => Except.error e
        | Except.ok (self2, trz) => Except.ok (self2, other2, trz)) =
      .ok (S1, O1, tr1) := hsd
  cases hdl1 : delLoop1 now (O.deleted_ulids n now) O []
      (S.deleted_ulids n now) with
  | error e =>
      rw [hdl1] at hsd2
      simp at hsd2
  | ok y1 =>
      obtain ⟨O1x, trA⟩ := y1
      rw [hdl1] at hsd2
      have hsd3 : (match delLoop2 now (S.deleted_ulids n now) S trA
          (O.deleted_ulids n now) with
        | Except.error e =>
            (Except.error e : Except Unit (DB × DB × List WriteOp))
        | Except.ok (self2, trz) => Except.ok (self2, O1x, trz)) =
          .ok (S1, O1, tr1) := hsd2
      cases hdl2 : delLoop2 now (S.deleted_ulids n now) S trA
          (O.deleted_ulids n now) with
      | error e =>
          rw [hdl2] at hsd3
          simp at hsd3
      | ok y2 =>
          obtain ⟨S1x, trB⟩ := y2
          rw [hdl2] at hsd3
          have hsd4 : (Except.ok (S1x, O1x, trB) :
              Except Unit (DB × DB × List WriteOp)) = .ok (S1, O1, tr1) := hsd3
          injection hsd4 with h3
          have hS1 : S1x = S1 := congrArg Prod.fst h3
          have hO1 : O1x = O1 := congrArg (fun z => z.2.1) h3
          have hdl1x : delLoop1 now (O.deleted_ulids n now) O []
              (S.deleted_ulids n now) = .ok (O1, trA) := by
            rw [← hO1]
            exact hdl1
          have hdl2x : delLoop2 now (S.deleted_ulids n now) S trA
              (O.deleted_ulids n now) = .ok (S1, trB) := by
            rw [← hS1]
            exact hdl2
          obtain ⟨aO, bO, cO, dO, eO, fO, gO, h5O⟩ :=
            delLoop1_spec now (O.deleted_ulids n now) (S.deleted_ulids n now)
              O [] O1 trA hdl1x (deleted_ulids_nodup S n now hW3S)
              hseO hW1O hW5O
          obtain ⟨aS, bS, cS, dS, eS, fS, gS, h5S⟩ :=
            delLoop2_spec now (S.deleted_ulids n now) (O.deleted_ulids n now)
              S trA S1 trB hdl2x (deleted_ulids_nodup O n now hW3O)
              hseS hW1S hW5S
          have hS1dead : ∀ u, u ∈ S.deleted_ulids n now ∨
              u ∈ O.deleted_ulids n now → S1.rowOf u = none := by
            intro u hu
            by_cases hod : u ∈ O.deleted_ulids n now
            · by_cases hsd' : u ∈ S.deleted_ulids n now
              · rw [(bS u hod hsd').1]
                exact hrowS_none u hsd'
              · by_cases hrow : S.rowOf u = none
                · rw [(cS u hod hsd' hrow).1]
                  exact hrow
                · exact (dS u hod hsd' hrow).1
            · rcases hu with hsd' | hod'
              · rw [(aS u hod).1]
                exact hrowS_none u hsd'
              · exact absurd hod' hod
          have hO1dead : ∀ u, u ∈ S.deleted_ulids n now ∨
              u ∈ O.deleted_ulids n now → O1.rowOf u = none := by
            intro u hu
            by_cases hsd' : u ∈ S.deleted_ulids n now
            · by_cases hod : u ∈ O.deleted_ulids n now
              · rw [(bO u hsd' hod).1]
                exact hrowO_none u hod
              · by_cases hrow : O.rowOf u = none
                · rw [(cO u hsd' hod hrow).1]
                  exact hrow
                · exact (dO u hsd' hod hrow).1
            · rcases hu with hsd2' | hod'
              · exact absurd hsd2' hsd'
              · rw [(aO u hsd').1]
                exact hrowO_none u hod'
          refine ⟨fun u hu => ⟨hS1dead u hu, hO1dead u hu⟩, ?_, ?_, ?_,
            eS, eO, ⟨fS, fO⟩, gS, gO, h5S, h5O,
            (delLoop2_tags_sublist now (S.deleted_ulids n now)
              (O.deleted_ulids n now) S trA S1 trB hdl2x).nodup hW2S,
            (delLoop1_tags_sublist now (O.deleted_ulids n now)
              (S.deleted_ulids n now) O [] O1 trA hdl1x).nodup hW2O,
            fun p hp => hW4S p ((delLoop2_tags_sublist now
              (S.deleted_ulids n now) (O.deleted_ulids n now)
              S trA S1 trB hdl2x).subset hp),
            fun p hp => hW4O p ((delLoop1_tags_sublist now
              (O.deleted_ulids n now) (S.deleted_ulids n now)
              O [] O1 trA hdl1x).subset hp)⟩
          · intro u hu hod
            exact ⟨⟨(bS u hod hu).1, (bS u hod hu).2⟩,
              ⟨(bO u hu hod).1, (bO u hu hod).2⟩⟩
          · intro u hu hod hrow
            exact (dO u hu hod hrow).2
          · intro u hu hsd' hrow
            exact (dS u hu hsd' hrow).2

/-- A task fetched from a slice equal to an older state is the older
state's fetched task. -/
theorem fetch_ident (S2 S1 : DB) (t x : Task) (rS rx : Row)
    (hrowS2 : S2.rowOf t.ulid = some rS)
    (htEq : t = rowToTask S2 rS)
    (hxu : x.ulid = t.ulid)
    (hrowx : S1.rowOf x.ulid = some rx)
    (hxEq : x = rowToTask S1 rx)
    (hsl : SliceEq S2 S1 x.ulid) :
    t = x := by
  have h2 : S2.rowOf t.ulid = some rx := by
    rw [← hxu, hsl.1]
    exact hrowx
  have hrr : rx = rS := by
    rw [h2] at hrowS2
    injection hrowS2
  rw [htEq, ← hrr, hxEq]
  exact rowToTask_congr S2 S1 rx (by
    rw [(rowOf_some_elim S1 x.ulid rx hrowx).2]
    exact hsl.2)

/-- A task fetched from a written slice is the written record with the
refreshed modification stamp and the read-side priority. -/
theorem fetch_ident_written (S2 : DB) (now : DateTime) (t w : Task) (rS : Row)
    (hrowS2 : S2.rowOf t.ulid = some rS)
    (htEq : t = rowToTask S2 rS)
    (hwu : w.ulid = t.ulid)
    (hw : WrittenSlice S2 now w t.ulid)
    (htags : TagsWF w.tags) :
    t = { w with modified_utc := some now, priority_adjustment := none } := by
  have hrr : savedRow now w = rS := by
    rw [hw.1] at hrowS2
    injection hrowS2
  rw [htEq, ← hrr]
  exact rowToTask_savedRow S2 now w (by rw [hwu]; exact hw.2) htags

/-- The window lookup on a state whose slice equals an older state finds
the older state's fetched task. -/
theorem fetch_found (O2 O1 : DB) (c : Date) (u : String) (ot : Task) (ro : Row)
    (hnd : (O2.tasks.map (fun r => r.ulid)).Nodup)
    (hsl : SliceEq O2 O1 u)
    (hrow : O1.rowOf u = some ro)
    (hwc : windowClause c ro = true)
    (hoEq : ot = rowToTask O1 ro) :
    findTask (O2.unsafe_query (windowClause c)) u = some ot := by
  have hrow2 : O2.rowOf u = some ro := hsl.1.trans hrow
  rw [findTask_fetch O2 c u hnd, hrow2]
  show (if windowClause c ro then some (rowToTask O2 ro) else none) = some ot
  rw [if_pos hwc, hoEq]
  exact congrArg some (rowToTask_congr O2 O1 ro (by
    rw [(rowOf_some_elim O1 u ro hrow).2]
    exact hsl.2))

/-- The window lookup on a written slice finds the written record: a
fresh modification stamp always lies inside the window. -/
theorem fetch_found_written (O2 : DB) (now : DateTime) (c : Date) (u : String)
    (w : Task) (hnd : (O2.tasks.map (fun r => r.ulid)).Nodup)
    (hw : WrittenSlice O2 now w u)
    (hwin : Date.leB c now.dateOf = true) :
    findTask (O2.unsafe_query (windowClause c)) u =
      some (rowToTask O2 (savedRow now w)) := by
  rw [findTask_fetch O2 c u hnd, hw.1]
  show (if windowClause c (savedRow now w) then
      some (rowToTask O2 (savedRow now w)) else none) = _
  rw [if_pos (show windowClause c (savedRow now w) = true from hwin)]

/-- Consolidated facts about the two content loops of sync: identifiers
dead on both sides stay untouched, tombstones are unchanged, uniqueness
is preserved, identifiers only flow between the two replicas, and after
the pass the two change windows agree up to the modification stamp —
every local window row has a peer window row equal to it up to
`modified_utc`, and every peer window row has a local counterpart. -/
theorem sync_loops_facts (now : DateTime) (c : Date) (S1 O1 S2' S2 O2 : DB)
    (tr1 tr2 trf : List WriteOp)
    (hwin : Date.leB c now.dateOf = true)
    (hW1S1 : (S1.tasks.map (fun r => r.ulid)).Nodup)
    (hW1O1 : (O1.tasks.map (fun r => r.ulid)).Nodup)
    (hW5S1 : ∀ p ∈ S1.tags, p.1 ∈ S1.tasks.map (fun r => r.ulid))
    (hW5O1 : ∀ p ∈ O1.tags, p.1 ∈ O1.tasks.map (fun r => r.ulid))
    (hW2S1 : S1.tags.Nodup) (hW2O1 : O1.tags.Nodup)
    (hW4S1 : ∀ p ∈ S1.tags, commaFree p.2)
    (hW4O1 : ∀ p ∈ O1.tags, commaFree p.2)
    (hl1 : loop1 now (O1.unsafe_query (windowClause c)) S1 O1 tr1
        (S1.unsafe_query (windowClause c)) = .ok (S2', O2, tr2))
    (hl2 : loop2 now (S1.unsafe_query (windowClause c)) S2' tr2
        (O1.unsafe_query (windowClause c)) = .ok (S2, trf)) :
    (∀ u, S1.rowOf u = none → O1.rowOf u = none →
        SliceEq S2 S1 u ∧ SliceEq O2 O1 u) ∧
    (S2.tombstones = S1.tombstones ∧ O2.tombstones = O1.tombstones) ∧
    ((S2.tasks.map (fun r => r.ulid)).Nodup ∧
     (O2.tasks.map (fun r => r.ulid)).Nodup) ∧
    (∀ v ∈ S2.tasks.map (fun r => r.ulid),
        v ∈ S1.tasks.map (fun r => r.ulid) ∨
        v ∈ O1.tasks.map (fun r => r.ulid)) ∧
    (∀ v ∈ O2.tasks.map (fun r => r.ulid),
        v ∈ S1.tasks.map (fun r => r.ulid) ∨
        v ∈ O1.tasks.map (fun r => r.ulid)) ∧
    (∀ t ∈ S2.unsafe_query (windowClause c),
        ∃ ot, findTask (O2.unsafe_query (windowClause c)) t.ulid = some ot ∧
          (ot = t ∨ taskClean ot = taskClean t)) ∧
    (∀ t ∈ O2.unsafe_query (windowClause c),
        (findTask (S2.unsafe_query (windowClause c)) t.ulid).isSome = true) := by
  have hATnd : ((S1.unsafe_query (windowClause c)).map (fun t => t.ulid)).Nodup :=
    fetch_ulids_nodup S1 c hW1S1
  have hBTnd : ((O1.unsafe_query (windowClause c)).map (fun t => t.ulid)).Nodup :=
    fetch_ulids_nodup O1 c hW1O1
  have htagsA : ∀ t ∈ S1.unsafe_query (windowClause c), TagsWF t.tags := by
    intro t ht
    rcases mem_fetch_elim S1 c t hW1S1 ht with ⟨r, _, _, rfl⟩
    exact (readTask_tags_wf S1 r hW2S1 hW4S1).1
  have htagsB : ∀ t ∈ O1.unsafe_query (windowClause c), TagsWF t.tags := by
    intro t ht
    rcases mem_fetch_elim O1 c t hW1O1 ht with ⟨r, _, _, rfl⟩
    exact (readTask_tags_wf O1 r hW2O1 hW4O1).1
  have hliveA : ∀ t ∈ S1.unsafe_query (windowClause c),
      S1.rowOf t.ulid ≠ none := by
    intro t ht
    rcases mem_fetch_elim S1 c t hW1S1 ht with ⟨r, hrow, _, _⟩
    rw [hrow]
    simp
  have hliveB : ∀ t ∈ S1.unsafe_query (windowClause c), ∀ t2,
      findTask (O1.unsafe_query (windowClause c)) t.ulid = some t2 →
      O1.rowOf t.ulid ≠ none := by
    intro t ht t2 hf
    obtain ⟨ht2B, ht2u⟩ := findTask_some_elim _ _ _ hf
    rcases mem_fetch_elim O1 c t2 hW1O1 ht2B with ⟨r, hrow, _, _⟩
    rw [← ht2u, hrow]
    simp
  obtain ⟨cA, cT, cSid, cOid, cW5, cPer⟩ :=
    loop1_spec now (O1.unsafe_query (windowClause c))
      (S1.unsafe_query (windowClause c)) S1 O1 tr1 S2' O2 tr2 hl1
      hATnd htagsA htagsB hW1S1 hW1O1 hW5S1 hW5O1 hliveA hliveB
  have hW1S2' : (S2'.tasks.map (fun r => r.ulid)).Nodup := by
    rw [cSid]
    exact hW1S1
  obtain ⟨dA, dT, dId, dW5, dPer⟩ :=
    loop2_spec now (S1.unsafe_query (windowClause c))
      (O1.unsafe_query (windowClause c)) S2' tr2 S2 trf hl2
      hBTnd htagsB hW1S2' cW5.1
  have hwcs : ∀ w : Task, windowClause c (savedRow now w) = true := fun w => hwin
  refine ⟨?_, ⟨dT.trans cT.1, cT.2⟩, ⟨dId.1, cOid.1⟩, ?_, ?_, ?_, ?_⟩
  · -- dead-on-both identifiers keep their slices
    intro u hS1n hO1n
    have hnA : ∀ x ∈ S1.unsafe_query (windowClause c), x.ulid ≠ u := by
      intro x hx hc2
      rcases mem_fetch_elim S1 c x hW1S1 hx with ⟨r, hrow, _, _⟩
      rw [hc2, hS1n] at hrow
      simp at hrow
    have hnB : ∀ y ∈ O1.unsafe_query (windowClause c), y.ulid ≠ u := by
      intro y hy hc2
      rcases mem_fetch_elim O1 c y hW1O1 hy with ⟨r, hrow, _, _⟩
      rw [hc2, hO1n] at hrow
      simp at hrow
    obtain ⟨e1, e2⟩ := cA u hnA
    exact ⟨SliceEq_trans (dA u hnB) e1, e2⟩
  · -- local identifiers come from one of the two replicas
    intro v hv
    rcases dId.2 v hv with h | ⟨x, hxB, hxu⟩
    · rw [cSid] at h
      exact Or.inl h
    · rcases mem_fetch_elim O1 c x hW1O1 hxB with ⟨r, hrow, _, _⟩
      rcases rowOf_some_elim O1 x.ulid r hrow with ⟨hmem, hru⟩
      refine Or.inr ?_
      rw [← hxu, ← hru]
      exact List.mem_map_of_mem (fun r => r.ulid) hmem
  · -- peer identifiers come from one of the two replicas
    intro v hv
    rcases cOid.2 v hv with h | ⟨x, hxA, hxu⟩
    · exact Or.inr h
    · rcases mem_fetch_elim S1 c x hW1S1 hxA with ⟨r, hrow, _, _⟩
      rcases rowOf_some_elim S1 x.ulid r hrow with ⟨hmem, hru⟩
      refine Or.inl ?_
      rw [← hxu, ← hru]
      exact List.mem_map_of_mem (fun r => r.ulid) hmem
  · -- every local window row has a clean-equal peer window row
    intro t ht
    rcases mem_fetch_elim S2 c t dId.1 ht with ⟨rS, hrowS2, hwcS, htEq⟩
    by_cases hAq : ∃ x ∈ S1.unsafe_query (windowClause c), x.ulid = t.ulid
    · obtain ⟨x, hxA, hxu⟩ := hAq
      rcases mem_fetch_elim S1 c x hW1S1 hxA with ⟨rx, hrowx, hwcx, hxEq⟩
      obtain ⟨p1, p2⟩ := cPer x hxA
      cases hfB : findTask (O1.unsafe_query (windowClause c)) x.ulid with
      | none =>
          obtain ⟨q1, q2⟩ := p1 hfB
          have hfB' : (O1.unsafe_query (windowClause c)).find?
              (fun y => y.ulid == x.ulid) = none := hfB
          have hnB : ∀ y ∈ O1.unsafe_query (windowClause c), y.ulid ≠ x.ulid := by
            intro y hy hc2
            have h4 := List.find?_eq_none.mp hfB' y hy
            simp [hc2] at h4
          have hsl : SliceEq S2 S1 x.ulid := SliceEq_trans (dA x.ulid hnB) q1
          have htx : t = x :=
            fetch_ident S2 S1 t x rS rx hrowS2 htEq hxu hrowx hxEq hsl
          have hq2' : WrittenSlice O2 now x t.ulid := by
            rw [← hxu]
            exact q2
          refine ⟨rowToTask O2 (savedRow now x),
            fetch_found_written O2 now c t.ulid x cOid.1 hq2' hwin, Or.inr ?_⟩
          have hform : rowToTask O2 (savedRow now x) =
              { x with modified_utc := some now, priority_adjustment := none } :=
            rowToTask_savedRow O2 now x q2.2 (htagsA x hxA)
          rw [hform, htx]
          exact taskClean_written x (some now) (by rw [hxEq]; rfl)
      | some ot0 =>
          obtain ⟨ht0B, ht0u⟩ := findTask_some_elim _ _ _ hfB
          rcases mem_fetch_elim O1 c ot0 hW1O1 ht0B with ⟨ro, hrowo, hwco, hoEq⟩
          obtain ⟨dp1, dp2⟩ := dPer ot0 ht0B
          have hfAu : (findTask (S1.unsafe_query (windowClause c))
              ot0.ulid).isSome = true := by
            rw [ht0u, findTask_of_mem_nodup _ x hxA hATnd]
            rfl
          have hslS : SliceEq S2 S2' x.ulid := by
            rw [← ht0u]
            exact dp1 hfAu
          have hrowo' : O1.rowOf x.ulid = some ro := by
            rw [← ht0u]
            exact hrowo
          by_cases hcleq : ot0 = x ∨ taskClean ot0 = taskClean x
          · obtain ⟨e1, e2⟩ := (p2 ot0 hfB).1 hcleq
            have hsl : SliceEq S2 S1 x.ulid := SliceEq_trans hslS e1
            have htx : t = x :=
              fetch_ident S2 S1 t x rS rx hrowS2 htEq hxu hrowx hxEq hsl
            have he2' : SliceEq O2 O1 t.ulid := by
              rw [← hxu]
              exact e2
            have hro' : O1.rowOf t.ulid = some ro := by
              rw [← hxu]
              exact hrowo'
            refine ⟨ot0,
              fetch_found O2 O1 c t.ulid ot0 ro cOid.1 he2' hro' hwco hoEq, ?_⟩
            rw [htx]
            exact hcleq
          · have hclne : taskClean ot0 ≠ taskClean x :=
              fun hcl => hcleq (Or.inr hcl)
            obtain ⟨r1, r2⟩ := (p2 ot0 hfB).2 hclne
            cases hgt : optDTgtB ot0.modified_utc x.modified_utc with
            | true =>
                obtain ⟨e1, e2⟩ := r1 hgt
                have hw2 : WrittenSlice S2 now ot0 x.ulid :=
                  WrittenSlice_mono hslS e2
                have hw2' : WrittenSlice S2 now ot0 t.ulid := by
                  rw [← hxu]
                  exact hw2
                have hou' : ot0.ulid = t.ulid := ht0u.trans hxu
                have htform : t = { ot0 with
                    modified_utc := some now
                    priority_adjustment := none } :=
                  fetch_ident_written S2 now t ot0 rS hrowS2 htEq hou' hw2'
                    (htagsB ot0 ht0B)
                have he1' : SliceEq O2 O1 t.ulid := by
                  rw [← hxu]
                  exact e1
                have hro' : O1.rowOf t.ulid = some ro := by
                  rw [← hxu]
                  exact hrowo'
                refine ⟨ot0,
                  fetch_found O2 O1 c t.ulid ot0 ro cOid.1 he1' hro' hwco hoEq,
                  Or.inr ?_⟩
                rw [htform]
                exact (taskClean_written ot0 (some now) (by rw [hoEq]; rfl)).symm
            | false =>
                obtain ⟨e1, e2⟩ := r2 hgt
                have hsl : SliceEq S2 S1 x.ulid := SliceEq_trans hslS e1
                have htx : t = x :=
                  fetch_ident S2 S1 t x rS rx hrowS2 htEq hxu hrowx hxEq hsl
                have he2' : WrittenSlice O2 now x t.ulid := by
                  rw [← hxu]
                  exact e2
                refine ⟨rowToTask O2 (savedRow now x),
                  fetch_found_written O2 now c t.ulid x cOid.1 he2' hwin,
                  Or.inr ?_⟩
                have hform : rowToTask O2 (savedRow now x) =
                    { x with
                      modified_utc := some now
                      priority_adjustment := none } :=
                  rowToTask_savedRow O2 now x e2.2 (htagsA x hxA)
                rw [hform, htx]
                exact taskClean_written x (some now) (by rw [hxEq]; rfl)
    · have hnA : ∀ x ∈ S1.unsafe_query (windowClause c), x.ulid ≠ t.ulid :=
        fun x hx hc2 => hAq ⟨x, hx, hc2⟩
      have hfA : findTask (S1.unsafe_query (windowClause c)) t.ulid = none :=
        findTask_eq_none_of _ _ hnA
      by_cases hBq : ∃ y ∈ O1.unsafe_query (windowClause c), y.ulid = t.ulid
      · obtain ⟨bt, hbtB, hbtu⟩ := hBq
        rcases mem_fetch_elim O1 c bt hW1O1 hbtB with ⟨rb, hrowb, hwcb, hbEq⟩
        obtain ⟨dp1, dp2⟩ := dPer bt hbtB
        have hfs : (findTask (S1.unsafe_query (windowClause c))
            bt.ulid).isSome = false := by
          rw [hbtu, hfA]
          rfl
        have hw : WrittenSlice S2 now bt bt.ulid := dp2 hfs
        have hw' : WrittenSlice S2 now bt t.ulid := by
          rw [← hbtu]
          exact hw
        have htform : t = { bt with
            modified_utc := some now
            priority_adjustment := none } :=
          fetch_ident_written S2 now t bt rS hrowS2 htEq hbtu hw'
            (htagsB bt hbtB)
        obtain ⟨f1, f2⟩ := cA t.ulid hnA
        have hro' : O1.rowOf t.ulid = some rb := by
          rw [← hbtu]
          exact hrowb
        refine ⟨bt, fetch_found O2 O1 c t.ulid bt rb cOid.1 f2 hro' hwcb hbEq,
          Or.inr ?_⟩
        rw [htform]
        exact (taskClean_written bt (some now) (by rw [hbEq]; rfl)).symm
      · exfalso
        have hnB : ∀ y ∈ O1.unsafe_query (windowClause c), y.ulid ≠ t.ulid :=
          fun y hy hc2 => hBq ⟨y, hy, hc2⟩
        obtain ⟨f1, f2⟩ := cA t.ulid hnA
        have hsl : SliceEq S2 S1 t.ulid := SliceEq_trans (dA t.ulid hnB) f1
        have hrow1 : S1.rowOf t.ulid = some rS := hsl.1.symm.trans hrowS2
        have hmem := mem_fetch_intro S1 c t.ulid rS hrow1 hwcS
        refine hnA _ hmem ?_
        rw [show (rowToTask S1 rS).ulid = rS.ulid from rfl,
          (rowOf_some_elim S1 t.ulid rS hrow1).2]
  · -- every peer window row has a local window counterpart
    intro t ht
    rcases mem_fetch_elim O2 c t cOid.1 ht with ⟨rO2, hrowO2, hwcO2, htEq⟩
    rw [findTask_fetch S2 c t.ulid dId.1]
    have hgoal : ∃ r, S2.rowOf t.ulid = some r ∧ windowClause c r = true := by
      by_cases hAq : ∃ x ∈ S1.unsafe_query (windowClause c), x.ulid = t.ulid
      · obtain ⟨x, hxA, hxu⟩ := hAq
        rcases mem_fetch_elim S1 c x hW1S1 hxA with ⟨rx, hrowx, hwcx, hxEq⟩
        obtain ⟨p1, p2⟩ := cPer x hxA
        cases hfB : findTask (O1.unsafe_query (windowClause c)) x.ulid with
        | none =>
            obtain ⟨q1, q2⟩ := p1 hfB
            have hfB' : (O1.unsafe_query (windowClause c)).find?
                (fun y => y.ulid == x.ulid) = none := hfB
            have hnB : ∀ y ∈ O1.unsafe_query (windowClause c),
                y.ulid ≠ x.ulid := by
              intro y hy hc2
              have h4 := List.find?_eq_none.mp hfB' y hy
              simp [hc2] at h4
            have hsl : SliceEq S2 S1 x.ulid := SliceEq_trans (dA x.ulid hnB) q1
            refine ⟨rx, ?_, hwcx⟩
            rw [← hxu, hsl.1]
            exact hrowx
        | some ot0 =>
            obtain ⟨ht0B, ht0u⟩ := findTask_some_elim _ _ _ hfB
            obtain ⟨dp1, dp2⟩ := dPer ot0 ht0B
            have hfAu : (findTask (S1.unsafe_query (windowClause c))
                ot0.ulid).isSome = true := by
              rw [ht0u, findTask_of_mem_nodup _ x hxA hATnd]
              rfl
            have hslS : SliceEq S2 S2' x.ulid := by
              rw [← ht0u]
              exact dp1 hfAu
            by_cases hcleq : ot0 = x ∨ taskClean ot0 = taskClean x
            · obtain ⟨e1, e2⟩ := (p2 ot0 hfB).1 hcleq
              have hsl : SliceEq S2 S1 x.ulid := SliceEq_trans hslS e1
              refine ⟨rx, ?_, hwcx⟩
              rw [← hxu, hsl.1]
              exact hrowx
            · have hclne : taskClean ot0 ≠ taskClean x :=
                fun hcl => hcleq (Or.inr hcl)
              obtain ⟨r1, r2⟩ := (p2 ot0 hfB).2 hclne
              cases hgt : optDTgtB ot0.modified_utc x.modified_utc with
              | true =>
                  obtain ⟨e1, e2⟩ := r1 hgt
                  have hw2 : WrittenSlice S2 now ot0 x.ulid :=
                    WrittenSlice_mono hslS e2
                  refine ⟨savedRow now ot0, ?_, hwcs ot0⟩
                  rw [← hxu]
                  exact hw2.1
              | false =>
                  obtain ⟨e1, e2⟩ := r2 hgt
                  have hsl : SliceEq S2 S1 x.ulid := SliceEq_trans hslS e1
                  refine ⟨rx, ?_, hwcx⟩
                  rw [← hxu, hsl.1]
                  exact hrowx
      · have hnA : ∀ x ∈ S1.unsafe_query (windowClause c), x.ulid ≠ t.ulid :=
          fun x hx hc2 => hAq ⟨x, hx, hc2⟩
        have hfA : findTask (S1.unsafe_query (windowClause c)) t.ulid = none :=
          findTask_eq_none_of _ _ hnA
        obtain ⟨f1, f2⟩ := cA t.ulid hnA
        have hrow1 : O1.rowOf t.ulid = some rO2 := f2.1.symm.trans hrowO2
        have hmem := mem_fetch_intro O1 c t.ulid rO2 hrow1 hwcO2
        have hbu : (rowToTask O1 rO2).ulid = t.ulid :=
          (rowOf_some_elim O1 t.ulid rO2 hrow1).2
        obtain ⟨dp1, dp2⟩ := dPer (rowToTask O1 rO2) hmem
        have hfs : (findTask (S1.unsafe_query (windowClause c))
            (rowToTask O1 rO2).ulid).isSome = false := by
          rw [hbu, hfA]
          rfl
        have hw := dp2 hfs
        refine ⟨savedRow now (rowToTask O1 rO2), ?_, hwcs (rowToTask O1 rO2)⟩
        rw [← hbu]
        exact hw.1
    rcases hgoal with ⟨r, hr, hwr⟩
    rw [hr]
    simp [hwr]

/-- Consolidated facts about one full sync pass between well-formed
replicas with no live window-tombstoned identifier: windowed tombstone
keys are dead on both sides afterwards, tombstones grow only by the
peer's propagated keys stamped now, identifiers only move between the
replicas, and the two change windows agree up to the modification
stamp. -/
theorem sync_run1_facts (S O : DB) (now : DateTime) (n : Nat)
    (S2 O2 : DB) (tr : List WriteOp)
    (hWFS : S.WF) (hWFO : O.WF)
    (hSuff : SuffFree (S.allIds ++ O.allIds))
    (hLS : LiveTombDisj S n now) (hLO : LiveTombDisj O n now)
    (hwin : Date.leB (dateSub now.dateOf n) now.dateOf = true)
    (hrun : sync S O now n = .ok (S2, O2, tr)) :
    (∀ u, u ∈ S.deleted_ulids n now ∨ u ∈ O.deleted_ulids n now →
        S2.rowOf u = none ∧ O2.rowOf u = none) ∧
    (∃ ext, S2.tombstones = S.tombstones ++ ext ∧
        ∀ p ∈ ext, p.1 ∈ O.deleted_ulids n now ∧ p.2 = some now) ∧
    (∃ ext, O2.tombstones = O.tombstones ++ ext ∧
        ∀ p ∈ ext, p.1 ∈ S.deleted_ulids n now ∧ p.2 = some now) ∧
    (S2.tasks.map (fun r => r.ulid)).Nodup ∧
    (O2.tasks.map (fun r => r.ulid)).Nodup ∧
    (∀ v ∈ S2.tasks.map (fun r => r.ulid),
        v ∈ S.tasks.map (fun r => r.ulid) ∨
        v ∈ O.tasks.map (fun r => r.ulid)) ∧
    (∀ v ∈ O2.tasks.map (fun r => r.ulid),
        v ∈ S.tasks.map (fun r => r.ulid) ∨
        v ∈ O.tasks.map (fun r => r.ulid)) ∧
    (∀ t ∈ S2.unsafe_query (windowClause (dateSub now.dateOf n)),
        ∃ ot, findTask (O2.unsafe_query (windowClause (dateSub now.dateOf n)))
            t.ulid = some ot ∧ (ot = t ∨ taskClean ot = taskClean t)) ∧
    (∀ t ∈ O2.unsafe_query (windowClause (dateSub now.dateOf n)),
        (findTask (S2.unsafe_query (windowClause (dateSub now.dateOf n)))
            t.ulid).isSome = true) ∧
    (∀ u ∈ S.deleted_ulids n now, u ∉ O.deleted_ulids n now →
        O.rowOf u ≠ none → (u, some now) ∈ O2.tombstones) ∧
    (∀ u ∈ O.deleted_ulids n now, u ∉ S.deleted_ulids n now →
        S.rowOf u ≠ none → (u, some now) ∈ S2.tombstones) ∧
    (∀ u ∈ S.deleted_ulids n now, u ∈ O.deleted_ulids n now →
        SliceEq S2 S u ∧ SliceEq O2 O u) := by
  unfold sync at hrun
  cases hsd : sync_deleted S O now n with
  | error e =>
      rw [hsd] at hrun
      simp at hrun
  | ok y1 =>
      obtain ⟨S1, O1, tr1⟩ := y1
      rw [hsd] at hrun
      have hrun2 : (match loop1 now (O1.unsafe_query (windowClause
          (dateSub now.dateOf n))) S1 O1 tr1 (S1.unsafe_query (windowClause
          (dateSub now.dateOf n))) with
        | Except.error e =>
            (Except.error e : Except Unit (DB × DB × List WriteOp))
        | Except.ok (self2, other2, tr2) =>
            match loop2 now (S1.unsafe_query (windowClause
                (dateSub now.dateOf n))) self2 tr2 (O1.unsafe_query
                (windowClause (dateSub now.dateOf n))) with
            | Except.error e => Except.error e
            | Except.ok (self3, tr3) => Except.ok (self3, other2, tr3)) =
          .ok (S2, O2, tr) := hrun
      cases hl1 : loop1 now (O1.unsafe_query (windowClause
          (dateSub now.dateOf n))) S1 O1 tr1 (S1.unsafe_query (windowClause
          (dateSub now.dateOf n))) with
      | error e =>
          rw [hl1] at hrun2
          simp at hrun2
      | ok y2 =>
          obtain ⟨S2x, O2x, tr2x⟩ := y2
          rw [hl1] at hrun2
          have hrun3 : (match loop2 now (S1.unsafe_query (windowClause
              (dateSub now.dateOf n))) S2x tr2x (O1.unsafe_query (windowClause
              (dateSub now.dateOf n))) with
            | Except.error e =>
                (Except.error e : Except Unit (DB × DB × List WriteOp))
            | Except.ok (self3, tr3) => Except.ok (self3, O2x, tr3)) =
              .ok (S2, O2, tr) := hrun2
          cases hl2 : loop2 now (S1.unsafe_query (windowClause
              (dateSub now.dateOf n))) S2x tr2x (O1.unsafe_query (windowClause
              (dateSub now.dateOf n))) with
          | error e =>
              rw [hl2] at hrun3
              simp at hrun3
          | ok y3 =>
              obtain ⟨S3x, tr3x⟩ := y3
              rw [hl2] at hrun3
              have hrun4 : (Except.ok (S3x, O2x, tr3x) :
                  Except Unit (DB × DB × List WriteOp)) =
                  .ok (S2, O2, tr) := hrun3
              injection hrun4 with h3
              have hS2 : S3x = S2 := congrArg Prod.fst h3
              have hO2 : O2x = O2 := congrArg (fun z => z.2.1) h3
              obtain ⟨d1, d2, d3, d4, d5, d6, d7, d8⟩ :=
                sync_deleted_facts S O now n S1 O1 tr1 hWFS hWFO hSuff
                  hLS hLO hsd
              obtain ⟨hW1S1, hW1O1, hW5S1, hW5O1, hW2S1, hW2O1,
                hW4S1, hW4O1⟩ := d8
              have hl1' : loop1 now (O1.unsafe_query (windowClause
                  (dateSub now.dateOf n))) S1 O1 tr1 (S1.unsafe_query
                  (windowClause (dateSub now.dateOf n))) =
                  .ok (S2x, O2, tr2x) := by
                rw [← hO2]
                exact hl1
              have hl2' : loop2 now (S1.unsafe_query (windowClause
                  (dateSub now.dateOf n))) S2x tr2x (O1.unsafe_query
                  (windowClause (dateSub now.dateOf n))) =
                  .ok (S2, tr3x) := by
                rw [← hS2]
                exact hl2
              obtain ⟨l1, l2, l3, l4, l5, lF3, lF4⟩ :=
                sync_loops_facts now (dateSub now.dateOf n) S1 O1 S2x S2 O2
                  tr1 tr2x tr3x hwin hW1S1 hW1O1 hW5S1 hW5O1 hW2S1 hW2O1
                  hW4S1 hW4O1 hl1' hl2'
              refine ⟨?_, ?_, ?_, l3.1, l3.2, ?_, ?_, lF3, lF4, ?_, ?_, ?_⟩
              · intro u hu
                obtain ⟨hs1, ho1⟩ := d1 u hu
                obtain ⟨e1, e2⟩ := l1 u hs1 ho1
                exact ⟨e1.1.trans hs1, e2.1.trans ho1⟩
              · rcases d5 with ⟨ext, hext, hkeys⟩
                refine ⟨ext, ?_, hkeys⟩
                rw [l2.1]
                exact hext
              · rcases d6 with ⟨ext, hext, hkeys⟩
                refine ⟨ext, ?_, hkeys⟩
                rw [l2.2]
                exact hext
              · intro v hv
                rcases l4 v hv with h | h
                · exact Or.inl ((d7.1.map (fun r => r.ulid)).subset h)
                · exact Or.inr ((d7.2.map (fun r => r.ulid)).subset h)
              · intro v hv
                rcases l5 v hv with h | h
                · exact Or.inl ((d7.1.map (fun r => r.ulid)).subset h)
                · exact Or.inr ((d7.2.map (fun r => r.ulid)).subset h)
              · intro u hu hod hrow
                rw [l2.2]
                exact d3 u hu hod hrow
              · intro u hu hsd' hrow
                rw [l2.1]
                exact d4 u hu hsd' hrow
              · intro u hu hod
                obtain ⟨hs1, ho1⟩ := d1 u (Or.inl hu)
                obtain ⟨e1, e2⟩ := l1 u hs1 ho1
                obtain ⟨f1, f2⟩ := d2 u hu hod
                exact ⟨SliceEq_trans e1 f1, SliceEq_trans e2 f2⟩

/-- C2 (amended): between well-formed replicas whose fixed-length
identifiers are suffix-free and on which no identifier is simultaneously
live and tombstoned within the window, sync is idempotent: immediately
running a successful sync pass again, with no intervening mutation on
either replica, leaves both replicas unchanged and performs zero
additional writes — an empty write trace. -/
theorem sync_idempotent (S O : DB) (now : DateTime) (n : Nat)
    (S2 O2 : DB) (tr : List WriteOp)
    (hWFS : S.WF) (hWFO : O.WF)
    (hSuff : SuffFree (S.allIds ++ O.allIds))
    (hLS : LiveTombDisj S n now) (hLO : LiveTombDisj O n now)
    (hwin : Date.leB (dateSub now.dateOf n) now.dateOf = true)
    (hrun : sync S O now n = .ok (S2, O2, tr)) :
    sync S2 O2 now n = .ok (S2, O2, []) := by
  obtain ⟨hdead, hTS, hTO, hW1S2, hW1O2, hidS2, hidO2, hF3, hF4, _, _, _⟩ :=
    sync_run1_facts S O now n S2 O2 tr hWFS hWFO hSuff hLS hLO hwin hrun
  have hsd2sub : ∀ u ∈ S2.deleted_ulids n now,
      u ∈ S.deleted_ulids n now ∨ u ∈ O.deleted_ulids n now := by
    intro u hu
    rcases (mem_deleted_iff S2 n now u).mp hu with ⟨m, hm, hw⟩
    rcases hTS with ⟨ext, hext, hkeys⟩
    rw [hext] at hm
    rcases List.mem_append.mp hm with h | h
    · exact Or.inl ((mem_deleted_iff S n now u).mpr ⟨m, h, hw⟩)
    · exact Or.inr (hkeys (u, m) h).1
  have hod2sub : ∀ u ∈ O2.deleted_ulids n now,
      u ∈ S.deleted_ulids n now ∨ u ∈ O.deleted_ulids n now := by
    intro u hu
    rcases (mem_deleted_iff O2 n now u).mp hu with ⟨m, hm, hw⟩
    rcases hTO with ⟨ext, hext, hkeys⟩
    rw [hext] at hm
    rcases List.mem_append.mp hm with h | h
    · exact Or.inr ((mem_deleted_iff O n now u).mpr ⟨m, h, hw⟩)
    · exact Or.inl (hkeys (u, m) h).1
  have hmemIds : ∀ u, u ∈ S.deleted_ulids n now ∨ u ∈ O.deleted_ulids n now →
      u ∈ S.allIds ++ O.allIds := by
    intro u hu
    rcases hu with h | h
    · exact List.mem_append.mpr (Or.inl (List.mem_append.mpr
        (Or.inr (deleted_sub_keys S n now u h))))
    · exact List.mem_append.mpr (Or.inr (List.mem_append.mpr
        (Or.inr (deleted_sub_keys O n now u h))))
  have hsearchS2 : ∀ u, u ∈ S.deleted_ulids n now ∨
      u ∈ O.deleted_ulids n now → S2.search_using_ulid u = [] := by
    intro u hu
    have hse : ∀ r ∈ S2.tasks, likeSuffix u r.ulid = true → r.ulid = u := by
      intro r hr hl
      have hr2 : r.ulid ∈ S.allIds ++ O.allIds := by
        rcases hidS2 r.ulid (List.mem_map_of_mem (fun r => r.ulid) hr) with h | h
        · exact List.mem_append.mpr (Or.inl (List.mem_append.mpr (Or.inl h)))
        · exact List.mem_append.mpr (Or.inr (List.mem_append.mpr (Or.inl h)))
      exact (hSuff u (hmemIds u hu) r.ulid hr2 hl).symm
    rw [search_exact S2 u hse hW1S2, (hdead u hu).1]
    rfl
  have hsearchO2 : ∀ u, u ∈ S.deleted_ulids n now ∨
      u ∈ O.deleted_ulids n now → O2.search_using_ulid u = [] := by
    intro u hu
    have hse : ∀ r ∈ O2.tasks, likeSuffix u r.ulid = true → r.ulid = u := by
      intro r hr hl
      have hr2 : r.ulid ∈ S.allIds ++ O.allIds := by
        rcases hidO2 r.ulid (List.mem_map_of_mem (fun r => r.ulid) hr) with h | h
        · exact List.mem_append.mpr (Or.inl (List.mem_append.mpr (Or.inl h)))
        · exact List.mem_append.mpr (Or.inr (List.mem_append.mpr (Or.inl h)))
      exact (hSuff u (hmemIds u hu) r.ulid hr2 hl).symm
    rw [search_exact O2 u hse hW1O2, (hdead u hu).2]
    rfl
  have hsd2 : sync_deleted S2 O2 now n = .ok (S2, O2, []) := by
    show (match delLoop1 now (O2.deleted_ulids n now) O2 []
        (S2.deleted_ulids n now) with
      | Except.error e =>
          (Except.error e : Except Unit (DB × DB × List WriteOp))
      | Except.ok (other2, trz) =>
          match delLoop2 now (S2.deleted_ulids n now) S2 trz
              (O2.deleted_ulids n now) with
          | Except.error e => Except.error e
          | Except.ok (self2, trw) => Except.ok (self2, other2, trw)) =
        .ok (S2, O2, [])
    rw [delLoop1_noop now (O2.deleted_ulids n now) (S2.deleted_ulids n now)
      O2 [] (fun u hu => Or.inr (hsearchO2 u (hsd2sub u hu)))]
    show (match delLoop2 now (S2.deleted_ulids n now) S2 []
        (O2.deleted_ulids n now) with
      | Except.error e =>
          (Except.error e : Except Unit (DB × DB × List WriteOp))
      | Except.ok (self2, trw) => Except.ok (self2, O2, trw)) =
        .ok (S2, O2, [])
    rw [delLoop2_noop now (S2.deleted_ulids n now) (O2.deleted_ulids n now)
      S2 [] (fun u hu => Or.inr (hsearchS2 u (hod2sub u hu)))]
  unfold sync
  rw [hsd2]
  show (match loop1 now (O2.unsafe_query (windowClause (dateSub now.dateOf n)))
      S2 O2 [] (S2.unsafe_query (windowClause (dateSub now.dateOf n))) with
    | Except.error e =>
        (Except.error e : Except Unit (DB × DB × List WriteOp))
    | Except.ok (self2, other2, tr2) =>
        match loop2 now (S2.unsafe_query (windowClause (dateSub now.dateOf n)))
            self2 tr2 (O2.unsafe_query
              (windowClause (dateSub now.dateOf n))) with
        | Except.error e => Except.error e
        | Except.ok (self3, tr3) => Except.ok (self3, other2, tr3)) =
      .ok (S2, O2, [])
  rw [loop1_noop now (O2.unsafe_query (windowClause (dateSub now.dateOf n)))
    (S2.unsafe_query (windowClause (dateSub now.dateOf n))) S2 O2 [] hF3]
  show (match loop2 now (S2.unsafe_query (windowClause (dateSub now.dateOf n)))
      S2 [] (O2.unsafe_query (windowClause (dateSub now.dateOf n))) with
    | Except.error e =>
        (Except.error e : Except Unit (DB × DB × List WriteOp))
    | Except.ok (self3, tr3) => Except.ok (self3, O2, tr3)) =
      .ok (S2, O2, [])
  rw [loop2_noop now (S2.unsafe_query (windowClause (dateSub now.dateOf n)))
    (O2.unsafe_query (windowClause (dateSub now.dateOf n))) S2 [] hF4]

/-- C2 (witness): a concrete deletion-propagation pass — tombstone `d1`
on the local side, live copy on the peer — after which the repeated run
returns both replicas unchanged with an empty write trace. -/
theorem sync_idempotent_witness :
    sync delSelfDB delOtherSynced cnow 7 =
      .ok (delSelfDB, delOtherSynced, []) :=
  sync_idempotent delSelfDB delOtherDB cnow 7 delSelfDB delOtherSynced
    [WriteOp.deleteOp false "d1"]
    (by unfold DB.WF commaFree; decide)
    (by unfold DB.WF commaFree; decide)
    (by unfold SuffFree; decide)
    (by unfold LiveTombDisj; decide)
    (by unfold LiveTombDisj; decide)
    (by decide)
    (by decide)

/-- C2 (counterexample): sync is not idempotent for every replica pair.
A replica holding identifier `u1` both live and window-tombstoned —
reachable through the public interface by save, delete, save, since
save never clears tombstones — makes the first run re-create `u1` on the
empty peer, and the immediately repeated run with no intervening
mutation performs two further writes: it deletes the peer copy and then
re-creates it again. -/
theorem sync_idempotent_counterexample :
    sync zombieSelfDB emptyDB cnow 7 =
      .ok (zombieRes1.1, zombieRes1.2.1, zombieRes1.2.2) ∧
    sync zombieRes1.1 zombieRes1.2.1 cnow 7 =
      .ok (zombieRes2.1, zombieRes2.2.1, zombieRes2.2.2) ∧
    zombieRes2.2.2 ≠ [] := by decide

/-- C4 (amended): between well-formed replicas with suffix-free
identifiers and no identifier simultaneously live and window-tombstoned
on the same replica, a sync pass propagates deletions: every identifier
tombstoned within the window on one replica is absent from both replicas
afterwards; if it was tombstoned on exactly one side and still live on
the other, a tombstone stamped with the sync time is recorded there; and
identifiers tombstoned on both sides trigger no action. -/
theorem sync_propagates_deletions (S O : DB) (now : DateTime) (n : Nat)
    (S2 O2 : DB) (tr : List WriteOp)
    (hWFS : S.WF) (hWFO : O.WF)
    (hSuff : SuffFree (S.allIds ++ O.allIds))
    (hLS : LiveTombDisj S n now) (hLO : LiveTombDisj O n now)
    (hwin : Date.leB (dateSub now.dateOf n) now.dateOf = true)
    (hrun : sync S O now n = .ok (S2, O2, tr)) :
    (∀ u ∈ S.deleted_ulids n now,
        S2.rowOf u = none ∧ O2.rowOf u = none ∧
        (u ∉ O.deleted_ulids n now → O.rowOf u ≠ none →
            (u, some now) ∈ O2.tombstones) ∧
        (u ∈ O.deleted_ulids n now → SliceEq S2 S u ∧ SliceEq O2 O u)) ∧
    (∀ u ∈ O.deleted_ulids n now,
        S2.rowOf u = none ∧ O2.rowOf u = none ∧
        (u ∉ S.deleted_ulids n now → S.rowOf u ≠ none →
            (u, some now) ∈ S2.tombstones)) := by
  obtain ⟨hdead, _, _, _, _, _, _, _, _, hrecO, hrecS, hnoact⟩ :=
    sync_run1_facts S O now n S2 O2 tr hWFS hWFO hSuff hLS hLO hwin hrun
  refine ⟨?_, ?_⟩
  · intro u hu
    exact ⟨(hdead u (Or.inl hu)).1, (hdead u (Or.inl hu)).2,
      hrecO u hu, hnoact u hu⟩
  · intro u hu
    exact ⟨(hdead u (Or.inr hu)).1, (hdead u (Or.inr hu)).2, hrecS u hu⟩

/-- C4 (witness): the deletion of `d1`, tombstoned only locally,
propagates to the peer that independently held a live unmodified copy:
after the pass the record is gone from both replicas and the peer
carries a tombstone stamped with the sync time. -/
theorem sync_propagates_deletions_witness :
    "d1" ∈ delSelfDB.deleted_ulids 7 cnow ∧
    delSelfDB.rowOf "d1" = none ∧ delOtherSynced.rowOf "d1" = none ∧
    ("d1", some cnow) ∈ delOtherSynced.tombstones := by
  obtain ⟨h1, _⟩ := sync_propagates_deletions delSelfDB delOtherDB cnow 7
    delSelfDB delOtherSynced [WriteOp.deleteOp false "d1"]
    (by unfold DB.WF commaFree; decide)
    (by unfold DB.WF commaFree; decide)
    (by unfold SuffFree; decide)
    (by unfold LiveTombDisj; decide)
    (by unfold LiveTombDisj; decide)
    (by decide)
    (by decide)
  obtain ⟨ha, hb, hc, _⟩ := h1 "d1" (by decide)
  exact ⟨by decide, ha, hb, hc (by decide) (by decide)⟩

/-- C4 (counterexample): deletion propagation fails without the
live-tombstone disjointness proviso.  Identifier `u1` is tombstoned
within the window on the local replica and not on the (empty) peer, yet
after the sync pass `u1` is live on BOTH replicas: the local replica
also held a live `u1` row, and the content loop re-pushes it after the
tombstone phase found nothing to delete on the peer. -/
theorem sync_deletion_counterexample :
    "u1" ∈ zombieSelfDB.deleted_ulids 7 cnow ∧
    "u1" ∉ emptyDB.deleted_ulids 7 cnow ∧
    sync zombieSelfDB emptyDB cnow 7 =
      .ok (zombieRes1.1, zombieRes1.2.1, zombieRes1.2.2) ∧
    zombieRes1.1.rowOf "u1" ≠ none ∧
    zombieRes1.2.1.rowOf "u1" ≠ none := by decide

end RustTasks
